import Mathlib

/-!
# NTFS-defused: free-space bitmap allocator (`alloc.c`)

A shallow embedding of the bitmap operations of `src/alloc.c`.

* `secno` and every `unsigned` value is a `Nat`, reduced with `u32` wherever
  the C arithmetic can leave the 32-bit range; `int` values are `Int`,
  reduced with `toI32`.
* A bitmap buffer (`__le32 *bmp`) is a function from the word index to the
  CPU value of the word; `le32_to_cpu` / `cpu_to_le32` are the identity on
  values.
* The buffer cache is part of the state: `bitmaps r` is what
  `ntfs_map_bitmap(s, r, ..)` returns (`none` for a failed map) and `dmap`
  what `ntfs_map_dnode_bitmap(s, ..)` returns.  A store through a mapped
  buffer replaces the buffer in the state.
* `while` loops whose trip count is not syntactically bounded carry a fuel
  argument and return `none` when it runs out; the fuel lemmas below show
  that this never happens for the fuel the callers pass.
-/

namespace NtfsAlloc

/-! ## Machine arithmetic -/

/-- Reduction of an unsigned value to 32 bits. -/
def u32 (x : Nat) : Nat := x % 4294967296

/-- Conversion of an `int` to `unsigned` (two's complement). -/
def toU32 (x : Int) : Nat := (x % 4294967296).toNat

/-- Conversion of a wide value to a 32-bit `int` (two's complement). -/
def toI32 (x : Int) : Int :=
  if x % 4294967296 < 2147483648 then x % 4294967296 else x % 4294967296 - 4294967296

/-- Bitwise complement of a 32-bit unsigned value, the C operator `~`. -/
def not32 (x : Nat) : Nat := 4294967295 ^^^ u32 x

/-- The value `x - 1` in 32-bit unsigned arithmetic. -/
def dec32 (x : Nat) : Nat := u32 (x + 4294967295)

/-! ## State -/

/-- A bitmap buffer: 512 little-endian 32-bit words, by word index. -/
abbrev Bmp := Nat → Nat

/-- Modelled from the spec: the filesystem session fields of spec §6 and the
allocator hint state of spec §3, which are the fields of `struct ntfs_sb_info`
the code reads and writes (the declaration, in `ntfs_fn.h`, is not part of
`src/`), together with the content of the buffer cache for the bitmaps.  The
sizes are `unsigned`, `sb_c_bitmap` and `sb_max_fwd_alloc` are `int`: the code
compares the former with `-1` and an `int` with the latter. -/
structure Sb where
  sb_fs_size : Nat
  sb_dirband_start : Nat
  sb_dirband_size : Nat
  sb_chk : Nat
  sb_c_bitmap : Int
  sb_max_fwd_alloc : Int
  bitmaps : Nat → Option Bmp
  dmap : Option Bmp

/-- Modelled from the spec: `ntfs_map_bitmap` (the buffer-cache collaborator
`map_region(region_index, purpose_tag) -> bitmap_words | fail` of spec §6),
which is not part of `src/`.  It yields the buffer of the region or fails. -/
def ntfs_map_bitmap (s : Sb) (bmp_block : Nat) : Option Bmp := s.bitmaps bmp_block

/-- Modelled from the spec: `ntfs_map_dnode_bitmap` (the collaborator
`map_directory_bitmap() -> bitmap_words | fail` of spec §6), which is not part
of `src/`. -/
def ntfs_map_dnode_bitmap (s : Sb) : Option Bmp := s.dmap

/-- A store `bmp[idx] = w` into a mapped buffer. -/
def bmp_store (bmp : Bmp) (idx w : Nat) : Bmp := fun j => if j = idx then w else bmp j

/-- The state after the buffer of main region `r` has been modified to `bmp`. -/
def put_bitmap (s : Sb) (r : Nat) (bmp : Bmp) : Sb :=
  { s with bitmaps := fun j => if j = r then some bmp else s.bitmaps j }

/-- The state after the directory-band bitmap buffer has been modified. -/
def put_dmap (s : Sb) (bmp : Bmp) : Sb := { s with dmap := some bmp }

/-! ## BitRun -/

/-- Bit `o` of a bitmap buffer is set (the sector is free): the C test
`(bmp[o >> 5] >> (o & 0x1f)) & 1`. -/
def bmp_free (bmp : Bmp) (o : Nat) : Bool := (bmp (o >>> 5) >>> (o &&& 0x1f)) &&& 1 != 0

/-- Modelled from the spec: the scan of `tstbits` (BitRun, spec §4.1), with
`rem` bits left to test and `i` bits tested. -/
def tstbits_scan (bmp : Bmp) (b : Nat) : Nat → Nat → Nat
  | 0, _ => 0
  | rem + 1, i =>
    if b + i < 0x4000 ∧ bmp_free bmp (b + i) = true then tstbits_scan bmp b rem (i + 1)
    else i + 1

/-- Modelled from the spec: `tstbits` (BitRun, spec §4.1), declared in
`ntfs_fn.h`, which is not part of `src/`.  It returns 0 if all `n` bits from
`b` on are free, otherwise the distance from `b` to the position just past the
first bit that is not free.  A position outside the 16384-bit region is not a
free bit, so a run that leaves the region is never reported free. -/
def tstbits (bmp : Bmp) (b n : Nat) : Nat := tstbits_scan bmp b n 0

/-! ## `alloc_in_bmp` -/

/-- The re-alignment `q = ((q-1)&~(n-1))+n` in 32-bit unsigned arithmetic. -/
def align_up (q n : Nat) : Nat := u32 ((dec32 q &&& not32 (dec32 n)) + n)

/-- The loop of `alloc_in_bmp` lines 86-95 (scan after the hint, wrap once),
entered with `q` and the flag `b`.  The result is the pair `(q, a)` at the
exit of the loop; `none` when the fuel runs out. -/
def scan_near (bmp : Bmp) (nr n len : Nat) : Nat → Nat → Bool → Option (Nat × Nat)
  | 0, _, _ => none
  | fuel + 1, q, b =>
    let a := tstbits bmp q len
    if a = 0 then some (q, a)
    else
      let q1 := u32 (q + a)
      let q2 := if n ≠ 1 then align_up q1 n else q1
      if b = false then
        if q2 >>> 5 ≠ nr >>> 5 then scan_near bmp nr n len fuel (nr &&& 0x1f) true
        else scan_near bmp nr n len fuel q2 false
      else if q2 > nr then some (q2, a)
      else scan_near bmp nr n len fuel q2 true

/-- The loop `while (k & 0x80000000) { q--; k <<= 1; }` of lines 109-111.
`bits` counts the shifts left before the 32-bit `k` is zero. -/
def back_up : Nat → Nat → Nat → Nat
  | 0, _, q => q
  | bits + 1, k, q =>
    if k &&& 0x80000000 ≠ 0 then back_up bits (u32 (k <<< 1)) (dec32 q) else q

/-- The loop of lines 114-118 (scan confined to word `i`); the result is
`(q, a)` at the exit, `none` when the fuel runs out. -/
def scan_word (bmp : Bmp) (n len i : Nat) : Nat → Nat → Option (Nat × Nat)
  | 0, _ => none
  | fuel + 1, q =>
    let a := tstbits bmp q len
    if a = 0 then some (q, a)
    else
      let q1 := u32 (q + a)
      let q2 := if n ≠ 1 then align_up q1 n else q1
      if q2 >>> 5 > i then some (q2, a)
      else scan_word bmp n len i fuel q2

/-- Fuel handed to the two scanning loops: more than the bits of a region. -/
def scan_fuel : Nat := 0x4100

/-- Lines 106-113: the bit at which the scan of word `i` starts, backed up
over the free bits that end the previous word and re-aligned. -/
def word_start (bmp : Bmp) (n i : Nat) : Nat :=
  let q0 := u32 (i <<< 5)
  let q1 := if i > 0 then back_up 32 (u32 (bmp (i - 1))) q0 else q0
  if n ≠ 1 then align_up q1 n else q1

/-- The body of the `do ... while` of lines 103-125 for word `i`: `some q`
when a run was found at `q` (the `goto rt`), `none` for `cont`. -/
def try_word (bmp : Bmp) (n len i : Nat) : Option Nat :=
  if bmp i = 0 then none
  else if len ≥ 0x3f ∧ bmp i ≠ 0xffffffff then none
  else
    match scan_word bmp n len i scan_fuel (word_start bmp n i) with
    | some (q, 0) => some q
    | _ => none

/-- The `do ... while (i != nr)` loop of lines 102-125 over the words of the
region; `cnt` bounds the words still to visit (the index runs modulo 512). -/
def scan_region (bmp : Bmp) (n len nr : Nat) : Nat → Nat → Option Nat
  | 0, _ => none
  | cnt + 1, i =>
    match try_word bmp n len i with
    | some q => some q
    | none =>
      let i1 := (i + 1) &&& 0x1ff
      if i1 ≠ nr then scan_region bmp n len nr cnt i1 else none

/-- The three search stages of `alloc_in_bmp` (lines 81-125): the value of
`ret` at label `rt`. -/
def alloc_search (bmp : Bmp) (bs nr n forward : Nat) : Nat :=
  let len := u32 (n + forward)
  if tstbits bmp nr len = 0 then u32 (bs + nr)
  else
    match scan_near bmp nr n len scan_fuel (nr + n) false with
    | some (q, 0) => u32 (bs + q)
    | _ =>
      match scan_region bmp n len (nr >>> 5) 512 (nr >>> 5) with
      | some q => u32 (bs + q)
      | none => 0

/-- The mask `~(((1 << n) - 1) << (ret & 0x1f))` of lines 128 and 133. -/
def alloc_mask (n ret : Nat) : Nat := not32 (((1 <<< n) - 1) <<< (ret &&& 0x1f))

/-- Translation of `alloc_in_bmp` (lines 62-140): the returned sector and the
state after the call. -/
def alloc_in_bmp (s : Sb) (near n forward : Nat) : Nat × Sb :=
  let bs := near &&& not32 0x3fff
  let nr := (near &&& 0x3fff) &&& not32 (dec32 n)
  if n ≠ 1 ∧ n ≠ 4 then (0, s)
  else
    match (if bs ≠ not32 0x3fff then ntfs_map_bitmap s (near >>> 14)
           else ntfs_map_dnode_bitmap s) with
    | none => (0, s)
    | some bmp =>
      let ret := alloc_search bmp bs nr n forward
      if ret ≠ 0 then
        let idx := (ret &&& 0x3fff) >>> 5
        if s.sb_chk ≠ 0 ∧ (ret >>> 14 ≠ bs >>> 14 ∨
            (bmp idx ||| alloc_mask n ret) ≠ 0xffffffff) then (0, s)
        else
          let bmp1 := bmp_store bmp idx (bmp idx &&& alloc_mask n ret)
          (ret, if bs ≠ not32 0x3fff then put_bitmap s (near >>> 14) bmp1 else put_dmap s bmp1)
      else (0, s)

/-! ## `ntfs_alloc_if_possible`, `ntfs_free_sectors`, `ntfs_free_dnode` -/

/-- Translation of `ntfs_alloc_if_possible` (lines 236-250): 1 and the state
with the bit of `sec` cleared when the bit was set, else 0. -/
def ntfs_alloc_if_possible (s : Sb) (sec : Nat) : Nat × Sb :=
  match ntfs_map_bitmap s (sec >>> 14) with
  | none => (0, s)
  | some bmp =>
    let idx := (sec &&& 0x3fff) >>> 5
    if bmp idx &&& u32 (1 <<< (sec &&& 0x1f)) ≠ 0 then
      (1, put_bitmap s (sec >>> 14) (bmp_store bmp idx (bmp idx &&& not32 (1 <<< (sec &&& 0x1f)))))
    else (0, s)

/-- How a call of `ntfs_free_sectors` or `ntfs_free_dnode` ended: normally,
with one of the `ntfs_error` reports, or silently on a failed map. -/
inductive FreeResult where
  | done
  | err_reserved
  | err_not_allocated (sec : Nat)
  | err_not_aligned
  | map_failed
  deriving DecidableEq, Repr

/-- The loop of `ntfs_free_sectors` from label `new_map` / `new_tst` on
(lines 267-288), with `n + 1` sectors left to free.  Within one region the C
code keeps the buffer mapped; the state holds the same buffer, so looking it
up again at every bit yields the same words. -/
def free_loop : Nat → Sb → Nat → Sb × FreeResult
  | 0, s, sec =>
    match ntfs_map_bitmap s (sec >>> 14) with
    | none => (s, FreeResult.map_failed)
    | some bmp =>
      let idx := (sec &&& 0x3fff) >>> 5
      if (bmp idx >>> (sec &&& 0x1f)) &&& 1 ≠ 0 then (s, FreeResult.err_not_allocated sec)
      else
        (put_bitmap s (sec >>> 14) (bmp_store bmp idx (bmp idx ||| u32 (1 <<< (sec &&& 0x1f)))),
          FreeResult.done)
  | m + 1, s, sec =>
    match ntfs_map_bitmap s (sec >>> 14) with
    | none => (s, FreeResult.map_failed)
    | some bmp =>
      let idx := (sec &&& 0x3fff) >>> 5
      if (bmp idx >>> (sec &&& 0x1f)) &&& 1 ≠ 0 then (s, FreeResult.err_not_allocated sec)
      else
        free_loop m
          (put_bitmap s (sec >>> 14) (bmp_store bmp idx (bmp idx ||| u32 (1 <<< (sec &&& 0x1f)))))
          (u32 (sec + 1))

/-- Translation of `ntfs_free_sectors` (lines 254-289). -/
def ntfs_free_sectors (s : Sb) (sec n : Nat) : Sb × FreeResult :=
  if n = 0 then (s, FreeResult.done)
  else if sec < 0x12 then (s, FreeResult.err_reserved)
  else
    let m1 := toI32 (toU32 s.sb_max_fwd_alloc + (if n > 0xffff then 0xffff else n) : Nat)
    let m2 := if m1 > 0xffffff then 0xffffff else m1
    free_loop (n - 1) { s with sb_max_fwd_alloc := m2 } sec

/-- Translation of `ntfs_free_dnode` (lines 343-363). -/
def ntfs_free_dnode (s : Sb) (dno : Nat) : Sb × FreeResult :=
  if s.sb_chk ≠ 0 ∧ dno &&& 3 ≠ 0 then (s, FreeResult.err_not_aligned)
  else if dno < s.sb_dirband_start ∨ dno ≥ u32 (s.sb_dirband_start + s.sb_dirband_size) then
    ntfs_free_sectors s dno 4
  else
    let ssec := u32 (dno + (4294967296 - s.sb_dirband_start)) / 4
    match ntfs_map_dnode_bitmap s with
    | none => (s, FreeResult.map_failed)
    | some bmp =>
      (put_dmap s (bmp_store bmp (ssec >>> 5) (bmp (ssec >>> 5) ||| u32 (1 <<< (ssec &&& 0x1f)))),
        FreeResult.done)

/-! ## `ntfs_alloc_sector` and `alloc_in_dirband` -/

/-- The left shift `x << 14` of an `int` region index handed to a `secno`
parameter. -/
def shl14 (x : Int) : Nat := toU32 (x * 16384)

/-- The `for` loop of `ntfs_alloc_sector` lines 177-196 with `cnt` iterations
left, at index `i`: the sector found (0 when the loop ran to its end) and the
state. -/
def search_regions (n : Nat) (near_bmp : Int) (n_bmps : Nat) (forward : Int) :
    Nat → Int → Sb → Nat × Sb
  | 0, _, s => (0, s)
  | cnt + 1, i, s =>
    let r1 := if toU32 (near_bmp + i) < n_bmps
      then alloc_in_bmp s (shl14 (near_bmp + i)) n (toU32 forward) else (0, s)
    if r1.1 ≠ 0 then (r1.1, { r1.2 with sb_c_bitmap := near_bmp + i })
    else
      let r2 :=
        if forward = 0 then
          (if near_bmp - i - 1 ≥ 0
            then alloc_in_bmp r1.2 (shl14 (near_bmp - i - 1)) n (toU32 forward) else (0, r1.2),
           near_bmp - i - 1)
        else
          (if toU32 (near_bmp + i) ≥ n_bmps
            then alloc_in_bmp r1.2 (u32 (toU32 (near_bmp + i - n_bmps) <<< 14)) n (toU32 forward)
            else (0, r1.2),
           toI32 (toU32 (near_bmp + i - n_bmps)))
      if r2.1.1 ≠ 0 then (r2.1.1, { r2.1.2 with sb_c_bitmap := r2.2 })
      else
        let r3 := if i = 1 ∧ r2.1.2.sb_c_bitmap ≠ -1
          then alloc_in_bmp r2.1.2 (shl14 r2.1.2.sb_c_bitmap) n (toU32 forward) else (0, r2.1.2)
        if r3.1 ≠ 0 then r3
        else search_regions n near_bmp n_bmps forward cnt (i + 1) r3.2

/-- The retry loop of `ntfs_alloc_sector` from label `less_fwd` to label `ret`
(lines 176-204).  The result is the sector, the value of `forward` at label
`ret`, the state and the number of times `goto less_fwd` was taken; `none`
when the fuel runs out. -/
def less_fwd (n : Nat) (near_bmp : Int) (n_bmps : Nat) (f_p : Bool) :
    Nat → Int → Sb → Option (Nat × Int × Sb × Nat)
  | 0, _, _ => none
  | fuel + 1, forward, s =>
    let r := search_regions n near_bmp n_bmps forward n_bmps 0 s
    if r.1 ≠ 0 then some (r.1, forward, r.2, 0)
    else if f_p = false ∧ forward ≠ 0 then
      match less_fwd n near_bmp n_bmps f_p fuel (Int.tdiv forward 2)
          { r.2 with sb_max_fwd_alloc := Int.tdiv (toI32 (forward * 3)) 4 } with
      | some (sec, fw, s1, k) => some (sec, fw, s1, k + 1)
      | none => none
    else some (0, forward, r.2, 0)

/-- The pre-allocation loop of lines 207-213 with `cnt` iterations left at
index `i`. -/
def prealloc (sec : Nat) : Nat → Nat → Sb → Nat × Sb
  | 0, _, s => (sec, s)
  | cnt + 1, i, s =>
    let r := ntfs_alloc_if_possible s (u32 (sec + i + 1))
    if r.1 = 0 then (0, r.2) else prealloc sec cnt (i + 1) r.2

/-- The local variables of `ntfs_alloc_sector` after lines 158-166. -/
structure NearResult where
  f_p : Bool
  forward : Int
  near_bmp : Int
  n_bmps : Nat
  sec : Nat
  s : Sb

/-- Lines 158-166 of `ntfs_alloc_sector`: the sign split and the allocation
near the hint; `sec` is non-zero when the `goto ret` of line 164 was taken. -/
def alloc_near (s : Sb) (near n : Nat) (forward0 : Int) : NearResult :=
  let f_p := decide (forward0 < 0)
  let forward := if forward0 < 0 then toI32 (-forward0) else forward0
  let n_bmps := u32 (s.sb_fs_size + 0x4000 - 1) >>> 14
  if near ≠ 0 ∧ near < s.sb_fs_size then
    let r := alloc_in_bmp s near n (toU32 (if f_p then forward else Int.tdiv forward 4))
    { f_p := f_p, forward := forward, near_bmp := toI32 (near >>> 14 : Nat), n_bmps := n_bmps,
      sec := r.1, s := r.2 }
  else
    { f_p := f_p, forward := forward, near_bmp := toI32 (n_bmps / 2 : Nat), n_bmps := n_bmps,
      sec := 0, s := s }

/-- The value of `forward` after the clamp of line 175. -/
def clamp_fwd (f_p : Bool) (forward : Int) (s : Sb) : Int :=
  if f_p = false ∧ forward > s.sb_max_fwd_alloc then s.sb_max_fwd_alloc else forward

/-- The state of `ntfs_alloc_sector` at label `ret`: the sector of the base
allocation, the sign flag, the value of `forward`, the state, and the number
of times `goto less_fwd` was taken. -/
structure BaseResult where
  sec : Nat
  f_p : Bool
  forward : Int
  s : Sb
  restarts : Nat

/-- The part of `ntfs_alloc_sector` before label `ret` (lines 158-204), the
base allocation, with fuel for the retry loop; `none` when the fuel runs
out. -/
def alloc_base (fuel : Nat) (s : Sb) (near n : Nat) (forward0 : Int) : Option BaseResult :=
  let r := alloc_near s near n forward0
  if r.sec ≠ 0 then
    some { sec := r.sec, f_p := r.f_p, forward := r.forward, s := r.s, restarts := 0 }
  else
    match less_fwd n r.near_bmp r.n_bmps r.f_p fuel (clamp_fwd r.f_p r.forward r.s) r.s with
    | some (sec2, fw2, s2, k) =>
      some { sec := sec2, f_p := r.f_p, forward := fw2, s := s2, restarts := k }
    | none => none

/-- Lines 205-215 of `ntfs_alloc_sector`: the pre-allocation after a base
allocation and the returned sector. -/
def alloc_finish (b : BaseResult) : Nat × Sb :=
  if b.sec ≠ 0 ∧ b.f_p = true then prealloc b.sec b.forward.toNat 0 b.s else (b.sec, b.s)

/-- Translation of `ntfs_alloc_sector` (lines 150-216) with fuel for the retry
loop; `none` when the fuel runs out. -/
def alloc_sector_fuel (fuel : Nat) (s : Sb) (near n : Nat) (forward : Int) : Option (Nat × Sb) :=
  (alloc_base fuel s near n forward).map alloc_finish

/-- Fuel for the retry loop: a 32-bit `forward` is zero after 32 halvings. -/
def fwd_fuel : Nat := 40

/-- Translation of `ntfs_alloc_sector` (lines 150-216).  The retry loop gets
`fwd_fuel` rounds, which it never uses up for a 32-bit `forward`. -/
def ntfs_alloc_sector (s : Sb) (near n : Nat) (forward : Int) : Nat × Sb :=
  match alloc_sector_fuel fwd_fuel s near n forward with
  | some r => r
  | none => (0, s)

/-- Translation of `alloc_in_dirband` (lines 218-232). -/
def alloc_in_dirband (s : Sb) (near : Nat) : Nat × Sb :=
  let nr0 := near
  let nr1 := if nr0 < s.sb_dirband_start then s.sb_dirband_start else nr0
  let nr2 := if nr1 ≥ u32 (s.sb_dirband_start + s.sb_dirband_size)
    then u32 (u32 (s.sb_dirband_start + s.sb_dirband_size) + (4294967296 - 4)) else nr1
  let nr3 := u32 (nr2 + (4294967296 - s.sb_dirband_start))
  let nr4 := nr3 >>> 2
  let r := alloc_in_bmp s (not32 0x3fff ||| nr4) 1 0
  if r.1 = 0 then (0, r.2)
  else (u32 (((r.1 &&& 0x3fff) <<< 2) + s.sb_dirband_start), r.2)

/-! ## `ntfs_check_free_dnodes` -/

/-- The loop `for (k = w; k; k >>= 1) if (k & 1) if (!--n) return 0` of line
308: `none` when the function returned 0 inside, else the remaining `n`. -/
def count_bits : Nat → Nat → Int → Option Int
  | 0, _, n => some n
  | bits + 1, k, n =>
    if k = 0 then some n
    else if k &&& 1 ≠ 0 then
      (if toI32 (n - 1) = 0 then none else count_bits bits (k >>> 1) (toI32 (n - 1)))
    else count_bits bits (k >>> 1) n

/-- The loop of lines 305-312 over the words `j .. 511` of the directory
bitmap, `cnt` words left. -/
def count_dmap (bmp : Bmp) : Nat → Nat → Int → Option Int
  | 0, _, n => some n
  | cnt + 1, j, n =>
    if bmp j = 0 then count_dmap bmp cnt (j + 1) n
    else
      match count_bits 32 (u32 (bmp j)) n with
      | none => none
      | some n1 => count_dmap bmp cnt (j + 1) n1

/-- The loop `for (k = 0xf; k; k <<= 4)` of lines 329-335 over the nibbles of
word `w`, `cnt` nibbles left. -/
def count_nibbles (w : Nat) : Nat → Nat → Int → Option Int
  | 0, _, n => some n
  | cnt + 1, k, n =>
    if k = 0 then some n
    else if w &&& k = k then
      (if toI32 (n - 1) = 0 then none else count_nibbles w cnt (u32 (k <<< 4)) (toI32 (n - 1)))
    else count_nibbles w cnt (u32 (k <<< 4)) n

/-- The loop of lines 326-336 over the words `j .. 511` of a main region. -/
def count_region (bmp : Bmp) : Nat → Nat → Int → Option Int
  | 0, _, n => some n
  | cnt + 1, j, n =>
    if bmp j = 0 then count_region bmp cnt (j + 1) n
    else
      match count_nibbles (u32 (bmp j)) 8 0xf n with
      | none => none
      | some n1 => count_region bmp cnt (j + 1) n1

/-- The block at label `chk_bmp` (lines 325-338) for a mapped or unmapped
region. -/
def chk_bmp (b : Option Bmp) (n : Int) : Option Int :=
  match b with
  | none => some n
  | some bmp => count_region bmp 512 0 n

/-- The loop from label `chk_next` (lines 320-340), entered with index `i`;
`none` when the fuel runs out. -/
def chk_next (s : Sb) (n_bmps b : Int) : Nat → Int → Int → Option Nat
  | 0, _, _ => none
  | fuel + 1, i, n =>
    let i1 := if i = b then i + 1 else i
    if i1 ≥ n_bmps then some 1
    else
      match chk_bmp (ntfs_map_bitmap s (toU32 i1)) n with
      | none => some 0
      | some n1 => chk_next s n_bmps b fuel (i1 + 1) n1

/-- Translation of `ntfs_check_free_dnodes` (lines 297-341) with explicit
fuel for the loop over the regions. -/
def check_free_dnodes_fuel (fuel : Nat) (s : Sb) (n : Int) : Option Nat :=
  let n_bmps := toI32 (u32 (s.sb_fs_size + 0x4000 - 1) >>> 14 : Nat)
  let b : Int := (toU32 s.sb_c_bitmap &&& 0x0fffffff : Nat)
  let r1 := match ntfs_map_dnode_bitmap s with
    | none => some n
    | some bmp => count_dmap bmp 512 0 n
  match r1 with
  | none => some 0
  | some n1 =>
    if s.sb_c_bitmap ≠ -1 then
      match chk_bmp (ntfs_map_bitmap s (toU32 b)) n1 with
      | none => some 0
      | some n2 => chk_next s n_bmps b fuel 1 n2
    else chk_next s n_bmps b fuel 0 n1

/-- Translation of `ntfs_check_free_dnodes`: the loop over the regions visits
an index at most once, so `n_bmps + 2` iterations suffice. -/
def ntfs_check_free_dnodes (s : Sb) (n : Int) : Option Nat :=
  check_free_dnodes_fuel ((u32 (s.sb_fs_size + 0x4000 - 1) >>> 14) + 2) s n

/-! ## `ntfs_chk_sectors` -/

/-- Translation of `chk_if_allocated` (lines 16-40): 0 when the sector is
allocated in its main region bitmap and, inside the directory band, its group
is allocated in the directory bitmap; 1 otherwise or on a failed map. -/
def chk_if_allocated (s : Sb) (sec : Nat) : Nat :=
  match ntfs_map_bitmap s (sec >>> 14) with
  | none => 1
  | some bmp =>
    if (bmp ((sec &&& 0x3fff) >>> 5) >>> (sec &&& 0x1f)) &&& 1 ≠ 0 then 1
    else if sec ≥ s.sb_dirband_start ∧
        sec < u32 (s.sb_dirband_start + s.sb_dirband_size) then
      let ssec := u32 (sec + (4294967296 - s.sb_dirband_start)) / 4
      match ntfs_map_dnode_bitmap s with
      | none => 1
      | some dbmp => if (dbmp (ssec >>> 5) >>> (ssec &&& 0x1f)) &&& 1 ≠ 0 then 1 else 0
    else 0

/-- The loop of `ntfs_chk_sectors` lines 56-57 with `cnt` sectors left, at
index `i`. -/
def chk_loop (s : Sb) (start : Nat) : Nat → Nat → Nat
  | 0, _ => 0
  | cnt + 1, i =>
    if chk_if_allocated s (u32 (start + i)) ≠ 0 then 1 else chk_loop s start cnt (i + 1)

/-- Translation of `ntfs_chk_sectors` (lines 47-60). -/
def ntfs_chk_sectors (s : Sb) (start : Nat) (len : Int) : Nat :=
  if u32 (start + toU32 len) < start ∨ start < 0x12 ∨
      u32 (start + toU32 len) > s.sb_fs_size then 1
  else if s.sb_chk ≥ 2 then chk_loop s start len.toNat 0
  else 0

/-! ## Vocabulary of the statements -/

/-- The bitmaps of a file system: the main region bitmaps, by region index,
and the compact directory-band bitmap. -/
inductive Region where
  | main (r : Nat)
  | dirband
  deriving DecidableEq

/-- The buffer of a region in a state, `none` when it cannot be mapped. -/
def region_bmp (s : Sb) : Region → Option Bmp
  | Region.main r => ntfs_map_bitmap s r
  | Region.dirband => ntfs_map_dnode_bitmap s

/-- Bit `o` of a region in a state (`true` is free), `none` when the region
cannot be mapped. -/
def region_bit (s : Sb) (R : Region) (o : Nat) : Option Bool :=
  (region_bmp s R).map (fun bmp => bmp_free bmp o)

/-- The state after the buffer of a region has been modified. -/
def put_region (s : Sb) : Region → Bmp → Sb
  | Region.main r, bmp => put_bitmap s r bmp
  | Region.dirband, bmp => put_dmap s bmp

/-- The region `alloc_in_bmp` selects from `near` (lines 76-80): the directory
bitmap when the base `near & ~0x3fff` is `~0x3fff`, else main region
`near >> 14`. -/
def selected (near : Nat) : Region :=
  if near &&& not32 0x3fff ≠ not32 0x3fff then Region.main (near >>> 14) else Region.dirband

/-- The bit of sector `sec` in the main bitmaps of a state. -/
def sector_bit (s : Sb) (sec : Nat) : Option Bool :=
  region_bit s (Region.main (sec >>> 14)) (sec &&& 0x3fff)

/-- The offset `o` of region `R` is the bit of one of the `k` sectors
`sec, sec + 1, ..` (sector numbers are 32-bit). -/
def in_run (sec k : Nat) (R : Region) (o : Nat) : Prop :=
  ∃ i, i < k ∧ R = Region.main (u32 (sec + i) >>> 14) ∧ o = u32 (sec + i) &&& 0x3fff

/-- The scalar fields of the superblock information agree in two states. -/
def same_sb (s t : Sb) : Prop :=
  t.sb_fs_size = s.sb_fs_size ∧ t.sb_dirband_start = s.sb_dirband_start ∧
  t.sb_dirband_size = s.sb_dirband_size ∧ t.sb_chk = s.sb_chk ∧
  t.sb_c_bitmap = s.sb_c_bitmap ∧ t.sb_max_fwd_alloc = s.sb_max_fwd_alloc

/-- The number of free bits (bits set) among the 32 bits of a word. -/
def free_bits (w : Nat) : Nat := ((List.range 32).filter (fun i => Nat.testBit w i)).length

/-- The number of nibble-aligned groups of four free bits in a 32-bit word. -/
def free_nibbles (w : Nat) : Nat :=
  ((List.range 8).filter (fun i => (w >>> (4 * i)) &&& 0xf = 0xf)).length

/-- The sum of `f` over the 512 words of a buffer, 0 for an unmapped one. -/
def sum_words (f : Nat → Nat) (b : Option Bmp) : Nat :=
  match b with
  | none => 0
  | some bmp => ((List.range 512).map (fun j => f (bmp j))).sum

/-- The quantity `ntfs_check_free_dnodes` is said to compare with `min_count`:
the free bits of the compact directory bitmap plus the nibble-aligned all-free
groups in the words of the main regions `0 .. n_bmps - 1`. -/
def free_dnode_estimate (s : Sb) : Nat :=
  sum_words free_bits (ntfs_map_dnode_bitmap s) +
    ((List.range (u32 (s.sb_fs_size + 0x4000 - 1) >>> 14)).map
      (fun r => sum_words free_nibbles (ntfs_map_bitmap s r))).sum

/-- The bound on `sb_max_fwd_alloc` the spec states. -/
def fwd_bounded (s : Sb) : Prop := 0 ≤ s.sb_max_fwd_alloc ∧ s.sb_max_fwd_alloc ≤ 0xffffff

/-- The calls `ntfs_alloc_if_possible(s, sec)`, `.. (s, sec + 1)`, .. on `k`
consecutive sectors, in order: the final state when every call returned 1,
`none` as soon as one call returned 0. -/
def claim_run : Nat → Sb → Nat → Option Sb
  | 0, s, _ => some s
  | k + 1, s, sec =>
    if (ntfs_alloc_if_possible s sec).1 = 1
    then claim_run k (ntfs_alloc_if_possible s sec).2 (u32 (sec + 1)) else none

/-! ## Concrete states used by the examples -/

/-- A bitmap buffer with every bit free. -/
def all_free : Bmp := fun _ => 0xffffffff

/-- A bitmap buffer with every bit allocated. -/
def all_used : Bmp := fun _ => 0

/-- A file system of four regions, all of them and the directory bitmap
entirely free, unchecked mode. -/
def fs_free : Sb :=
  { sb_fs_size := 0x10000, sb_dirband_start := 0x1000, sb_dirband_size := 0x100,
    sb_chk := 0, sb_c_bitmap := -1, sb_max_fwd_alloc := 0xffffff,
    bitmaps := fun r => if r < 4 then some all_free else none,
    dmap := some all_free }

/-- A file system of four regions, entirely allocated. -/
def fs_used : Sb :=
  { sb_fs_size := 0x10000, sb_dirband_start := 0x1000, sb_dirband_size := 0x100,
    sb_chk := 0, sb_c_bitmap := -1, sb_max_fwd_alloc := 100,
    bitmaps := fun r => if r < 4 then some all_used else none,
    dmap := some all_used }

/-- Region 0 with sector 0x13 free and every other sector allocated. -/
def bmp_0x13 : Bmp := fun j => if j = 0 then 0x80000 else 0

/-- A file system in which only sector 0x13 is free. -/
def fs_0x13 : Sb :=
  { sb_fs_size := 0x10000, sb_dirband_start := 0x1000, sb_dirband_size := 0x100,
    sb_chk := 0, sb_c_bitmap := -1, sb_max_fwd_alloc := 0,
    bitmaps := fun r => if r = 0 then some bmp_0x13 else if r < 4 then some all_used else none,
    dmap := some all_used }

/-- A directory bitmap with group 0 allocated and group 1 free. -/
def bmp_group1 : Bmp := fun j => if j = 0 then 2 else 0

/-- A file system whose directory band has a single group (4 sectors), which
is allocated, while bit 1 of the compact bitmap is set. -/
def fs_band1 : Sb :=
  { sb_fs_size := 0x10000, sb_dirband_start := 0x1000, sb_dirband_size := 4,
    sb_chk := 1, sb_c_bitmap := -1, sb_max_fwd_alloc := 0,
    bitmaps := fun r => if r < 4 then some all_used else none,
    dmap := some bmp_group1 }

/-- A directory bitmap with the groups 0 to 3 free. -/
def bmp_groups4 : Bmp := fun j => if j = 0 then 0xf else 0

/-- A file system whose directory band has four groups, all of them free. -/
def fs_band4 : Sb :=
  { sb_fs_size := 0x10000, sb_dirband_start := 0x1000, sb_dirband_size := 0x10,
    sb_chk := 1, sb_c_bitmap := -1, sb_max_fwd_alloc := 0,
    bitmaps := fun r => if r < 4 then some all_used else none,
    dmap := some bmp_groups4 }

/-- Region 0 with the sectors 32 to 63 free and every other sector allocated. -/
def bmp_word1 : Bmp := fun j => if j = 1 then 0xffffffff else 0

/-- A file system of two regions whose region hint is 1: the directory bitmap
and region 1 are entirely allocated, region 0 has 32 free sectors. -/
def fs_hint1 : Sb :=
  { sb_fs_size := 0x8000, sb_dirband_start := 0x1000, sb_dirband_size := 0x100,
    sb_chk := 1, sb_c_bitmap := 1, sb_max_fwd_alloc := 0,
    bitmaps := fun r => if r = 0 then some bmp_word1 else if r = 1 then some all_used else none,
    dmap := some all_used }

/-- A file system of 2^32 - 1 sectors: the directory bitmap is entirely free,
the last main region (index 0x3ffff) is entirely allocated. -/
def fs_alias : Sb :=
  { sb_fs_size := 0xffffffff, sb_dirband_start := 0x1000, sb_dirband_size := 0x100,
    sb_chk := 1, sb_c_bitmap := -1, sb_max_fwd_alloc := 0,
    bitmaps := fun _ => some all_used,
    dmap := some all_free }

/-! ## Further vocabulary -/

/-- The words of a buffer are 32-bit values, as `__le32` words are. -/
def bmp_wf (bmp : Bmp) : Prop := ∀ j, bmp j < 4294967296

/-- Two states with the same checked-mode level and the same bitmap buffers. -/
def maps_eq (s t : Sb) : Prop :=
  t.sb_chk = s.sb_chk ∧ t.bitmaps = s.bitmaps ∧ t.dmap = s.dmap

/-- The run of `len` bits from offset `q` on lies inside the region and is
entirely free. -/
def run_free (bmp : Bmp) (q len : Nat) : Prop :=
  ∀ j, j < len → q + j < 0x4000 ∧ bmp_free bmp (q + j) = true

/-- The bounds test of `ntfs_chk_sectors` (lines 49-50) passes: `start + len`
does not wrap below `start`, `start` is not reserved and `start + len` is not
beyond the file system, all in 32-bit unsigned arithmetic. -/
def bounds_ok (s : Sb) (start : Nat) (len : Int) : Prop :=
  ¬ (u32 (start + toU32 len) < start) ∧ 0x12 ≤ start ∧ u32 (start + toU32 len) ≤ s.sb_fs_size

/-- Sector `sec` is allocated in the bitmap of its main region and, when it
lies in the directory band, its group is allocated in the directory bitmap. -/
def allocated_everywhere (s : Sb) (sec : Nat) : Prop :=
  sector_bit s sec = some false ∧
  ((s.sb_dirband_start ≤ sec ∧ sec < u32 (s.sb_dirband_start + s.sb_dirband_size)) →
    region_bit s Region.dirband (u32 (sec + (4294967296 - s.sb_dirband_start)) / 4) = some false)

/-- The state `s` with the check level `sb_chk` replaced by `c`. -/
def set_chk (s : Sb) (c : Nat) : Sb :=
  { sb_fs_size := s.sb_fs_size, sb_dirband_start := s.sb_dirband_start,
    sb_dirband_size := s.sb_dirband_size, sb_chk := c, sb_c_bitmap := s.sb_c_bitmap,
    sb_max_fwd_alloc := s.sb_max_fwd_alloc, bitmaps := s.bitmaps, dmap := s.dmap }

/-- A region whose bits 0..3 are allocated and whose other bits are free. -/
def bmp_low4 : Bmp := fun j => if j = 0 then 0xfffffff0 else 0xffffffff

/-- The file system `fs_free` with region 0 replaced by `bmp_low4`. -/
def fs_low4 : Sb :=
  { sb_fs_size := 0x10000, sb_dirband_start := 0x1000, sb_dirband_size := 0x100,
    sb_chk := 1, sb_c_bitmap := -1, sb_max_fwd_alloc := 0xffffff,
    bitmaps := fun r => if r = 0 then some bmp_low4 else if r < 4 then some all_free else none,
    dmap := some all_free }

/-- The halving `forward /= 2` of line 200 (C division of an `int`). -/
def halve (f : Int) : Int := Int.tdiv f 2

/-- A file system of 2^32 - 1 sectors with every bit of every bitmap free. -/
def fs_wrap : Sb :=
  { sb_fs_size := 0xffffffff, sb_dirband_start := 0x1000, sb_dirband_size := 0x100,
    sb_chk := 1, sb_c_bitmap := -1, sb_max_fwd_alloc := 0xffffff,
    bitmaps := fun _ => some all_free, dmap := some all_free }

/-- A region whose only free bits are the 96 bits of words 100, 101 and
102. -/
def bmp_far : Bmp := fun j => if 100 ≤ j ∧ j ≤ 102 then 0xffffffff else 0

/-- A file system of four regions, allocated except for `bmp_far` in region
1. -/
def fs_far : Sb :=
  { sb_fs_size := 0x10000, sb_dirband_start := 0x1000, sb_dirband_size := 0x100,
    sb_chk := 1, sb_c_bitmap := -1, sb_max_fwd_alloc := 0xffffff,
    bitmaps := fun r => if r = 1 then some bmp_far else if r < 4 then some all_used else none,
    dmap := some all_used }

/-- The state in which pass `j` of the retry loop of `ntfs_alloc_sector`
(label `less_fwd`) runs, when the loop was entered in state `s` with
`forward = f` and the passes before `j` found nothing: pass 0 runs in `s`;
before pass `j + 1`, line 199 has set the ceiling to `forward * 3 / 4` for the
value `forward` had in pass `j`, which is `f` halved `j` times. -/
def pass_state (s : Sb) (f : Int) : Nat → Sb
  | 0 => s
  | j + 1 => { s with sb_max_fwd_alloc := Int.tdiv (toI32 (halve^[j] f * 3)) 4 }

/-! ## Lemmas and theorems -/

theorem shr5 (o : Nat) : o >>> 5 = o / 32 := by
  rw [Nat.shiftRight_eq_div_pow]

theorem shr14 (o : Nat) : o >>> 14 = o / 16384 := by
  rw [Nat.shiftRight_eq_div_pow]

theorem and1f (o : Nat) : o &&& 0x1f = o % 32 := Nat.and_pow_two_sub_one_eq_mod o 5

theorem and3fff (o : Nat) : o &&& 0x3fff = o % 16384 := Nat.and_pow_two_sub_one_eq_mod o 14

theorem and1ff (o : Nat) : o &&& 0x1ff = o % 512 := Nat.and_pow_two_sub_one_eq_mod o 9

theorem and3 (o : Nat) : o &&& 3 = o % 4 := Nat.and_pow_two_sub_one_eq_mod o 2

theorem bmp_free_eq (bmp : Bmp) (o : Nat) :
    bmp_free bmp o = (bmp (o / 32)).testBit (o % 32) := by
  unfold bmp_free Nat.testBit
  rw [shr5, and1f, Nat.and_comm]

theorem u32_lt (x : Nat) : u32 x < 4294967296 := Nat.mod_lt _ (by norm_num)

theorem u32_of_lt {x : Nat} (h : x < 4294967296) : u32 x = x := Nat.mod_eq_of_lt h

theorem testBit_u32 (x i : Nat) : (u32 x).testBit i = (decide (i < 32) && x.testBit i) := by
  unfold u32
  exact Nat.testBit_mod_two_pow x 32 i

theorem testBit_ones32 (i : Nat) : (4294967295 : Nat).testBit i = decide (i < 32) :=
  Nat.testBit_two_pow_sub_one 32 i

theorem testBit_not32 (x i : Nat) :
    (not32 x).testBit i = (decide (i < 32) && !x.testBit i) := by
  unfold not32
  rw [Nat.testBit_xor, testBit_ones32, testBit_u32]
  by_cases h : i < 32 <;> simp [h]

theorem not32_3fff : not32 0x3fff = 0xffffc000 := by decide

theorem not32_0 : not32 0 = 0xffffffff := by decide

theorem not32_3 : not32 3 = 0xfffffffc := by decide

theorem and_fffffffc (x : Nat) (h : x < 4294967296) : x &&& 0xfffffffc = x - x % 4 := by
  apply Nat.eq_of_testBit_eq
  intro i
  have h1 : x - x % 4 = 4 * (x / 4) := by omega
  rw [h1, Nat.testBit_and]
  have h2 : (0xfffffffc : Nat) = 0x3fffffff <<< 2 := by decide
  have h3 : 4 * (x / 4) = (x >>> 2) <<< 2 := by
    rw [Nat.shiftLeft_eq, Nat.shiftRight_eq_div_pow]; omega
  rw [h2, h3, Nat.testBit_shiftLeft, Nat.testBit_shiftLeft, Nat.testBit_shiftRight]
  have h4 : (0x3fffffff : Nat) = 2 ^ 30 - 1 := by decide
  rw [h4, Nat.testBit_two_pow_sub_one]
  by_cases hi : i ≥ 2
  · have : 2 + (i - 2) = i := by omega
    rw [this]
    by_cases hj : i - 2 < 30
    · simp [hi, hj]
    · have : x.testBit i = false := by
        apply Nat.testBit_lt_two_pow
        calc x < 2 ^ 32 := h
          _ ≤ 2 ^ i := Nat.pow_le_pow_right (by norm_num) (by omega)
      simp [hi, hj, this]
  · simp [hi]

theorem and_ffffc000 (x : Nat) (h : x < 4294967296) : x &&& 0xffffc000 = x - x % 16384 := by
  apply Nat.eq_of_testBit_eq
  intro i
  have h1 : x - x % 16384 = 16384 * (x / 16384) := by omega
  rw [h1, Nat.testBit_and]
  have h2 : (0xffffc000 : Nat) = 0x3ffff <<< 14 := by decide
  have h3 : 16384 * (x / 16384) = (x >>> 14) <<< 14 := by
    rw [Nat.shiftLeft_eq, Nat.shiftRight_eq_div_pow]; omega
  rw [h2, h3, Nat.testBit_shiftLeft, Nat.testBit_shiftLeft, Nat.testBit_shiftRight]
  have h4 : (0x3ffff : Nat) = 2 ^ 18 - 1 := by decide
  rw [h4, Nat.testBit_two_pow_sub_one]
  by_cases hi : i ≥ 14
  · have : 14 + (i - 14) = i := by omega
    rw [this]
    by_cases hj : i - 14 < 18
    · simp [hi, hj]
    · have : x.testBit i = false := by
        apply Nat.testBit_lt_two_pow
        calc x < 2 ^ 32 := h
          _ ≤ 2 ^ i := Nat.pow_le_pow_right (by norm_num) (by omega)
      simp [hi, hj, this]
  · simp [hi]

theorem tstbits_scan_zero (bmp : Bmp) (b : Nat) (rem i : Nat) :
    tstbits_scan bmp b rem i = 0 ↔
      ∀ j, i ≤ j → j < i + rem → b + j < 0x4000 ∧ bmp_free bmp (b + j) = true := by
  induction rem generalizing i with
  | zero =>
    simp only [tstbits_scan, true_iff]
    intro j h1 h2; omega
  | succ rem ih =>
    unfold tstbits_scan
    by_cases h : b + i < 0x4000 ∧ bmp_free bmp (b + i) = true
    · rw [if_pos h, ih]
      constructor
      · intro hh j h1 h2
        by_cases hj : j = i
        · subst hj; exact h
        · exact hh j (by omega) (by omega)
      · intro hh j h1 h2
        exact hh j (by omega) (by omega)
    · rw [if_neg h]
      constructor
      · intro hh; omega
      · intro hh
        exact absurd (hh i (le_refl _) (by omega)) h

theorem tstbits_scan_pos (bmp : Bmp) (b : Nat) (rem i : Nat)
    (h : tstbits_scan bmp b rem i ≠ 0) :
    i < tstbits_scan bmp b rem i ∧ tstbits_scan bmp b rem i ≤ i + rem ∧
    (∀ j, i ≤ j → j + 1 < tstbits_scan bmp b rem i →
        b + j < 0x4000 ∧ bmp_free bmp (b + j) = true) ∧
    ¬ (b + (tstbits_scan bmp b rem i - 1) < 0x4000 ∧
        bmp_free bmp (b + (tstbits_scan bmp b rem i - 1)) = true) := by
  induction rem generalizing i with
  | zero => simp [tstbits_scan] at h
  | succ rem ih =>
    unfold tstbits_scan at h ⊢
    by_cases hc : b + i < 0x4000 ∧ bmp_free bmp (b + i) = true
    · rw [if_pos hc] at h ⊢
      obtain ⟨h1, h2, h3, h4⟩ := ih (i + 1) h
      refine ⟨by omega, by omega, ?_, h4⟩
      intro j hj1 hj2
      by_cases hj : j = i
      · subst hj; exact hc
      · exact h3 j (by omega) hj2
    · rw [if_neg hc]
      refine ⟨by omega, by omega, ?_, ?_⟩
      · intro j hj1 hj2; omega
      · simpa using hc

/-- `tstbits` reports 0 exactly for a run of free bits inside the region. -/
theorem tstbits_eq_zero (bmp : Bmp) (b n : Nat) :
    tstbits bmp b n = 0 ↔ ∀ j, j < n → b + j < 0x4000 ∧ bmp_free bmp (b + j) = true := by
  unfold tstbits
  rw [tstbits_scan_zero]
  constructor
  · intro h j hj; exact h j (Nat.zero_le _) (by omega)
  · intro h j _ hj; exact h j (by omega)

/-- A non-zero result of `tstbits` is the distance just past the first bit that
is not free. -/
theorem tstbits_pos (bmp : Bmp) (b n : Nat) (h : tstbits bmp b n ≠ 0) :
    1 ≤ tstbits bmp b n ∧ tstbits bmp b n ≤ n ∧
    (∀ j, j + 1 < tstbits bmp b n → b + j < 0x4000 ∧ bmp_free bmp (b + j) = true) ∧
    ¬ (b + (tstbits bmp b n - 1) < 0x4000 ∧
        bmp_free bmp (b + (tstbits bmp b n - 1)) = true) := by
  unfold tstbits at h ⊢
  obtain ⟨h1, h2, h3, h4⟩ := tstbits_scan_pos bmp b n 0 h
  exact ⟨by omega, by omega, fun j hj => h3 j (Nat.zero_le _) hj, h4⟩

theorem tstbits_le (bmp : Bmp) (b n : Nat) : tstbits bmp b n ≤ 0x4001 := by
  by_cases h : tstbits bmp b n = 0
  · omega
  · obtain ⟨h1, _, h3, _⟩ := tstbits_pos bmp b n h
    by_contra hc
    have := h3 (tstbits bmp b n - 2) (by omega)
    omega

theorem align_up_one (q : Nat) (h : q < 4294967296) (hq : 0 < q) : align_up q 1 = q := by
  unfold align_up
  have h1 : dec32 q = q - 1 := by unfold dec32 u32; omega
  rw [h1, show dec32 1 = 0 from rfl, not32_0]
  have h2 : (q - 1) &&& 0xffffffff = q - 1 := by
    have := Nat.and_pow_two_sub_one_eq_mod (q - 1) 32
    simp only [Nat.reducePow, Nat.add_one_sub_one] at this
    rw [show (0xffffffff : Nat) = 4294967296 - 1 from rfl, this]
    omega
  rw [h2]; unfold u32; omega

theorem align_up_four (q : Nat) (h : q < 4294967292) (hq : 0 < q) :
    align_up q 4 = 4 * ((q - 1) / 4) + 4 := by
  unfold align_up
  have h1 : dec32 q = q - 1 := by unfold dec32 u32; omega
  rw [h1, show dec32 4 = 3 from rfl, not32_3, and_fffffffc _ (by omega)]
  unfold u32; omega

theorem align_up_four_zero : align_up 0 4 = 0 := by decide

/-- Facts about the re-alignment used after every skip: the result is a
multiple of the unit, not below `q` and less than `q + n`. -/
theorem align_up_spec (q n : Nat) (hn : n = 1 ∨ n = 4) (h : q < 4294967292) (hq : 0 < q) :
    n ∣ align_up q n ∧ q ≤ align_up q n ∧ align_up q n < q + n := by
  rcases hn with rfl | rfl
  · rw [align_up_one q (by omega) hq]; exact ⟨one_dvd _, le_refl _, by omega⟩
  · rw [align_up_four q h hq]
    refine ⟨⟨(q - 1) / 4 + 1, by ring⟩, by omega, by omega⟩

theorem align_up_dvd (q n : Nat) (hn : n = 1 ∨ n = 4) (h : q < 4294967292) :
    n ∣ align_up q n := by
  rcases Nat.eq_zero_or_pos q with rfl | hq
  · rcases hn with rfl | rfl
    · exact one_dvd _
    · rw [align_up_four_zero]; exact dvd_zero _
  · exact (align_up_spec q n hn h hq).1

/-- The value of `q` after one skip `q += a` and the re-alignment. -/
theorem skip_spec (q a n : Nat) (hn : n = 1 ∨ n = 4) (hq : q ≤ 0x4003) (ha : 1 ≤ a)
    (ha2 : a ≤ 0x4001) :
    n ∣ (if n ≠ 1 then align_up (u32 (q + a)) n else u32 (q + a)) ∧
    q < (if n ≠ 1 then align_up (u32 (q + a)) n else u32 (q + a)) ∧
    (if n ≠ 1 then align_up (u32 (q + a)) n else u32 (q + a)) < q + a + n := by
  have h1 : u32 (q + a) = q + a := u32_of_lt (by omega)
  rw [h1]
  rcases hn with rfl | rfl
  · simp only [ne_eq, not_true_eq_false, if_false]
    exact ⟨one_dvd _, by omega, by omega⟩
  · simp only [ne_eq, show ¬ (4 = 1) by decide, not_false_eq_true, if_true]
    obtain ⟨h2, h3, h4⟩ := align_up_spec (q + a) 4 (Or.inr rfl) (by omega) (by omega)
    exact ⟨h2, by omega, by omega⟩

theorem scan_near_sound (bmp : Bmp) (nr n len : Nat) (hn : n = 1 ∨ n = 4) (hnr : n ∣ nr)
    (hnr2 : nr < 0x4000) :
    ∀ (fuel q : Nat) (b : Bool) (q' : Nat), n ∣ q → q ≤ 0x4003 →
      scan_near bmp nr n len fuel q b = some (q', 0) →
      tstbits bmp q' len = 0 ∧ n ∣ q' := by
  intro fuel
  induction fuel with
  | zero => intro q b q' _ _ h; simp [scan_near] at h
  | succ fuel ih =>
    intro q b q' hq1 hq2 h
    unfold scan_near at h
    simp only at h
    by_cases ha : tstbits bmp q len = 0
    · rw [if_pos ha] at h
      simp only [Option.some.injEq, Prod.mk.injEq] at h
      obtain ⟨rfl, _⟩ := h
      exact ⟨ha, hq1⟩
    · rw [if_neg ha] at h
      obtain ⟨h1, h2, h3⟩ := skip_spec q (tstbits bmp q len) n hn hq2
        (Nat.one_le_iff_ne_zero.mpr ha) (tstbits_le bmp q len)
      generalize (if n ≠ 1 then align_up (u32 (q + tstbits bmp q len)) n
        else u32 (q + tstbits bmp q len)) = q2 at h h1 h2 h3
      by_cases hb : b = false
      · rw [if_pos hb] at h
        by_cases hw : q2 >>> 5 ≠ nr >>> 5
        · rw [if_pos hw] at h
          refine ih _ _ _ ?_ ?_ h
          · rw [and1f]
            exact (Nat.dvd_mod_iff (by rcases hn with rfl | rfl <;> decide)).mpr hnr
          · rw [and1f]; omega
        · rw [if_neg hw] at h
          refine ih _ _ _ h1 ?_ h
          rw [shr5, shr5] at hw
          omega
      · rw [if_neg hb] at h
        by_cases hw : q2 > nr
        · rw [if_pos hw] at h
          simp only [Option.some.injEq, Prod.mk.injEq] at h
          exact absurd h.2 ha
        · rw [if_neg hw] at h
          exact ih _ _ _ h1 (by omega) h

theorem scan_near_fuel_true (bmp : Bmp) (nr n len : Nat) (hn : n = 1 ∨ n = 4)
    (hnr2 : nr < 0x4000) :
    ∀ (fuel q : Nat), q ≤ 0x4003 → nr + 1 - q < fuel →
      scan_near bmp nr n len fuel q true ≠ none := by
  intro fuel
  induction fuel with
  | zero => intro q _ h; omega
  | succ fuel ih =>
    intro q hq2 hf
    unfold scan_near
    simp only
    by_cases ha : tstbits bmp q len = 0
    · rw [if_pos ha]; simp
    · rw [if_neg ha]
      obtain ⟨_, h2, h3⟩ := skip_spec q (tstbits bmp q len) n hn hq2
        (Nat.one_le_iff_ne_zero.mpr ha) (tstbits_le bmp q len)
      generalize (if n ≠ 1 then align_up (u32 (q + tstbits bmp q len)) n
        else u32 (q + tstbits bmp q len)) = q2 at h2 h3
      rw [if_neg (by simp)]
      by_cases hw : q2 > nr
      · rw [if_pos hw]; simp
      · rw [if_neg hw]
        exact ih _ (by omega) (by omega)

theorem scan_near_fuel_false (bmp : Bmp) (nr n len : Nat) (hn : n = 1 ∨ n = 4)
    (hnr2 : nr < 0x4000) :
    ∀ (fuel q : Nat), q ≤ 0x4003 → (32 * (nr / 32 + 1) - q) + (nr + 2) < fuel →
      scan_near bmp nr n len fuel q false ≠ none := by
  intro fuel
  induction fuel with
  | zero => intro q _ h; omega
  | succ fuel ih =>
    intro q hq2 hf
    unfold scan_near
    simp only
    by_cases ha : tstbits bmp q len = 0
    · rw [if_pos ha]; simp
    · rw [if_neg ha]
      obtain ⟨_, h2, h3⟩ := skip_spec q (tstbits bmp q len) n hn hq2
        (Nat.one_le_iff_ne_zero.mpr ha) (tstbits_le bmp q len)
      generalize (if n ≠ 1 then align_up (u32 (q + tstbits bmp q len)) n
        else u32 (q + tstbits bmp q len)) = q2 at h2 h3
      rw [if_pos trivial]
      by_cases hw : q2 >>> 5 ≠ nr >>> 5
      · rw [if_pos hw]
        apply scan_near_fuel_true bmp nr n len hn hnr2
        · rw [and1f]; omega
        · omega
      · rw [if_neg hw]
        rw [shr5, shr5] at hw
        exact ih _ (by omega) (by omega)

/-- The fuel `alloc_search` hands to the scan after the hint is never used up. -/
theorem scan_near_fuel (bmp : Bmp) (nr n len : Nat) (hn : n = 1 ∨ n = 4) (hnr2 : nr < 0x4000) :
    scan_near bmp nr n len scan_fuel (nr + n) false ≠ none := by
  apply scan_near_fuel_false bmp nr n len hn hnr2
  · rcases hn with rfl | rfl <;> omega
  · unfold scan_fuel; omega

theorem scan_word_sound (bmp : Bmp) (n len i : Nat) (hn : n = 1 ∨ n = 4) (hi : i < 512) :
    ∀ (fuel q q' : Nat), n ∣ q → q ≤ 0x4003 →
      scan_word bmp n len i fuel q = some (q', 0) →
      tstbits bmp q' len = 0 ∧ n ∣ q' := by
  intro fuel
  induction fuel with
  | zero => intro q q' _ _ h; simp [scan_word] at h
  | succ fuel ih =>
    intro q q' hq1 hq2 h
    unfold scan_word at h
    simp only at h
    by_cases ha : tstbits bmp q len = 0
    · rw [if_pos ha] at h
      simp only [Option.some.injEq, Prod.mk.injEq] at h
      obtain ⟨rfl, _⟩ := h
      exact ⟨ha, hq1⟩
    · rw [if_neg ha] at h
      obtain ⟨h1, h2, h3⟩ := skip_spec q (tstbits bmp q len) n hn hq2
        (Nat.one_le_iff_ne_zero.mpr ha) (tstbits_le bmp q len)
      generalize (if n ≠ 1 then align_up (u32 (q + tstbits bmp q len)) n
        else u32 (q + tstbits bmp q len)) = q2 at h h1 h2 h3
      by_cases hw : q2 >>> 5 > i
      · rw [if_pos hw] at h
        simp only [Option.some.injEq, Prod.mk.injEq] at h
        exact absurd h.2 ha
      · rw [if_neg hw] at h
        refine ih _ _ h1 ?_ h
        rw [shr5] at hw
        omega

theorem scan_word_fuel_gen (bmp : Bmp) (n len i : Nat) (hn : n = 1 ∨ n = 4) (hi : i < 512) :
    ∀ (fuel q : Nat), q ≤ 0x4003 → 32 * (i + 1) - q < fuel →
      scan_word bmp n len i fuel q ≠ none := by
  intro fuel
  induction fuel with
  | zero => intro q _ h; omega
  | succ fuel ih =>
    intro q hq2 hf
    unfold scan_word
    simp only
    by_cases ha : tstbits bmp q len = 0
    · rw [if_pos ha]; simp
    · rw [if_neg ha]
      obtain ⟨_, h2, h3⟩ := skip_spec q (tstbits bmp q len) n hn hq2
        (Nat.one_le_iff_ne_zero.mpr ha) (tstbits_le bmp q len)
      generalize (if n ≠ 1 then align_up (u32 (q + tstbits bmp q len)) n
        else u32 (q + tstbits bmp q len)) = q2 at h2 h3
      by_cases hw : q2 >>> 5 > i
      · rw [if_pos hw]; simp
      · rw [if_neg hw]
        rw [shr5] at hw
        exact ih _ (by omega) (by omega)

/-- The fuel `try_word` hands to the scan of one word is never used up. -/
theorem scan_word_fuel (bmp : Bmp) (n len i q : Nat) (hn : n = 1 ∨ n = 4) (hi : i < 512)
    (hq : q ≤ 0x4003) : scan_word bmp n len i scan_fuel q ≠ none := by
  apply scan_word_fuel_gen bmp n len i hn hi _ _ hq
  unfold scan_fuel; omega

theorem back_up_le : ∀ (bits k q : Nat), bits ≤ q → q < 4294967296 →
    back_up bits k q ≤ q ∧ q ≤ back_up bits k q + bits := by
  intro bits
  induction bits with
  | zero => intro k q _ _; simp [back_up]
  | succ bits ih =>
    intro k q h1 h2
    unfold back_up
    by_cases hk : k &&& 0x80000000 ≠ 0
    · rw [if_pos hk]
      have h3 : dec32 q = q - 1 := by unfold dec32 u32; omega
      rw [h3]
      obtain ⟨h4, h5⟩ := ih (u32 (k <<< 1)) (q - 1) (by omega) (by omega)
      omega
    · rw [if_neg hk]; omega

/-- After 32 shifts the 32-bit `k` is zero: more shifts change nothing. -/
theorem back_up_fuel (k q : Nat) (hk : k < 4294967296) :
    ∀ m, back_up (32 + m) k q = back_up 32 k q := by
  have key : ∀ (bits j k q : Nat), k < 4294967296 → k % 2 ^ j = 0 → j + bits = 32 →
      ∀ m, back_up (bits + m) k q = back_up bits k q := by
    intro bits
    induction bits with
    | zero =>
      intro j k q hk hz hj m
      have : k = 0 := by
        have : j = 32 := by omega
        subst this
        norm_num at hz
        omega
      subst this
      cases m with
      | zero => rfl
      | succ m => simp [back_up]
    | succ bits ih =>
      intro j k q hk hz hj m
      rw [show bits + 1 + m = (bits + m) + 1 by omega]
      unfold back_up
      by_cases hc : k &&& 0x80000000 ≠ 0
      · rw [if_pos hc, if_pos hc]
        apply ih (j + 1) _ _ (u32_lt _) _ (by omega)
        unfold u32
        rw [Nat.shiftLeft_eq]
        have hd : 2 ^ (j + 1) ∣ 4294967296 := by
          rw [show (4294967296 : Nat) = 2 ^ 32 by norm_num]
          exact Nat.pow_dvd_pow 2 (by omega)
        rw [Nat.mod_mod_of_dvd _ hd]
        obtain ⟨c, rfl⟩ := Nat.dvd_of_mod_eq_zero hz
        apply Nat.mod_eq_zero_of_dvd
        exact ⟨c, by ring⟩
      · rw [if_neg hc, if_neg hc]
  intro m
  exact key 32 0 k q hk (by rw [pow_zero]; exact Nat.mod_one k) (by omega) m

/-- The start of the scan of word `i` is aligned to the unit and lies at or
before the first bit of the word. -/
theorem word_start_spec (bmp : Bmp) (n i : Nat) (hn : n = 1 ∨ n = 4) (hi : i < 512) :
    n ∣ word_start bmp n i ∧ word_start bmp n i ≤ 0x4003 := by
  unfold word_start
  simp only
  have h0 : u32 (i <<< 5) = i * 32 := by
    rw [Nat.shiftLeft_eq]; exact u32_of_lt (by norm_num; omega)
  rw [h0]
  have h1 : (if i > 0 then back_up 32 (u32 (bmp (i - 1))) (i * 32) else i * 32) ≤ i * 32 := by
    split
    · exact (back_up_le 32 _ (i * 32) (by omega) (by omega)).1
    · exact le_refl _
  generalize (if i > 0 then back_up 32 (u32 (bmp (i - 1))) (i * 32) else i * 32) = q1 at h1
  rcases hn with rfl | rfl
  · simp only [ne_eq, not_true_eq_false, if_false]
    exact ⟨one_dvd _, by omega⟩
  · simp only [ne_eq, show ¬ (4 = 1) by decide, not_false_eq_true, if_true]
    refine ⟨align_up_dvd q1 4 (Or.inr rfl) (by omega), ?_⟩
    rcases Nat.eq_zero_or_pos q1 with rfl | hq
    · rw [align_up_four_zero]; omega
    · have := (align_up_spec q1 4 (Or.inr rfl) (by omega) hq).2.2
      omega

/-- The fuel `try_word` hands to the scan of a word is never used up. -/
theorem try_word_fuel (bmp : Bmp) (n len i : Nat) (hn : n = 1 ∨ n = 4) (hi : i < 512) :
    scan_word bmp n len i scan_fuel (word_start bmp n i) ≠ none :=
  scan_word_fuel bmp n len i _ hn hi (word_start_spec bmp n i hn hi).2

theorem try_word_sound (bmp : Bmp) (n len i q : Nat) (hn : n = 1 ∨ n = 4) (hi : i < 512)
    (h : try_word bmp n len i = some q) : tstbits bmp q len = 0 ∧ n ∣ q := by
  unfold try_word at h
  split at h
  · exact absurd h (by simp)
  · split at h
    · exact absurd h (by simp)
    · obtain ⟨h1, h2⟩ := word_start_spec bmp n i hn hi
      split at h
      · rename_i q1 heq
        simp only [Option.some.injEq] at h
        subst h
        exact scan_word_sound bmp n len i hn hi _ _ _ h1 h2 heq
      · exact absurd h (by simp)

theorem scan_region_sound (bmp : Bmp) (n len nr : Nat) (hn : n = 1 ∨ n = 4) :
    ∀ (cnt i q : Nat), i < 512 → scan_region bmp n len nr cnt i = some q →
      tstbits bmp q len = 0 ∧ n ∣ q := by
  intro cnt
  induction cnt with
  | zero => intro i q _ h; simp [scan_region] at h
  | succ cnt ih =>
    intro i q hi h
    unfold scan_region at h
    split at h
    · rename_i q' heq
      simp only [Option.some.injEq] at h
      subst h
      exact try_word_sound bmp n len i _ hn hi heq
    · simp only at h
      split at h
      · refine ih _ _ ?_ h
        rw [and1ff]; omega
      · exact absurd h (by simp)

/-- The `do ... while` loop over the words ends after 512 words: a larger
bound on the count changes nothing. -/
theorem scan_region_fuel (bmp : Bmp) (n len nr : Nat) (hnr : nr < 512) (m : Nat) :
    scan_region bmp n len nr (512 + m) nr = scan_region bmp n len nr 512 nr := by
  have key : ∀ (cnt j : Nat), 1 ≤ cnt → j + cnt = 512 →
      scan_region bmp n len nr (cnt + m) ((nr + j) % 512) =
        scan_region bmp n len nr cnt ((nr + j) % 512) := by
    intro cnt
    induction cnt with
    | zero => intro j h; omega
    | succ c ih =>
      intro j _ hj
      rw [show c + 1 + m = (c + m) + 1 by omega]
      unfold scan_region
      split
      · rfl
      · simp only
        rw [and1ff]
        have hi1 : ((nr + j) % 512 + 1) % 512 = (nr + (j + 1)) % 512 := by omega
        rw [hi1]
        by_cases hx : (nr + (j + 1)) % 512 ≠ nr
        · rw [if_pos hx, if_pos hx]
          have hc : 1 ≤ c := by
            by_contra hc
            have : j = 511 := by omega
            subst this
            apply hx
            omega
          exact ih (j + 1) hc (by omega)
        · rw [if_neg hx, if_neg hx]
  have := key 512 0 (by omega) (by omega)
  rwa [Nat.add_zero, Nat.mod_eq_of_lt hnr] at this

/-- What the three search stages deliver: a non-zero `ret` is `bs + q` for an
aligned offset `q` of the region at which `tstbits` found the whole run free. -/
theorem alloc_search_sound (bmp : Bmp) (bs nr n forward : Nat) (hn : n = 1 ∨ n = 4)
    (hnr : n ∣ nr) (hnr2 : nr < 0x4000) (h : alloc_search bmp bs nr n forward ≠ 0) :
    ∃ q, alloc_search bmp bs nr n forward = u32 (bs + q) ∧
      tstbits bmp q (u32 (n + forward)) = 0 ∧ n ∣ q ∧ q < 0x4000 := by
  have hlt : ∀ q, tstbits bmp nr (u32 (n + forward)) ≠ 0 →
      tstbits bmp q (u32 (n + forward)) = 0 → q < 0x4000 := by
    intro q h1 h2
    have hpos : 0 < u32 (n + forward) := by
      rcases Nat.eq_zero_or_pos (u32 (n + forward)) with h0 | h0
      · rw [h0] at h1; exact absurd rfl h1
      · exact h0
    have := ((tstbits_eq_zero bmp q _).mp h2 0 hpos).1
    omega
  unfold alloc_search at h ⊢
  simp only at h ⊢
  split
  · rename_i h1
    exact ⟨nr, rfl, h1, hnr, hnr2⟩
  · rename_i h1
    rw [if_neg h1] at h
    split
    · rename_i q heq
      have := scan_near_sound bmp nr n _ hn hnr hnr2 _ _ _ _
        (Dvd.dvd.add hnr (dvd_refl n)) (by rcases hn with rfl | rfl <;> omega) heq
      exact ⟨q, rfl, this.1, this.2, hlt q h1 this.1⟩
    · rename_i hne
      split at h
      · rename_i q heq
        exact absurd heq (hne q)
      · split
        · rename_i q heq
          have := scan_region_sound bmp n _ _ hn 512 _ q (by rw [shr5]; omega) heq
          exact ⟨q, rfl, this.1, this.2, hlt q h1 this.1⟩
        · rename_i heq
          rw [heq] at h
          exact absurd rfl h

theorem bmp_free_store (bmp : Bmp) (idx w o : Nat) :
    bmp_free (bmp_store bmp idx w) o =
      if o / 32 = idx then w.testBit (o % 32) else bmp_free bmp o := by
  rw [bmp_free_eq, bmp_free_eq]
  unfold bmp_store
  split <;> rfl

theorem testBit_alloc_mask (n ret j : Nat) :
    (alloc_mask n ret).testBit j =
      (decide (j < 32) && !(decide (ret % 32 ≤ j) && decide (j - ret % 32 < n))) := by
  unfold alloc_mask
  rw [testBit_not32, Nat.testBit_shiftLeft, and1f, Nat.shiftLeft_eq, Nat.one_mul,
    Nat.testBit_two_pow_sub_one]

/-- Bits of the buffer after the store of line 133, for an offset `q` aligned
to the unit. -/
theorem bmp_free_clear (bmp : Bmp) (n q o : Nat) (hn : n = 1 ∨ n = 4) (hq : n ∣ q) :
    bmp_free (bmp_store bmp (q >>> 5) (bmp (q >>> 5) &&& alloc_mask n q)) o =
      (bmp_free bmp o && !(decide (q ≤ o) && decide (o < q + n))) := by
  rw [bmp_free_store, shr5]
  have hq4 : q % 32 + n ≤ 32 := by
    rcases hn with rfl | rfl
    · omega
    · obtain ⟨c, rfl⟩ := hq; omega
  by_cases hw : o / 32 = q / 32
  · rw [if_pos hw, Nat.testBit_and, testBit_alloc_mask, bmp_free_eq, hw]
    have h32 : o % 32 < 32 := Nat.mod_lt _ (by norm_num)
    have e1 : decide (o % 32 < 32) = true := by simpa using h32
    have e2 : decide (q % 32 ≤ o % 32) = decide (q ≤ o) := by
      apply decide_eq_decide.mpr; omega
    have e3 : (q % 32 ≤ o % 32) → decide (o % 32 - q % 32 < n) = decide (o < q + n) := by
      intro h; apply decide_eq_decide.mpr; omega
    rw [e1, e2]
    by_cases h1 : q ≤ o
    · rw [e3 (by omega)]; simp
    · simp [h1]
  · rw [if_neg hw]
    have : ¬ (q ≤ o ∧ o < q + n) := by
      intro ⟨h1, h2⟩
      apply hw
      have : q / 32 * 32 ≤ o := by omega
      have : o < q / 32 * 32 + 32 := by omega
      omega
    have e : (decide (q ≤ o) && decide (o < q + n)) = false := by
      simpa using this
    rw [e]; simp

theorem bs_facts (near : Nat) (hnear : near < 4294967296) :
    near &&& not32 0x3fff = near - near % 16384 := by
  rw [not32_3fff, and_ffffc000 near hnear]

theorem nr_facts (near n : Nat) (hn : n = 1 ∨ n = 4) :
    n ∣ ((near &&& 0x3fff) &&& not32 (dec32 n)) ∧
      ((near &&& 0x3fff) &&& not32 (dec32 n)) < 0x4000 := by
  have h1 : near &&& 0x3fff < 0x4000 := by rw [and3fff]; omega
  rcases hn with rfl | rfl
  · refine ⟨one_dvd _, ?_⟩
    exact lt_of_le_of_lt Nat.and_le_left h1
  · rw [show dec32 4 = 3 from rfl, not32_3, and_fffffffc _ (by omega)]
    exact ⟨⟨(near &&& 0x3fff) / 4, by omega⟩, by omega⟩

theorem alloc_mask_congr (n ret q : Nat) (h : ret % 32 = q % 32) :
    alloc_mask n ret = alloc_mask n q := by
  unfold alloc_mask
  rw [and1f, and1f, h]

/-- The two outcomes of `alloc_in_bmp`: nothing allocated and the state
untouched, or an aligned run found free by `tstbits` in the selected buffer
and its first `n` bits cleared. -/
theorem alloc_in_bmp_cases (s : Sb) (near n forward : Nat) (hnear : near < 4294967296) :
    alloc_in_bmp s near n forward = (0, s) ∨
    ∃ bmp q, (n = 1 ∨ n = 4) ∧ region_bmp s (selected near) = some bmp ∧
      tstbits bmp q (u32 (n + forward)) = 0 ∧ n ∣ q ∧ q < 0x4000 ∧
      near - near % 16384 + q ≠ 0 ∧
      alloc_in_bmp s near n forward =
        (near - near % 16384 + q,
         put_region s (selected near)
           (bmp_store bmp (q >>> 5) (bmp (q >>> 5) &&& alloc_mask n q))) := by
  unfold alloc_in_bmp
  simp only
  by_cases hn : n ≠ 1 ∧ n ≠ 4
  · left; rw [if_pos hn]
  · rw [if_neg hn]
    have hn' : n = 1 ∨ n = 4 := by omega
    have hsel : (if near &&& not32 0x3fff ≠ not32 0x3fff then ntfs_map_bitmap s (near >>> 14)
        else ntfs_map_dnode_bitmap s) = region_bmp s (selected near) := by
      unfold selected
      split <;> rfl
    rw [hsel]
    cases hb : region_bmp s (selected near) with
    | none => left; rfl
    | some bmp =>
      simp only
      by_cases hret : alloc_search bmp (near &&& not32 0x3fff)
          ((near &&& 0x3fff) &&& not32 (dec32 n)) n forward ≠ 0
      · rw [if_pos hret]
        obtain ⟨hnr1, hnr2⟩ := nr_facts near n hn'
        obtain ⟨q, hq1, hq2, hq3, hq4⟩ :=
          alloc_search_sound bmp _ _ n forward hn' hnr1 hnr2 hret
        rw [hq1] at hret ⊢
        rw [bs_facts near hnear] at hret ⊢
        have hu : u32 (near - near % 16384 + q) = near - near % 16384 + q :=
          u32_of_lt (by omega)
        rw [hu] at hret ⊢
        have e1 : ((near - near % 16384 + q) &&& 0x3fff) >>> 5 = q >>> 5 := by
          rw [and3fff, shr5, shr5]; omega
        have e2 : alloc_mask n (near - near % 16384 + q) = alloc_mask n q :=
          alloc_mask_congr _ _ _ (by omega)
        rw [e1, e2]
        split
        · left; rfl
        · right
          refine ⟨bmp, q, hn', rfl, hq2, hq3, hq4, hret, ?_⟩
          congr 1
          unfold selected
          rw [bs_facts near hnear]
          split <;> rfl
      · left; rw [if_neg hret]

theorem region_bmp_put (s : Sb) (R R' : Region) (bmp : Bmp) :
    region_bmp (put_region s R bmp) R' = if R' = R then some bmp else region_bmp s R' := by
  cases R with
  | main r =>
    cases R' with
    | main r' =>
      simp only [put_region, put_bitmap, region_bmp, ntfs_map_bitmap, Region.main.injEq]
    | dirband =>
      simp [put_region, put_bitmap, region_bmp, ntfs_map_dnode_bitmap]
  | dirband =>
    cases R' with
    | main r' => simp [put_region, put_dmap, region_bmp, ntfs_map_bitmap]
    | dirband => simp [put_region, put_dmap, region_bmp, ntfs_map_dnode_bitmap]

theorem region_bit_put (s : Sb) (R R' : Region) (bmp : Bmp) (o : Nat) :
    region_bit (put_region s R bmp) R' o =
      if R' = R then some (bmp_free bmp o) else region_bit s R' o := by
  unfold region_bit
  rw [region_bmp_put]
  split <;> rfl

/-- C1. When `alloc_in_bmp` returns a non-zero sector for unit size 1 or 4 (and
`n + forward` does not wrap), the sector is a multiple of the unit, the `n`
bits at its offset in the selected region were free before and are allocated
after the call, they lie inside the region, and every other bit of every
region is unchanged.  Nothing is assumed about `sb_chk`. -/
theorem alloc_in_bmp_allocates (s : Sb) (near n forward : Nat) (hnear : near < 4294967296)
    (hn : n = 1 ∨ n = 4) (hfw : n + forward < 4294967296)
    (hret : (alloc_in_bmp s near n forward).1 ≠ 0) :
    n ∣ (alloc_in_bmp s near n forward).1 ∧
    ((alloc_in_bmp s near n forward).1 &&& 0x3fff) + n ≤ 0x4000 ∧
    (∀ j, j < n → region_bit s (selected near)
        (((alloc_in_bmp s near n forward).1 &&& 0x3fff) + j) = some true) ∧
    (∀ j, j < n → region_bit (alloc_in_bmp s near n forward).2 (selected near)
        (((alloc_in_bmp s near n forward).1 &&& 0x3fff) + j) = some false) ∧
    (∀ R o, ¬ (R = selected near ∧ ((alloc_in_bmp s near n forward).1 &&& 0x3fff) ≤ o ∧
          o < ((alloc_in_bmp s near n forward).1 &&& 0x3fff) + n) →
        region_bit (alloc_in_bmp s near n forward).2 R o = region_bit s R o) := by
  rcases alloc_in_bmp_cases s near n forward hnear with h | ⟨bmp, q, _, hb, ht, hq, hq4, _, h⟩
  · rw [h] at hret; exact absurd rfl hret
  · rw [h]
    simp only
    have hoff : (near - near % 16384 + q) &&& 0x3fff = q := by rw [and3fff]; omega
    rw [hoff]
    have hlen : u32 (n + forward) = n + forward := u32_of_lt hfw
    rw [hlen, tstbits_eq_zero] at ht
    have hnpos : 0 < n := by rcases hn with rfl | rfl <;> omega
    refine ⟨?_, ?_, ?_, ?_, ?_⟩
    · have h16 : n ∣ near - near % 16384 := by
        have : near - near % 16384 = 16384 * (near / 16384) := by omega
        rw [this]
        rcases hn with rfl | rfl
        · exact one_dvd _
        · exact ⟨4096 * (near / 16384), by ring⟩
      exact Dvd.dvd.add h16 hq
    · have := (ht (n - 1) (by omega)).1
      omega
    · intro j hj
      unfold region_bit
      rw [hb]
      simp only [Option.map_some', Option.some.injEq]
      exact (ht j (by omega)).2
    · intro j hj
      rw [region_bit_put, if_pos rfl, bmp_free_clear bmp n q (q + j) hn hq]
      simp [hj]
    · intro R o hne
      rw [region_bit_put]
      split
      · rename_i hR
        subst hR
        unfold region_bit
        rw [hb]
        simp only [Option.map_some', Option.some.injEq]
        rw [bmp_free_clear bmp n q o hn hq]
        have : ¬ (q ≤ o ∧ o < q + n) := fun hc => hne ⟨rfl, hc.1, hc.2⟩
        have e : (decide (q ≤ o) && decide (o < q + n)) = false := by simpa using this
        rw [e]; simp
      · rfl


theorem alloc_in_bmp_allocates_witness :
    4 ∣ (alloc_in_bmp fs_free 0x4006 4 3).1 ∧
    ((alloc_in_bmp fs_free 0x4006 4 3).1 &&& 0x3fff) + 4 ≤ 0x4000 ∧
    (∀ j, j < 4 → region_bit fs_free (selected 0x4006)
        (((alloc_in_bmp fs_free 0x4006 4 3).1 &&& 0x3fff) + j) = some true) ∧
    (∀ j, j < 4 → region_bit (alloc_in_bmp fs_free 0x4006 4 3).2 (selected 0x4006)
        (((alloc_in_bmp fs_free 0x4006 4 3).1 &&& 0x3fff) + j) = some false) ∧
    (∀ R o, ¬ (R = selected 0x4006 ∧ ((alloc_in_bmp fs_free 0x4006 4 3).1 &&& 0x3fff) ≤ o ∧
          o < ((alloc_in_bmp fs_free 0x4006 4 3).1 &&& 0x3fff) + 4) →
        region_bit (alloc_in_bmp fs_free 0x4006 4 3).2 R o = region_bit fs_free R o) :=
  alloc_in_bmp_allocates fs_free 0x4006 4 3 (by decide) (by decide) (by decide) (by decide)

theorem testBit_bit32 (k j : Nat) (hk : k < 32) :
    (u32 (1 <<< k)).testBit j = decide (k = j) := by
  rw [testBit_u32, Nat.shiftLeft_eq, Nat.one_mul, Nat.testBit_two_pow]
  by_cases h : k = j
  · subst h; simp [hk]
  · simp [h]

theorem test_shift_iff (bmp : Bmp) (t : Nat) :
    ((bmp ((t &&& 0x3fff) >>> 5) >>> (t &&& 0x1f)) &&& 1 ≠ 0) ↔
      bmp_free bmp (t &&& 0x3fff) = true := by
  unfold bmp_free
  have : (t &&& 0x3fff) &&& 0x1f = t &&& 0x1f := by
    rw [and3fff, and1f, and1f]; omega
  rw [this]
  simp

theorem test_and_iff (bmp : Bmp) (t : Nat) :
    (bmp ((t &&& 0x3fff) >>> 5) &&& u32 (1 <<< (t &&& 0x1f)) ≠ 0) ↔
      bmp_free bmp (t &&& 0x3fff) = true := by
  rw [bmp_free_eq, ← shr5]
  have hk : t &&& 0x1f < 32 := by rw [and1f]; omega
  have e : (t &&& 0x3fff) % 32 = t &&& 0x1f := by rw [and3fff, and1f]; omega
  rw [e]
  generalize bmp ((t &&& 0x3fff) >>> 5) = w
  generalize t &&& 0x1f = k at hk
  constructor
  · intro h
    by_contra hc
    apply h
    apply Nat.eq_of_testBit_eq
    intro j
    rw [Nat.testBit_and, testBit_bit32 k j hk, Nat.zero_testBit]
    by_cases hj : k = j
    · subst hj; simpa using hc
    · simp [hj]
  · intro h hc
    have := congrArg (fun x => Nat.testBit x k) hc
    simp only [Nat.testBit_and, testBit_bit32 k k hk, Nat.zero_testBit] at this
    simp [h] at this

theorem offset_split (t o : Nat) :
    (o / 32 = (t &&& 0x3fff) >>> 5 ∧ o % 32 = t &&& 0x1f) ↔ o = t &&& 0x3fff := by
  rw [and3fff, and1f, shr5]; omega

theorem region_bit_main (s : Sb) (r o : Nat) (bmp : Bmp) (hm : ntfs_map_bitmap s r = some bmp) :
    region_bit s (Region.main r) o = some (bmp_free bmp o) := by
  show Option.map (fun bmp => bmp_free bmp o) (ntfs_map_bitmap s r) = _
  rw [hm]
  rfl

/-- The bits of the state after the store of line 277 (the bit of sector `t`
set). -/
theorem region_bit_set (s : Sb) (t : Nat) (bmp : Bmp) (R : Region) (o : Nat)
    (hm : ntfs_map_bitmap s (t >>> 14) = some bmp) :
    region_bit (put_bitmap s (t >>> 14) (bmp_store bmp ((t &&& 0x3fff) >>> 5)
        (bmp ((t &&& 0x3fff) >>> 5) ||| u32 (1 <<< (t &&& 0x1f))))) R o =
      if R = Region.main (t >>> 14) ∧ o = t &&& 0x3fff then some true
      else region_bit s R o := by
  have hk : t &&& 0x1f < 32 := by rw [and1f]; omega
  change region_bit (put_region s (Region.main (t >>> 14)) _) R o = _
  rw [region_bit_put]
  by_cases hR : R = Region.main (t >>> 14)
  · subst hR
    by_cases ho : o = t &&& 0x3fff
    · have hc : Region.main (t >>> 14) = Region.main (t >>> 14) ∧ o = t &&& 0x3fff := ⟨rfl, ho⟩
      have := (offset_split t o).mpr ho
      rw [if_pos hc, if_pos rfl, bmp_free_store, if_pos this.1, Nat.testBit_or, this.2,
        testBit_bit32 _ _ hk]
      simp
    · have hc : ¬ (Region.main (t >>> 14) = Region.main (t >>> 14) ∧ o = t &&& 0x3fff) :=
        fun h => ho h.2
      rw [if_neg hc, if_pos rfl, bmp_free_store, region_bit_main s _ o bmp hm]
      by_cases h1 : o / 32 = (t &&& 0x3fff) >>> 5
      · have h2 : ¬ (t &&& 0x1f = o % 32) := fun h => ho ((offset_split t o).mp ⟨h1, h.symm⟩)
        rw [if_pos h1, Nat.testBit_or, testBit_bit32 _ _ hk, bmp_free_eq, h1]
        simp [h2]
      · rw [if_neg h1]
  · rw [if_neg hR, if_neg (fun h => hR h.1)]

/-- The bits of the state after the store of line 242 (the bit of sector `t`
cleared). -/
theorem region_bit_clear (s : Sb) (t : Nat) (bmp : Bmp) (R : Region) (o : Nat)
    (hm : ntfs_map_bitmap s (t >>> 14) = some bmp) :
    region_bit (put_bitmap s (t >>> 14) (bmp_store bmp ((t &&& 0x3fff) >>> 5)
        (bmp ((t &&& 0x3fff) >>> 5) &&& not32 (1 <<< (t &&& 0x1f))))) R o =
      if R = Region.main (t >>> 14) ∧ o = t &&& 0x3fff then some false
      else region_bit s R o := by
  have hk : t &&& 0x1f < 32 := by rw [and1f]; omega
  have hnb : ∀ j, (not32 (1 <<< (t &&& 0x1f))).testBit j =
      (decide (j < 32) && !decide (t &&& 0x1f = j)) := by
    intro j
    rw [testBit_not32, Nat.shiftLeft_eq, Nat.one_mul, Nat.testBit_two_pow]
  change region_bit (put_region s (Region.main (t >>> 14)) _) R o = _
  rw [region_bit_put]
  by_cases hR : R = Region.main (t >>> 14)
  · subst hR
    by_cases ho : o = t &&& 0x3fff
    · have hc : Region.main (t >>> 14) = Region.main (t >>> 14) ∧ o = t &&& 0x3fff := ⟨rfl, ho⟩
      have := (offset_split t o).mpr ho
      rw [if_pos hc, if_pos rfl, bmp_free_store, if_pos this.1, Nat.testBit_and, this.2, hnb]
      simp
    · have hc : ¬ (Region.main (t >>> 14) = Region.main (t >>> 14) ∧ o = t &&& 0x3fff) :=
        fun h => ho h.2
      rw [if_neg hc, if_pos rfl, bmp_free_store, region_bit_main s _ o bmp hm]
      by_cases h1 : o / 32 = (t &&& 0x3fff) >>> 5
      · have h2 : ¬ (t &&& 0x1f = o % 32) := fun h => ho ((offset_split t o).mp ⟨h1, h.symm⟩)
        have h3 : o % 32 < 32 := Nat.mod_lt _ (by norm_num)
        rw [if_pos h1, Nat.testBit_and, hnb, bmp_free_eq, h1]
        simp [h2, h3]
      · rw [if_neg h1]
  · rw [if_neg hR, if_neg (fun h => hR h.1)]

theorem sector_bit_eq (s : Sb) (t : Nat) :
    sector_bit s t = (ntfs_map_bitmap s (t >>> 14)).map (fun bmp => bmp_free bmp (t &&& 0x3fff)) :=
  rfl

/-- Two sector numbers with the same region and the same offset are equal. -/
theorem sector_eq (t u : Nat) (h1 : t >>> 14 = u >>> 14) (h2 : t &&& 0x3fff = u &&& 0x3fff) :
    t = u := by
  rw [shr14, shr14] at h1
  rw [and3fff, and3fff] at h2
  omega

/-- One call of `ntfs_alloc_if_possible`: it returns 1 exactly when the bit of
the sector is mapped and free, and then clears that bit and no other. -/
theorem alloc_if_possible_spec (s : Sb) (t : Nat) :
    (sector_bit s t = some true ∧ (ntfs_alloc_if_possible s t).1 = 1 ∧
      ∀ R o, region_bit (ntfs_alloc_if_possible s t).2 R o =
        if R = Region.main (t >>> 14) ∧ o = t &&& 0x3fff then some false
        else region_bit s R o) ∨
    (sector_bit s t ≠ some true ∧ ntfs_alloc_if_possible s t = (0, s)) := by
  unfold ntfs_alloc_if_possible
  rw [sector_bit_eq]
  cases hm : ntfs_map_bitmap s (t >>> 14) with
  | none => right; simp
  | some bmp =>
    by_cases h : bmp ((t &&& 0x3fff) >>> 5) &&& u32 (1 <<< (t &&& 0x1f)) ≠ 0
    · left
      simp only [if_pos h]
      refine ⟨?_, trivial, ?_⟩
      · rw [Option.map_some', (test_and_iff bmp t).mp h]
      · intro R o
        exact region_bit_clear s t bmp R o hm
    · right
      simp only [if_neg h]
      refine ⟨?_, trivial⟩
      intro hc
      rw [Option.map_some', Option.some.injEq] at hc
      exact h ((test_and_iff bmp t).mpr hc)

theorem same_sb_refl (s : Sb) : same_sb s s := ⟨rfl, rfl, rfl, rfl, rfl, rfl⟩

theorem same_sb_trans {s t u : Sb} (h1 : same_sb s t) (h2 : same_sb t u) : same_sb s u := by
  unfold same_sb at h1 h2 ⊢
  omega

theorem same_sb_put_region (s : Sb) (R : Region) (bmp : Bmp) : same_sb s (put_region s R bmp) := by
  cases R <;> exact ⟨rfl, rfl, rfl, rfl, rfl, rfl⟩

/-- One round of the loop of `ntfs_free_sectors` at sector `sec`. -/
theorem free_loop_step (s : Sb) (sec : Nat) :
    (sector_bit s sec = none ∧ ∀ m, free_loop m s sec = (s, FreeResult.map_failed)) ∨
    (sector_bit s sec = some true ∧
      ∀ m, free_loop m s sec = (s, FreeResult.err_not_allocated sec)) ∨
    (sector_bit s sec = some false ∧ ∃ s1,
      (∀ R o, region_bit s1 R o =
        if R = Region.main (sec >>> 14) ∧ o = sec &&& 0x3fff then some true
        else region_bit s R o) ∧
      same_sb s s1 ∧ free_loop 0 s sec = (s1, FreeResult.done) ∧
      ∀ m, free_loop (m + 1) s sec = free_loop m s1 (u32 (sec + 1))) := by
  rw [sector_bit_eq]
  cases hm : ntfs_map_bitmap s (sec >>> 14) with
  | none =>
    left
    refine ⟨rfl, ?_⟩
    intro m
    cases m <;> simp [free_loop, hm]
  | some bmp =>
    right
    by_cases h : (bmp ((sec &&& 0x3fff) >>> 5) >>> (sec &&& 0x1f)) &&& 1 ≠ 0
    · left
      refine ⟨?_, ?_⟩
      · rw [Option.map_some', (test_shift_iff bmp sec).mp h]
      · intro m
        cases m <;> simp only [free_loop, hm, if_pos h]
    · right
      refine ⟨?_, _, fun R o => region_bit_set s sec bmp R o hm, ?_, ?_, ?_⟩
      · rw [Option.map_some']
        have : ¬ bmp_free bmp (sec &&& 0x3fff) = true := fun hc => h ((test_shift_iff bmp sec).mpr hc)
        simpa using this
      · exact same_sb_put_region s (Region.main (sec >>> 14)) _
      · simp only [free_loop, hm, if_neg h]
      · intro m
        simp only [free_loop, hm, if_neg h]

theorem in_run_zero (sec : Nat) (R : Region) (o : Nat) : ¬ in_run sec 0 R o := by
  rintro ⟨i, hi, _⟩
  omega

theorem in_run_succ (sec k : Nat) (R : Region) (o : Nat) (hsec : sec < 4294967296) :
    in_run sec (k + 1) R o ↔
      (R = Region.main (sec >>> 14) ∧ o = sec &&& 0x3fff) ∨ in_run (u32 (sec + 1)) k R o := by
  have e0 : u32 (sec + 0) = sec := u32_of_lt hsec
  have e1 : ∀ i, u32 (u32 (sec + 1) + i) = u32 (sec + (i + 1)) := by
    intro i; unfold u32; omega
  constructor
  · rintro ⟨i, hi, h1, h2⟩
    cases i with
    | zero => left; rw [e0] at h1 h2; exact ⟨h1, h2⟩
    | succ i =>
      right
      exact ⟨i, by omega, by rw [e1]; exact h1, by rw [e1]; exact h2⟩
  · rintro (⟨h1, h2⟩ | ⟨i, hi, h1, h2⟩)
    · exact ⟨0, by omega, by rw [e0]; exact h1, by rw [e0]; exact h2⟩
    · rw [e1] at h1 h2
      exact ⟨i + 1, by omega, h1, h2⟩

/-- The bit of a sector other than `sec` after the bit of `sec` was changed. -/
theorem sector_bit_other (s s1 : Sb) (sec t : Nat) (v : Bool) (hne : t ≠ sec)
    (h : ∀ R o, region_bit s1 R o =
      if R = Region.main (sec >>> 14) ∧ o = sec &&& 0x3fff then some v else region_bit s R o) :
    sector_bit s1 t = sector_bit s t := by
  unfold sector_bit
  rw [h, if_neg]
  rintro ⟨h1, h2⟩
  rw [Region.main.injEq] at h1
  exact hne (sector_eq t sec h1 h2)

/-- The loop of `ntfs_free_sectors` on a range whose first `k` sectors are
allocated: it frees exactly these `k` bits and ends normally when `k` is the
whole count, with the error of line 273 when the next sector is already free,
and silently when the next region cannot be mapped. -/
theorem free_loop_run : ∀ (m : Nat) (s : Sb) (sec k : Nat), sec < 4294967296 →
    m < 4294967296 → k ≤ m + 1 →
    (∀ i, i < k → sector_bit s (u32 (sec + i)) = some false) →
    (k ≤ m → sector_bit s (u32 (sec + k)) ≠ some false) →
    (k = m + 1 → (free_loop m s sec).2 = FreeResult.done) ∧
    (k ≤ m → sector_bit s (u32 (sec + k)) = some true →
      (free_loop m s sec).2 = FreeResult.err_not_allocated (u32 (sec + k))) ∧
    (k ≤ m → sector_bit s (u32 (sec + k)) = none →
      (free_loop m s sec).2 = FreeResult.map_failed) ∧
    (∀ R o, in_run sec k R o → region_bit (free_loop m s sec).1 R o = some true) ∧
    (∀ R o, ¬ in_run sec k R o → region_bit (free_loop m s sec).1 R o = region_bit s R o) ∧
    same_sb s (free_loop m s sec).1 := by
  intro m
  induction m with
  | zero =>
    intro s sec k hsec _ hk hall hstop
    have e0 : u32 (sec + 0) = sec := u32_of_lt hsec
    rcases free_loop_step s sec with ⟨hb, hf⟩ | ⟨hb, hf⟩ | ⟨hb, s1, hs1, hsb, hf0, _⟩
    · have hk0 : k = 0 := by
        by_contra hc
        have := hall 0 (by omega)
        rw [e0, hb] at this
        exact absurd this (by simp)
      subst hk0
      rw [hf 0, e0]
      exact ⟨fun h => by omega, fun _ h => by rw [hb] at h; exact absurd h (by simp),
        fun _ _ => rfl, fun R o h => absurd h (in_run_zero sec R o), fun _ _ _ => rfl,
        same_sb_refl s⟩
    · have hk0 : k = 0 := by
        by_contra hc
        have := hall 0 (by omega)
        rw [e0, hb] at this
        exact absurd this (by simp)
      subst hk0
      rw [hf 0, e0]
      exact ⟨fun h => by omega, fun _ _ => rfl,
        fun _ h => by rw [hb] at h; exact absurd h (by simp),
        fun R o h => absurd h (in_run_zero sec R o), fun _ _ _ => rfl, same_sb_refl s⟩
    · have hk1 : k = 1 := by
        by_contra hc
        have hk0 : k = 0 := by omega
        subst hk0
        have := hstop (by omega)
        rw [e0] at this
        exact this hb
      subst hk1
      rw [hf0]
      refine ⟨fun _ => rfl, fun h => by omega, fun h => by omega, ?_, ?_, hsb⟩
      · intro R o h
        rw [in_run_succ sec 0 R o hsec] at h
        rcases h with h | h
        · rw [hs1, if_pos h]
        · exact absurd h (in_run_zero _ R o)
      · intro R o h
        rw [in_run_succ sec 0 R o hsec] at h
        rw [hs1, if_neg (fun hc => h (Or.inl hc))]
  | succ m ih =>
    intro s sec k hsec hm hk hall hstop
    have e0 : u32 (sec + 0) = sec := u32_of_lt hsec
    have e1 : ∀ i, u32 (u32 (sec + 1) + i) = u32 (sec + (i + 1)) := by
      intro i; unfold u32; omega
    rcases free_loop_step s sec with ⟨hb, hf⟩ | ⟨hb, hf⟩ | ⟨hb, s1, hs1, hsb, _, hfs⟩
    · have hk0 : k = 0 := by
        by_contra hc
        have := hall 0 (by omega)
        rw [e0, hb] at this
        exact absurd this (by simp)
      subst hk0
      rw [hf (m + 1), e0]
      exact ⟨fun h => by omega, fun _ h => by rw [hb] at h; exact absurd h (by simp),
        fun _ _ => rfl, fun R o h => absurd h (in_run_zero sec R o), fun _ _ _ => rfl,
        same_sb_refl s⟩
    · have hk0 : k = 0 := by
        by_contra hc
        have := hall 0 (by omega)
        rw [e0, hb] at this
        exact absurd this (by simp)
      subst hk0
      rw [hf (m + 1), e0]
      exact ⟨fun h => by omega, fun _ _ => rfl,
        fun _ h => by rw [hb] at h; exact absurd h (by simp),
        fun R o h => absurd h (in_run_zero sec R o), fun _ _ _ => rfl, same_sb_refl s⟩
    · cases k with
      | zero =>
        have := hstop (by omega)
        rw [e0] at this
        exact absurd hb this
      | succ k =>
        have hother : ∀ i, i ≤ m → sector_bit s1 (u32 (sec + (i + 1))) =
            sector_bit s (u32 (sec + (i + 1))) := by
          intro i hi
          apply sector_bit_other s s1 sec _ true _ hs1
          unfold u32; omega
        rw [hfs m]
        obtain ⟨c1, c2, c3, c4, c5, c6⟩ := ih s1 (u32 (sec + 1)) k (u32_lt _) (by omega)
          (by omega)
          (by
            intro i hi
            rw [e1, hother i (by omega)]
            exact hall (i + 1) (by omega))
          (by
            intro hkm
            rw [e1, hother k (by omega)]
            exact hstop (by omega))
        rw [e1] at c2 c3
        refine ⟨fun h => c1 (by omega),
          fun h hb2 => c2 (by omega) (by rw [hother k (by omega)]; exact hb2),
          fun h hb2 => c3 (by omega) (by rw [hother k (by omega)]; exact hb2),
          ?_, ?_, same_sb_trans hsb c6⟩
        · intro R o h
          rw [in_run_succ sec k R o hsec] at h
          by_cases h2 : in_run (u32 (sec + 1)) k R o
          · exact c4 R o h2
          · rw [c5 R o h2, hs1]
            rcases h with h | h
            · rw [if_pos h]
            · exact absurd h h2
        · intro R o h
          rw [in_run_succ sec k R o hsec] at h
          rw [c5 R o (fun hc => h (Or.inr hc)), hs1, if_neg (fun hc => h (Or.inl hc))]

theorem in_run_nowrap (sec n : Nat) (R : Region) (o : Nat) (h : sec + n ≤ 4294967296) :
    in_run sec n R o ↔
      ∃ t, sec ≤ t ∧ t < sec + n ∧ R = Region.main (t >>> 14) ∧ o = t &&& 0x3fff := by
  constructor
  · rintro ⟨i, hi, h1, h2⟩
    rw [u32_of_lt (by omega)] at h1 h2
    exact ⟨sec + i, by omega, by omega, h1, h2⟩
  · rintro ⟨t, h1, h2, h3, h4⟩
    refine ⟨t - sec, by omega, ?_, ?_⟩
    · rw [u32_of_lt (by omega), show sec + (t - sec) = t by omega]; exact h3
    · rw [u32_of_lt (by omega), show sec + (t - sec) = t by omega]; exact h4

/-- The entry of `ntfs_free_sectors` for a sector that is not reserved. -/
theorem free_sectors_unfold (s : Sb) (sec n : Nat) (hsec : 0x12 ≤ sec) (hn : 1 ≤ n) :
    ∃ s2, ntfs_free_sectors s sec n = free_loop (n - 1) s2 sec ∧
      (∀ R o, region_bit s2 R o = region_bit s R o) ∧
      (∀ t, sector_bit s2 t = sector_bit s t) := by
  unfold ntfs_free_sectors
  rw [if_neg (by omega), if_neg (by omega)]
  simp only
  refine ⟨{ s with sb_max_fwd_alloc := _ }, rfl, ?_, ?_⟩
  · intro R o
    cases R <;> simp only [region_bit, region_bmp, ntfs_map_bitmap, ntfs_map_dnode_bitmap]
  · intro t
    simp only [sector_bit, region_bit, region_bmp, ntfs_map_bitmap]

/-- C2. `ntfs_free_sectors(sec, n)` on a range of allocated sectors, `sec` not
reserved and `sec + n` not wrapping: the call ends normally, every bit of the
range is free afterwards, also across region boundaries, and every bit outside
the range, in every region, is unchanged. -/
theorem free_sectors_frees (s : Sb) (sec n : Nat) (hsec : 0x12 ≤ sec) (hn : 1 ≤ n)
    (hwrap : sec + n ≤ 4294967296)
    (halloc : ∀ t, sec ≤ t → t < sec + n → sector_bit s t = some false) :
    (ntfs_free_sectors s sec n).2 = FreeResult.done ∧
    (∀ t, sec ≤ t → t < sec + n → sector_bit (ntfs_free_sectors s sec n).1 t = some true) ∧
    (∀ R o, (∀ t, sec ≤ t → t < sec + n → ¬ (R = Region.main (t >>> 14) ∧ o = t &&& 0x3fff)) →
      region_bit (ntfs_free_sectors s sec n).1 R o = region_bit s R o) := by
  obtain ⟨s2, h1, h2, h3⟩ := free_sectors_unfold s sec n hsec hn
  rw [h1]
  obtain ⟨c1, _, _, c4, c5, _⟩ := free_loop_run (n - 1) s2 sec n (by omega) (by omega)
    (by omega)
    (by
      intro i hi
      rw [h3, u32_of_lt (by omega)]
      exact halloc _ (by omega) (by omega))
    (by intro h; omega)
  refine ⟨c1 (by omega), ?_, ?_⟩
  · intro t ht1 ht2
    apply c4
    rw [in_run_nowrap sec n _ _ hwrap]
    exact ⟨t, ht1, ht2, rfl, rfl⟩
  · intro R o h
    rw [c5 R o, h2]
    rw [in_run_nowrap sec n _ _ hwrap]
    rintro ⟨t, ht1, ht2, ht3⟩
    exact h t ht1 ht2 ht3

theorem free_sectors_frees_witness :
    (ntfs_free_sectors fs_used 0x3ffe 5).2 = FreeResult.done ∧
    (∀ t, 0x3ffe ≤ t → t < 0x3ffe + 5 →
      sector_bit (ntfs_free_sectors fs_used 0x3ffe 5).1 t = some true) ∧
    (∀ R o, (∀ t, 0x3ffe ≤ t → t < 0x3ffe + 5 →
        ¬ (R = Region.main (t >>> 14) ∧ o = t &&& 0x3fff)) →
      region_bit (ntfs_free_sectors fs_used 0x3ffe 5).1 R o = region_bit fs_used R o) :=
  free_sectors_frees fs_used 0x3ffe 5 (by decide) (by decide) (by decide)
    (by
      intro t h1 h2
      have h3 : t >>> 14 < 4 := by rw [shr14]; omega
      simp [sector_bit, region_bit, region_bmp, ntfs_map_bitmap, fs_used, h3, bmp_free,
        all_used])

/-- A run of successful `ntfs_alloc_if_possible` calls: every sector of the run
was free before, is allocated after, and no other bit changed. -/
theorem claim_run_spec : ∀ (k : Nat) (s : Sb) (sec : Nat) (s1 : Sb), sec < 4294967296 →
    claim_run k s sec = some s1 →
    (∀ i, i < k → sector_bit s (u32 (sec + i)) = some true) ∧
    (∀ R o, in_run sec k R o → region_bit s1 R o = some false) ∧
    (∀ R o, ¬ in_run sec k R o → region_bit s1 R o = region_bit s R o) := by
  intro k
  induction k with
  | zero =>
    intro s sec s1 _ h
    simp only [claim_run, Option.some.injEq] at h
    subst h
    exact ⟨fun i hi => by omega, fun R o h => absurd h (in_run_zero sec R o), fun _ _ _ => rfl⟩
  | succ k ih =>
    intro s sec s1 hsec h
    have e0 : u32 (sec + 0) = sec := u32_of_lt hsec
    have e1 : ∀ i, u32 (u32 (sec + 1) + i) = u32 (sec + (i + 1)) := by
      intro i; unfold u32; omega
    unfold claim_run at h
    rcases alloc_if_possible_spec s sec with ⟨hb, hr, hs⟩ | ⟨_, hr⟩
    · rw [if_pos hr] at h
      obtain ⟨c1, c2, c3⟩ := ih _ _ s1 (u32_lt _) h
      refine ⟨?_, ?_, ?_⟩
      · intro i hi
        cases i with
        | zero => rw [e0]; exact hb
        | succ i =>
          have := c1 i (by omega)
          rw [e1] at this
          unfold sector_bit at this ⊢
          rw [hs] at this
          split at this
          · exact absurd this (by simp)
          · exact this
      · intro R o hin
        rw [in_run_succ sec k R o hsec] at hin
        by_cases h2 : in_run (u32 (sec + 1)) k R o
        · exact c2 R o h2
        · rw [c3 R o h2, hs]
          rcases hin with hin | hin
          · rw [if_pos hin]
          · exact absurd hin h2
      · intro R o hin
        rw [in_run_succ sec k R o hsec] at hin
        rw [c3 R o (fun hc => hin (Or.inr hc)), hs, if_neg (fun hc => hin (Or.inl hc))]
    · rw [hr] at h
      simp at h

/-- C4. Round trip: when `ntfs_alloc_if_possible` returned 1 on each of the `k`
sectors from `sec` on (`sec` not reserved), `ntfs_free_sectors(sec, k)` ends
normally and every bit of every region is what it was before the first
claim. -/
theorem claim_free_round_trip (s s1 : Sb) (sec k : Nat) (hsec : 0x12 ≤ sec)
    (hsec32 : sec < 4294967296) (hk : 1 ≤ k) (hk32 : k < 4294967296)
    (hclaim : claim_run k s sec = some s1) :
    (ntfs_free_sectors s1 sec k).2 = FreeResult.done ∧
    ∀ R o, region_bit (ntfs_free_sectors s1 sec k).1 R o = region_bit s R o := by
  obtain ⟨a1, a2, a3⟩ := claim_run_spec k s sec s1 hsec32 hclaim
  obtain ⟨s2, h1, h2, h3⟩ := free_sectors_unfold s1 sec k hsec hk
  rw [h1]
  obtain ⟨c1, _, _, c4, c5, _⟩ := free_loop_run (k - 1) s2 sec k hsec32 (by omega)
    (by omega)
    (by
      intro i hi
      rw [h3]
      exact a2 _ _ ⟨i, hi, rfl, rfl⟩)
    (by intro h; omega)
  refine ⟨c1 (by omega), ?_⟩
  intro R o
  by_cases hin : in_run sec k R o
  · rw [c4 R o hin]
    obtain ⟨i, hi, rfl, rfl⟩ := hin
    exact (a1 i hi).symm
  · rw [c5 R o hin, h2, a3 R o hin]

theorem claim_free_round_trip_witness :
    (ntfs_free_sectors (ntfs_alloc_if_possible (ntfs_alloc_if_possible fs_free 0x3fff).2
        0x4000).2 0x3fff 2).2 = FreeResult.done ∧
    ∀ R o, region_bit (ntfs_free_sectors (ntfs_alloc_if_possible
        (ntfs_alloc_if_possible fs_free 0x3fff).2 0x4000).2 0x3fff 2).1 R o =
      region_bit fs_free R o :=
  claim_free_round_trip fs_free _ 0x3fff 2 (by decide) (by decide) (by decide) (by decide)
    (by rfl)

/-- C5. For a reserved sector (`sec < 0x12`) `ntfs_free_sectors` returns the
state it was given, bitmaps and `sb_max_fwd_alloc` included, and for a non-zero
count it reports the reserved-sector error. -/
theorem free_sectors_reserved (s : Sb) (sec n : Nat) (hsec : sec < 0x12) :
    (ntfs_free_sectors s sec n).1 = s ∧
    (1 ≤ n → (ntfs_free_sectors s sec n).2 = FreeResult.err_reserved) := by
  unfold ntfs_free_sectors
  by_cases hn : n = 0
  · rw [if_pos hn]
    exact ⟨rfl, fun h => by omega⟩
  · rw [if_neg hn, if_pos hsec]
    exact ⟨rfl, fun _ => rfl⟩

theorem free_sectors_reserved_witness :
    (ntfs_free_sectors fs_used 0x10 1).1 = fs_used ∧
    (1 ≤ 1 → (ntfs_free_sectors fs_used 0x10 1).2 = FreeResult.err_reserved) :=
  free_sectors_reserved fs_used 0x10 1 (by decide)

theorem or_ffffc000 (x : Nat) : (0xffffc000 ||| x) &&& 0xffffc000 = 0xffffc000 := by
  apply Nat.eq_of_testBit_eq
  intro i
  rw [Nat.testBit_and, Nat.testBit_or]
  cases Nat.testBit 0xffffc000 i <;> simp

theorem selected_dirband (x : Nat) (hx : x < 4294967296) :
    selected (not32 0x3fff ||| x) = Region.dirband ∧
    (not32 0x3fff ||| x) < 4294967296 ∧
    (not32 0x3fff ||| x) - (not32 0x3fff ||| x) % 16384 = 0xffffc000 := by
  have h1 : (not32 0x3fff ||| x) < 4294967296 := by
    rw [not32_3fff]
    exact Nat.or_lt_two_pow (n := 32) (by norm_num) hx
  have h2 : (not32 0x3fff ||| x) &&& not32 0x3fff = not32 0x3fff := by
    rw [not32_3fff]; exact or_ffffc000 x
  refine ⟨?_, h1, ?_⟩
  · unfold selected
    rw [h2]
    simp
  · rw [← bs_facts _ h1, h2, not32_3fff]

/-- C6, as stated, fails: the band has one group, which is allocated, but bit
1 of the compact bitmap is set, and `alloc_in_dirband` returns the sector just
past the band. -/
theorem alloc_in_dirband_counterexample :
    ¬ (∀ (s : Sb) (near : Nat), (alloc_in_dirband s near).1 = 0 ∨
        (s.sb_dirband_start ≤ (alloc_in_dirband s near).1 ∧
          (alloc_in_dirband s near).1 < s.sb_dirband_start + s.sb_dirband_size ∧
          4 ∣ (alloc_in_dirband s near).1)) := by
  intro h
  have h1 := h fs_band1 0
  revert h1
  decide

/-- C6, amended. When the band starts at a multiple of 4, its end does not
wrap and no bit of the compact bitmap at or beyond `dirband_size / 4` is free,
`alloc_in_dirband` returns 0 or a sector inside the band that is a multiple
of 4. -/
theorem alloc_in_dirband_in_band (s : Sb) (near : Nat)
    (halign : 4 ∣ s.sb_dirband_start)
    (hwrap : s.sb_dirband_start + s.sb_dirband_size ≤ 4294967296)
    (hwf : ∀ q, s.sb_dirband_size / 4 ≤ q → region_bit s Region.dirband q ≠ some true) :
    (alloc_in_dirband s near).1 = 0 ∨
    (s.sb_dirband_start ≤ (alloc_in_dirband s near).1 ∧
      (alloc_in_dirband s near).1 < s.sb_dirband_start + s.sb_dirband_size ∧
      4 ∣ (alloc_in_dirband s near).1) := by
  unfold alloc_in_dirband
  simp only
  generalize hg : (u32 ((if (if near < s.sb_dirband_start then s.sb_dirband_start else near) ≥
      u32 (s.sb_dirband_start + s.sb_dirband_size)
    then u32 (u32 (s.sb_dirband_start + s.sb_dirband_size) + (4294967296 - 4))
    else if near < s.sb_dirband_start then s.sb_dirband_start else near) +
      (4294967296 - s.sb_dirband_start))) = nr3
  have hx : nr3 >>> 2 < 4294967296 := by
    have : nr3 < 4294967296 := by rw [← hg]; exact u32_lt _
    rw [Nat.shiftRight_eq_div_pow]
    exact lt_of_le_of_lt (Nat.div_le_self _ _) this
  clear hg
  obtain ⟨e1, e2, e3⟩ := selected_dirband (nr3 >>> 2) hx
  rcases alloc_in_bmp_cases s (not32 0x3fff ||| nr3 >>> 2) 1 0 e2 with
    h | ⟨bmp, q, _, hb, ht, _, hq4, _, h⟩
  · left; rw [h]; rfl
  · right
    rw [h, e3]
    rw [e1] at hb
    simp only [show ¬ (0xffffc000 + q = 0) by omega, if_false]
    have hoff : (0xffffc000 + q) &&& 0x3fff = q := by rw [and3fff]; omega
    rw [hoff, Nat.shiftLeft_eq]
    have hfree : region_bit s Region.dirband q = some true := by
      unfold region_bit
      rw [hb]
      have := ((tstbits_eq_zero bmp q _).mp ht 0 (by decide)).2
      rw [Nat.add_zero] at this
      rw [Option.map_some', this]
    have hq : q < s.sb_dirband_size / 4 := by
      by_contra hc
      exact hwf q (by omega) hfree
    have hu : u32 (q * 2 ^ 2 + s.sb_dirband_start) = q * 4 + s.sb_dirband_start :=
      u32_of_lt (by omega)
    rw [hu]
    refine ⟨by omega, by omega, ?_⟩
    exact Dvd.dvd.add ⟨q, by ring⟩ halign

theorem alloc_in_dirband_in_band_witness :
    (alloc_in_dirband fs_band4 0x1009).1 = 0 ∨
    (fs_band4.sb_dirband_start ≤ (alloc_in_dirband fs_band4 0x1009).1 ∧
      (alloc_in_dirband fs_band4 0x1009).1 <
        fs_band4.sb_dirband_start + fs_band4.sb_dirband_size ∧
      4 ∣ (alloc_in_dirband fs_band4 0x1009).1) :=
  alloc_in_dirband_in_band fs_band4 0x1009 (by decide) (by decide)
    (by
      intro q hq
      have hq4 : 4 ≤ q := hq
      show some (bmp_free bmp_groups4 q) ≠ some true
      rw [bmp_free_eq]
      unfold bmp_groups4
      by_cases h : q / 32 = 0
      · rw [if_pos h]
        have h1 : q % 32 < 32 := Nat.mod_lt _ (by norm_num)
        have h2 : 4 ≤ q % 32 := by omega
        have : Nat.testBit 0xf (q % 32) = false := by
          apply Nat.testBit_lt_two_pow
          calc 0xf < 2 ^ 4 := by norm_num
            _ ≤ 2 ^ (q % 32) := Nat.pow_le_pow_right (by norm_num) h2
        rw [this]; simp
      · rw [if_neg h]; simp)

/-- More fuel does not change a result of the retry loop. -/
theorem less_fwd_mono (n : Nat) (near_bmp : Int) (n_bmps : Nat) (f_p : Bool) :
    ∀ (fuel : Nat) (f : Int) (s : Sb) (r : Nat × Int × Sb × Nat),
      less_fwd n near_bmp n_bmps f_p fuel f s = some r →
      less_fwd n near_bmp n_bmps f_p (fuel + 1) f s = some r := by
  intro fuel
  induction fuel with
  | zero => intro f s r h; simp [less_fwd] at h
  | succ fuel ih =>
    intro f s r h
    unfold less_fwd at h ⊢
    simp only at h ⊢
    split
    · rename_i h1
      rw [if_pos h1] at h
      exact h
    · rename_i h1
      rw [if_neg h1] at h
      split
      · rename_i h2
        rw [if_pos h2] at h
        split at h
        · rename_i sec fw s1 k heq
          rw [ih _ _ _ heq]
          exact h
        · exact absurd h (by simp)
      · rename_i h2
        rw [if_neg h2] at h
        exact h

theorem less_fwd_mono_le (n : Nat) (near_bmp : Int) (n_bmps : Nat) (f_p : Bool)
    (fuel fuel2 : Nat) (f : Int) (s : Sb) (r : Nat × Int × Sb × Nat) (hle : fuel ≤ fuel2)
    (h : less_fwd n near_bmp n_bmps f_p fuel f s = some r) :
    less_fwd n near_bmp n_bmps f_p fuel2 f s = some r := by
  induction hle with
  | refl => exact h
  | step _ ih => exact less_fwd_mono n near_bmp n_bmps f_p _ f s r ih

/-- The retry loop ends: with `|forward| < 2 ^ j` it takes `goto less_fwd` at
most `j` times, and for a non-negative `forward` every restart halves it. -/
theorem less_fwd_terminates (n : Nat) (near_bmp : Int) (n_bmps : Nat) (f_p : Bool) :
    ∀ (j : Nat) (f : Int) (s : Sb), f.natAbs < 2 ^ j →
      ∃ sec fw s1 k, less_fwd n near_bmp n_bmps f_p (j + 1) f s = some (sec, fw, s1, k) ∧
        k ≤ j ∧ (0 ≤ f → fw = ((f.toNat / 2 ^ k : Nat) : Int)) := by
  intro j
  induction j with
  | zero =>
    intro f s hf
    have hf0 : f = 0 := by omega
    subst hf0
    unfold less_fwd
    simp only
    split
    · exact ⟨_, _, _, 0, rfl, le_refl _, fun h0 => by simp [h0]⟩
    · rw [if_neg (by simp)]
      exact ⟨_, _, _, 0, rfl, le_refl _, fun h0 => by simp [h0]⟩
  | succ j ih =>
    intro f s hf
    unfold less_fwd
    simp only
    split
    · exact ⟨_, _, _, 0, rfl, Nat.zero_le _, fun h0 => by simp [h0]⟩
    · split
      · have hh : (Int.tdiv f 2).natAbs < 2 ^ j := by
          rw [Int.natAbs_tdiv]
          show f.natAbs / 2 < 2 ^ j
          rw [pow_succ] at hf
          omega
        obtain ⟨sec, fw, s1, k, h1, h2, h3⟩ := ih (Int.tdiv f 2)
          { (search_regions n near_bmp n_bmps f n_bmps 0 s).2 with
            sb_max_fwd_alloc := Int.tdiv (toI32 (f * 3)) 4 } hh
        rw [h1]
        refine ⟨sec, fw, s1, k + 1, rfl, by omega, ?_⟩
        intro hf0
        have e : Int.tdiv f 2 = f / 2 := Int.tdiv_eq_ediv hf0 (by norm_num)
        have e2 : (f / 2).toNat = f.toNat / 2 := by omega
        rw [e] at h3
        rw [h3 (by omega), e2, Nat.div_div_eq_div_mul, pow_succ']
      · exact ⟨_, _, _, 0, rfl, Nat.zero_le _, fun h0 => by simp [h0]⟩

/-- `alloc_in_bmp` writes no scalar field of the superblock information. -/
theorem alloc_in_bmp_same_sb (s : Sb) (near n forward : Nat) :
    same_sb s (alloc_in_bmp s near n forward).2 := by
  unfold alloc_in_bmp
  simp only
  split
  · exact same_sb_refl s
  · split
    · exact same_sb_refl s
    · split
      · split
        · exact same_sb_refl s
        · split
          · exact ⟨rfl, rfl, rfl, rfl, rfl, rfl⟩
          · exact ⟨rfl, rfl, rfl, rfl, rfl, rfl⟩
      · exact same_sb_refl s

/-- The locals of `ntfs_alloc_sector` after the allocation near the hint. -/
theorem alloc_near_facts (s : Sb) (near n : Nat) (forward : Int) :
    (alloc_near s near n forward).f_p = decide (forward < 0) ∧
    (alloc_near s near n forward).forward =
      (if forward < 0 then toI32 (-forward) else forward) ∧
    (alloc_near s near n forward).n_bmps = u32 (s.sb_fs_size + 0x4000 - 1) >>> 14 ∧
    same_sb s (alloc_near s near n forward).s := by
  unfold alloc_near
  simp only
  split
  · exact ⟨rfl, rfl, rfl, alloc_in_bmp_same_sb _ _ _ _⟩
  · exact ⟨rfl, rfl, rfl, same_sb_refl s⟩

/-- A 32-bit `k` is zero after 32 right shifts: more rounds of the loop of
line 308 change nothing. -/
theorem count_bits_fuel : ∀ (bits k : Nat) (n : Int) (m : Nat), k < 2 ^ bits →
    count_bits (bits + m) k n = count_bits bits k n := by
  intro bits
  induction bits with
  | zero =>
    intro k n m hk
    have : k = 0 := by simpa using hk
    subst this
    cases m with
    | zero => rfl
    | succ m => simp [count_bits]
  | succ bits ih =>
    intro k n m hk
    rw [show bits + 1 + m = (bits + m) + 1 by omega]
    unfold count_bits
    have hk2 : k >>> 1 < 2 ^ bits := by
      rw [Nat.shiftRight_eq_div_pow, pow_one]
      rw [pow_succ] at hk
      omega
    rw [ih _ _ _ hk2, ih _ _ _ hk2]

/-- The mask `k` of line 329 is zero after eight shifts by 4: more rounds of
the loop change nothing. -/
theorem count_nibbles_fuel (w : Nat) (n : Int) (m : Nat) :
    count_nibbles w (8 + m) 0xf n = count_nibbles w 8 0xf n := by
  have key : ∀ (cnt j : Nat) (n : Int), j + cnt = 8 →
      count_nibbles w (cnt + m) (u32 (0xf <<< (4 * j))) n =
        count_nibbles w cnt (u32 (0xf <<< (4 * j))) n := by
    intro cnt
    induction cnt with
    | zero =>
      intro j n hj
      have : j = 8 := by omega
      subst this
      have hz : u32 (0xf <<< (4 * 8)) = 0 := by decide
      rw [hz]
      cases m with
      | zero => rfl
      | succ m => simp [count_nibbles]
    | succ cnt ih =>
      intro j n hj
      rw [show cnt + 1 + m = (cnt + m) + 1 by omega]
      unfold count_nibbles
      have hstep : u32 (u32 (0xf <<< (4 * j)) <<< 4) = u32 (0xf <<< (4 * (j + 1))) := by
        have hj7 : j ≤ 7 := by omega
        interval_cases j <;> decide
      rw [hstep, ih (j + 1) _ (by omega), ih (j + 1) _ (by omega)]
  exact key 8 0 n (by omega)

theorem chk_next_total (s : Sb) (n_bmps b : Int) :
    ∀ (fuel : Nat) (i n : Int), (n_bmps - i).toNat < fuel →
      chk_next s n_bmps b fuel i n ≠ none := by
  intro fuel
  induction fuel with
  | zero => intro i n h; omega
  | succ fuel ih =>
    intro i n h
    unfold chk_next
    simp only
    have hi1 : i ≤ (if i = b then i + 1 else i) := by split <;> omega
    generalize (if i = b then i + 1 else i) = i1 at hi1 ⊢
    by_cases hge : i1 ≥ n_bmps
    · rw [if_pos hge]; simp
    · rw [if_neg hge]
      cases chk_bmp (ntfs_map_bitmap s (toU32 i1)) n with
      | none => simp
      | some n1 =>
        simp only
        apply ih
        omega

/-- The loop of `ntfs_check_free_dnodes` over the regions ends within the fuel
it is given: the function always returns 0 or 1. -/
theorem check_free_dnodes_total (s : Sb) (n : Int) : ntfs_check_free_dnodes s n ≠ none := by
  unfold ntfs_check_free_dnodes check_free_dnodes_fuel
  simp only
  have hle : toI32 ((u32 (s.sb_fs_size + 0x4000 - 1) >>> 14 : Nat) : Int) ≤
      ((u32 (s.sb_fs_size + 0x4000 - 1) >>> 14 : Nat) : Int) := by
    unfold toI32
    split <;> omega
  split
  · simp
  · split
    · split
      · simp
      · apply chk_next_total
        omega
    · apply chk_next_total
      omega

set_option maxRecDepth 1000000 in
/-- C8 (code defect). With the region hint at region 1, the directory bitmap
and region 1 full and eight free nibbles in region 0, `ntfs_check_free_dnodes`
reports "insufficient" for `min_count = 1`: region 0 is never scanned. -/
theorem check_free_dnodes_skips_region_0 :
    ntfs_check_free_dnodes fs_hint1 1 = some 1 ∧ free_dnode_estimate fs_hint1 = 8 := by
  constructor <;> decide

theorem alloc_if_possible_same_sb (s : Sb) (sec : Nat) :
    same_sb s (ntfs_alloc_if_possible s sec).2 := by
  unfold ntfs_alloc_if_possible
  split
  · exact same_sb_refl s
  · simp only
    split
    · exact ⟨rfl, rfl, rfl, rfl, rfl, rfl⟩
    · exact same_sb_refl s

theorem prealloc_same_sb (sec : Nat) : ∀ (cnt i : Nat) (s : Sb),
    same_sb s (prealloc sec cnt i s).2 := by
  intro cnt
  induction cnt with
  | zero => intro i s; exact same_sb_refl s
  | succ cnt ih =>
    intro i s
    unfold prealloc
    simp only
    split
    · exact alloc_if_possible_same_sb s _
    · exact same_sb_trans (alloc_if_possible_same_sb s _) (ih _ _)

/-- The search over the regions writes `sb_c_bitmap` and bitmap buffers only. -/
theorem search_regions_max (n : Nat) (near_bmp : Int) (n_bmps : Nat) (forward : Int) :
    ∀ (cnt : Nat) (i : Int) (s : Sb),
      (search_regions n near_bmp n_bmps forward cnt i s).2.sb_max_fwd_alloc =
        s.sb_max_fwd_alloc := by
  intro cnt
  induction cnt with
  | zero => intro i s; rfl
  | succ cnt ih =>
    intro i s
    unfold search_regions
    simp only
    have h1 : ∀ (c : Prop) [Decidable c] (x : Nat),
        (if c then alloc_in_bmp s x n (toU32 forward) else (0, s)).2.sb_max_fwd_alloc =
          s.sb_max_fwd_alloc := by
      intro c _ x
      split
      · exact (alloc_in_bmp_same_sb s x n _).2.2.2.2.2
      · rfl
    generalize hr1 : (if toU32 (near_bmp + i) < n_bmps
      then alloc_in_bmp s (shl14 (near_bmp + i)) n (toU32 forward) else (0, s)) = r1
    have e1 : r1.2.sb_max_fwd_alloc = s.sb_max_fwd_alloc := by rw [← hr1]; exact h1 _ _
    split
    · exact e1
    · have h2 : ∀ (c : Prop) [Decidable c] (x : Nat),
          (if c then alloc_in_bmp r1.2 x n (toU32 forward) else (0, r1.2)).2.sb_max_fwd_alloc =
            s.sb_max_fwd_alloc := by
        intro c _ x
        split
        · rw [(alloc_in_bmp_same_sb r1.2 x n _).2.2.2.2.2]; exact e1
        · exact e1
      generalize hr2 : (if forward = 0 then
          (if near_bmp - i - 1 ≥ 0
            then alloc_in_bmp r1.2 (shl14 (near_bmp - i - 1)) n (toU32 forward) else (0, r1.2),
           near_bmp - i - 1)
        else
          (if toU32 (near_bmp + i) ≥ n_bmps
            then alloc_in_bmp r1.2 (u32 (toU32 (near_bmp + i - n_bmps) <<< 14)) n (toU32 forward)
            else (0, r1.2),
           toI32 (toU32 (near_bmp + i - n_bmps)))) = r2
      have e2 : r2.1.2.sb_max_fwd_alloc = s.sb_max_fwd_alloc := by
        rw [← hr2]
        split
        · exact h2 _ _
        · exact h2 _ _
      split
      · exact e2
      · generalize hr3 : (if i = 1 ∧ r2.1.2.sb_c_bitmap ≠ -1
          then alloc_in_bmp r2.1.2 (shl14 r2.1.2.sb_c_bitmap) n (toU32 forward)
          else (0, r2.1.2)) = r3
        have e3 : r3.2.sb_max_fwd_alloc = s.sb_max_fwd_alloc := by
          rw [← hr3]
          split
          · rw [(alloc_in_bmp_same_sb r2.1.2 _ n _).2.2.2.2.2]; exact e2
          · exact e2
        split
        · exact e3
        · rw [ih]; exact e3

theorem less_fwd_bounded (n : Nat) (near_bmp : Int) (n_bmps : Nat) (f_p : Bool) :
    ∀ (fuel : Nat) (f : Int) (s : Sb) (r : Nat × Int × Sb × Nat),
      (f_p = true ∨ (0 ≤ f ∧ f ≤ 0xffffff)) → fwd_bounded s →
      less_fwd n near_bmp n_bmps f_p fuel f s = some r → fwd_bounded r.2.2.1 := by
  intro fuel
  induction fuel with
  | zero => intro f s r _ _ h; simp [less_fwd] at h
  | succ fuel ih =>
    intro f s r hf hs h
    unfold less_fwd at h
    simp only at h
    have hmax := search_regions_max n near_bmp n_bmps f n_bmps 0 s
    split at h
    · simp only [Option.some.injEq] at h
      subst h
      unfold fwd_bounded at hs ⊢
      simp only
      rw [hmax]; exact hs
    · split at h
      · rename_i hc
        have hf' : 0 ≤ f ∧ f ≤ 0xffffff := by
          rcases hf with hf | hf
          · rw [hf] at hc; exact absurd hc.1 (by simp)
          · exact hf
        split at h
        · rename_i sec fw s1 k heq
          simp only [Option.some.injEq] at h
          subst h
          refine ih _ _ (sec, fw, s1, k) (Or.inr ?_) ?_ heq
          · rw [Int.tdiv_eq_ediv hf'.1 (by norm_num)]; omega
          · unfold fwd_bounded
            simp only
            have e : toI32 (f * 3) = f * 3 := by
              unfold toI32
              split <;> omega
            rw [e, Int.tdiv_eq_ediv (by omega) (by norm_num)]
            omega
        · exact absurd h (by simp)
      · simp only [Option.some.injEq] at h
        subst h
        unfold fwd_bounded at hs ⊢
        simp only
        rw [hmax]; exact hs

theorem alloc_sector_bounded (s : Sb) (near n : Nat) (forward : Int) (h : fwd_bounded s) :
    fwd_bounded (ntfs_alloc_sector s near n forward).2 := by
  unfold ntfs_alloc_sector alloc_sector_fuel
  cases hb : alloc_base fwd_fuel s near n forward with
  | none => exact h
  | some b =>
    simp only [Option.map_some']
    have hbs : fwd_bounded b.s := by
      obtain ⟨hfp, hfw, _, hsb⟩ := alloc_near_facts s near n forward
      have hs1 : fwd_bounded (alloc_near s near n forward).s := by
        unfold fwd_bounded at h ⊢
        rw [hsb.2.2.2.2.2]; exact h
      unfold alloc_base at hb
      simp only at hb
      split at hb
      · simp only [Option.some.injEq] at hb
        subst hb
        exact hs1
      · split at hb
        · rename_i sec2 fw2 s2 k heq
          simp only [Option.some.injEq] at hb
          subst hb
          refine less_fwd_bounded n _ _ _ _ _ _ _ ?_ hs1 heq
          by_cases hneg : forward < 0
          · left; rw [hfp]; simpa using hneg
          · right
            have e1 : (alloc_near s near n forward).f_p = false := by
              rw [hfp]; simpa using hneg
            rw [e1, hfw, if_neg hneg]
            unfold clamp_fwd
            unfold fwd_bounded at hs1
            by_cases hgt : forward > (alloc_near s near n forward).s.sb_max_fwd_alloc
            · rw [if_pos ⟨rfl, hgt⟩]; omega
            · rw [if_neg (fun hc => hgt hc.2)]; omega
        · exact absurd hb (by simp)
    unfold alloc_finish
    split
    · have := (prealloc_same_sb b.sec b.forward.toNat 0 b.s).2.2.2.2.2
      unfold fwd_bounded at hbs ⊢
      rw [this]; exact hbs
    · exact hbs

theorem free_loop_same_sb : ∀ (m : Nat) (s : Sb) (sec : Nat),
    same_sb s (free_loop m s sec).1 := by
  intro m
  induction m with
  | zero =>
    intro s sec
    rcases free_loop_step s sec with ⟨_, hf⟩ | ⟨_, hf⟩ | ⟨_, s1, _, hsb, hf0, _⟩
    · rw [hf 0]; exact same_sb_refl s
    · rw [hf 0]; exact same_sb_refl s
    · rw [hf0]; exact hsb
  | succ m ih =>
    intro s sec
    rcases free_loop_step s sec with ⟨_, hf⟩ | ⟨_, hf⟩ | ⟨_, s1, _, hsb, _, hfs⟩
    · rw [hf (m + 1)]; exact same_sb_refl s
    · rw [hf (m + 1)]; exact same_sb_refl s
    · rw [hfs m]; exact same_sb_trans hsb (ih s1 _)

theorem free_sectors_bounded (s : Sb) (sec n : Nat) (h : fwd_bounded s) :
    fwd_bounded (ntfs_free_sectors s sec n).1 := by
  unfold ntfs_free_sectors
  split
  · exact h
  · split
    · exact h
    · simp only
      unfold fwd_bounded at h ⊢
      rw [(free_loop_same_sb (n - 1) _ sec).2.2.2.2.2]
      simp only
      have e : toU32 s.sb_max_fwd_alloc = s.sb_max_fwd_alloc.toNat := by
        unfold toU32; omega
      rw [e]
      have e2 : toI32 ((s.sb_max_fwd_alloc.toNat + (if n > 0xffff then 0xffff else n) : Nat) : Int)
          = s.sb_max_fwd_alloc + ((if n > 0xffff then 0xffff else n : Nat) : Int) := by
        unfold toI32
        split <;> split <;> omega
      rw [e2]
      split <;> split <;> omega

theorem free_dnode_bounded (s : Sb) (dno : Nat) (h : fwd_bounded s) :
    fwd_bounded (ntfs_free_dnode s dno).1 := by
  unfold ntfs_free_dnode
  split
  · exact h
  · split
    · exact free_sectors_bounded s dno 4 h
    · simp only
      split
      · exact h
      · exact h

/-- C9. The bound `0 <= sb_max_fwd_alloc <= 0xFFFFFF` is kept by every
operation that writes the field or a bitmap: `ntfs_free_sectors`,
`ntfs_free_dnode`, `ntfs_alloc_sector` (any unit size, any `forward`) and
`ntfs_alloc_if_possible`, for every argument and every bitmap content.
`ntfs_check_free_dnodes` performs no store at all: its translation has no
state in its result. -/
theorem max_fwd_alloc_bounded (s : Sb)
    (h : 0 ≤ s.sb_max_fwd_alloc ∧ s.sb_max_fwd_alloc ≤ 0xffffff) :
    (∀ sec n, 0 ≤ (ntfs_free_sectors s sec n).1.sb_max_fwd_alloc ∧
      (ntfs_free_sectors s sec n).1.sb_max_fwd_alloc ≤ 0xffffff) ∧
    (∀ dno, 0 ≤ (ntfs_free_dnode s dno).1.sb_max_fwd_alloc ∧
      (ntfs_free_dnode s dno).1.sb_max_fwd_alloc ≤ 0xffffff) ∧
    (∀ near n forward, 0 ≤ (ntfs_alloc_sector s near n forward).2.sb_max_fwd_alloc ∧
      (ntfs_alloc_sector s near n forward).2.sb_max_fwd_alloc ≤ 0xffffff) ∧
    (∀ sec, 0 ≤ (ntfs_alloc_if_possible s sec).2.sb_max_fwd_alloc ∧
      (ntfs_alloc_if_possible s sec).2.sb_max_fwd_alloc ≤ 0xffffff) := by
  refine ⟨fun sec n => free_sectors_bounded s sec n h, fun dno => free_dnode_bounded s dno h,
    fun near n forward => alloc_sector_bounded s near n forward h, ?_⟩
  intro sec
  rw [(alloc_if_possible_same_sb s sec).2.2.2.2.2]
  exact h

theorem max_fwd_alloc_bounded_witness :
    (∀ sec n, 0 ≤ (ntfs_free_sectors fs_free sec n).1.sb_max_fwd_alloc ∧
      (ntfs_free_sectors fs_free sec n).1.sb_max_fwd_alloc ≤ 0xffffff) ∧
    (∀ dno, 0 ≤ (ntfs_free_dnode fs_free dno).1.sb_max_fwd_alloc ∧
      (ntfs_free_dnode fs_free dno).1.sb_max_fwd_alloc ≤ 0xffffff) ∧
    (∀ near n forward, 0 ≤ (ntfs_alloc_sector fs_free near n forward).2.sb_max_fwd_alloc ∧
      (ntfs_alloc_sector fs_free near n forward).2.sb_max_fwd_alloc ≤ 0xffffff) ∧
    (∀ sec, 0 ≤ (ntfs_alloc_if_possible fs_free sec).2.sb_max_fwd_alloc ∧
      (ntfs_alloc_if_possible fs_free sec).2.sb_max_fwd_alloc ≤ 0xffffff) :=
  max_fwd_alloc_bounded fs_free (by decide)

/-- A call of `alloc_in_bmp` that returns 0 leaves the state as it was. -/
theorem alloc_in_bmp_zero (s : Sb) (near n forward : Nat) (hnear : near < 4294967296)
    (h : (alloc_in_bmp s near n forward).1 = 0) : alloc_in_bmp s near n forward = (0, s) := by
  rcases alloc_in_bmp_cases s near n forward hnear with h1 | ⟨_, _, _, _, _, _, _, hne, h1⟩
  · exact h1
  · rw [h1] at h
    exact absurd h hne

/-- A single-sector allocation of `alloc_in_bmp` in a main region, with
`forward = k`: the `k + 1` sectors from the result on were free and lie in one
region, and the call cleared the bit of the result and no other. -/
theorem alloc_in_bmp_main (s : Sb) (near k : Nat) (hnear : near < 4294967296)
    (hk : 1 + k < 4294967296) (hne : (alloc_in_bmp s near 1 k).1 ≠ 0)
    (hmain : (alloc_in_bmp s near 1 k).1 < 0xffffc000) :
    (∀ j, j ≤ k → sector_bit s ((alloc_in_bmp s near 1 k).1 + j) = some true) ∧
    ((alloc_in_bmp s near 1 k).1 &&& 0x3fff) + k < 0x4000 ∧
    (∀ R o, region_bit (alloc_in_bmp s near 1 k).2 R o =
      if R = Region.main ((alloc_in_bmp s near 1 k).1 >>> 14) ∧
          o = (alloc_in_bmp s near 1 k).1 &&& 0x3fff then some false
      else region_bit s R o) := by
  rcases alloc_in_bmp_cases s near 1 k hnear with h | ⟨bmp, q, _, hb, ht, _, hq4, _, h⟩
  · rw [h] at hne; exact absurd rfl hne
  · rw [h] at hmain ⊢
    simp only at hmain ⊢
    rw [u32_of_lt hk, tstbits_eq_zero] at ht
    have hsel : selected near = Region.main (near >>> 14) := by
      unfold selected
      rw [bs_facts near hnear, not32_3fff, if_pos (by omega)]
    rw [hsel] at hb h
    have hreg : (near - near % 16384 + q) >>> 14 = near >>> 14 := by
      rw [shr14, shr14]; omega
    have hoff : (near - near % 16384 + q) &&& 0x3fff = q := by rw [and3fff]; omega
    have hqk := (ht k (by omega)).1
    refine ⟨?_, by rw [hoff]; omega, ?_⟩
    · intro j hj
      have e1 : (near - near % 16384 + q + j) >>> 14 = near >>> 14 := by
        have := (ht j (by omega)).1
        rw [shr14, shr14]; omega
      have e2 : (near - near % 16384 + q + j) &&& 0x3fff = q + j := by
        have := (ht j (by omega)).1
        rw [and3fff]; omega
      unfold sector_bit
      rw [e1, e2]
      show Option.map (fun bmp => bmp_free bmp (q + j)) (region_bmp s (Region.main (near >>> 14))) = _
      rw [hb, Option.map_some', (ht j (by omega)).2]
    · intro R o
      rw [hreg, hoff, region_bit_put, hsel]
      by_cases hR : R = Region.main (near >>> 14)
      · subst hR
        rw [if_pos rfl, bmp_free_clear bmp 1 q o (Or.inl rfl) (one_dvd _)]
        have hrb : region_bit s (Region.main (near >>> 14)) o = some (bmp_free bmp o) := by
          unfold region_bit; rw [hb]; rfl
        by_cases ho : o = q
        · have hc : Region.main (near >>> 14) = Region.main (near >>> 14) ∧ o = q := ⟨rfl, ho⟩
          rw [if_pos hc]
          subst ho
          simp
        · have hc : ¬ (Region.main (near >>> 14) = Region.main (near >>> 14) ∧ o = q) :=
            fun hc => ho hc.2
          rw [if_neg hc, hrb]
          have : (decide (q ≤ o) && decide (o < q + 1)) = false := by
            have : ¬ (q ≤ o ∧ o < q + 1) := by omega
            simpa using this
          rw [this]; simp
      · rw [if_neg hR, if_neg (fun hc => hR hc.1)]

/-- A call of `alloc_in_bmp` behind a guard, as in the conditions of lines
178, 183, 188 and 193: it yields 0 and the state it was given, or what the
call yields, which is then not 0. -/
theorem guarded_call (t : Sb) (c : Prop) [Decidable c] (near n f : Nat)
    (hnear : near < 4294967296) :
    (if c then alloc_in_bmp t near n f else (0, t)) = (0, t) ∨
    ((if c then alloc_in_bmp t near n f else (0, t)).1 ≠ 0 ∧
      (if c then alloc_in_bmp t near n f else (0, t)) = alloc_in_bmp t near n f) := by
  by_cases hc : c
  · rw [if_pos hc]
    by_cases h0 : (alloc_in_bmp t near n f).1 = 0
    · left; exact alloc_in_bmp_zero t near n f hnear h0
    · right; exact ⟨h0, rfl⟩
  · rw [if_neg hc]; left; rfl

theorem found_candidate (s : Sb) (near n f : Nat) (A : Nat × Sb) (c : Int)
    (hA : alloc_in_bmp s near n f = A) (hnear : near < 4294967296) :
    ∃ near1, near1 < 4294967296 ∧
      (alloc_in_bmp s near1 n f).1 = (A.1, { A.2 with sb_c_bitmap := c }).1 ∧
      ∀ R o, region_bit (A.1, { A.2 with sb_c_bitmap := c }).2 R o =
        region_bit (alloc_in_bmp s near1 n f).2 R o := by
  refine ⟨near, hnear, by rw [hA], ?_⟩
  intro R o
  rw [hA]
  cases R <;> rfl

/-- The search over the regions either finds nothing or returns the sector of
one call of `alloc_in_bmp` made in the state the search started in; the state
it leaves differs from the state after that call in `sb_c_bitmap` only. -/
theorem search_regions_found (n : Nat) (near_bmp : Int) (n_bmps : Nat) (forward : Int) :
    ∀ (cnt : Nat) (i : Int) (s : Sb),
      (search_regions n near_bmp n_bmps forward cnt i s).1 = 0 ∨
      ∃ near, near < 4294967296 ∧
        (alloc_in_bmp s near n (toU32 forward)).1 =
          (search_regions n near_bmp n_bmps forward cnt i s).1 ∧
        ∀ R o, region_bit (search_regions n near_bmp n_bmps forward cnt i s).2 R o =
          region_bit (alloc_in_bmp s near n (toU32 forward)).2 R o := by
  have hlt : ∀ x : Int, toU32 x < 4294967296 := by
    intro x; unfold toU32; omega
  intro cnt
  induction cnt with
  | zero => intro i s; left; rfl
  | succ cnt ih =>
    intro i s
    unfold search_regions
    simp only
    rcases guarded_call s (toU32 (near_bmp + i) < n_bmps) (shl14 (near_bmp + i)) n
      (toU32 forward) (hlt _) with e1 | ⟨hne, heq⟩
    · rw [e1]
      simp only [ne_eq, not_true_eq_false, if_false]
      by_cases hf : forward = 0
      · simp only [if_pos hf]
        rcases guarded_call s (near_bmp - i - 1 ≥ 0) (shl14 (near_bmp - i - 1)) n
          (toU32 forward) (hlt _) with e2 | ⟨hne2, heq2⟩
        · rw [e2]
          simp only [ne_eq, not_true_eq_false, if_false]
          rcases guarded_call s (i = 1 ∧ s.sb_c_bitmap ≠ -1) (shl14 s.sb_c_bitmap) n
            (toU32 forward) (hlt _) with e3 | ⟨hne3, heq3⟩
          · rw [e3]
            simp only [ne_eq, not_true_eq_false, if_false]
            exact ih (i + 1) s
          · rw [if_pos hne3, heq3]
            right
            exact ⟨_, hlt _, rfl, fun _ _ => rfl⟩
        · rw [if_pos hne2, heq2]
          right
          exact found_candidate s _ n _ _ _ rfl (hlt _)
      · rw [if_neg hf]
        dsimp only
        rcases guarded_call s (toU32 (near_bmp + i) ≥ n_bmps)
          (u32 (toU32 (near_bmp + i - n_bmps) <<< 14)) n (toU32 forward) (u32_lt _) with
          e2 | ⟨hne2, heq2⟩
        · rw [e2]
          simp only [ne_eq, not_true_eq_false, if_false]
          rcases guarded_call s (i = 1 ∧ s.sb_c_bitmap ≠ -1) (shl14 s.sb_c_bitmap) n
            (toU32 forward) (hlt _) with e3 | ⟨hne3, heq3⟩
          · rw [e3]
            simp only [ne_eq, not_true_eq_false, if_false]
            exact ih (i + 1) s
          · rw [if_pos hne3, heq3]
            right
            exact ⟨_, hlt _, rfl, fun _ _ => rfl⟩
        · rw [if_pos hne2, heq2]
          right
          exact found_candidate s _ n _ _ _ rfl (u32_lt _)
    · rw [if_pos hne, heq]
      right
      exact found_candidate s _ n _ _ _ rfl (hlt _)

/-- With the sign flag set the retry loop runs the search once. -/
theorem less_fwd_eager (n : Nat) (near_bmp : Int) (n_bmps : Nat) (fuel : Nat) (f : Int)
    (s : Sb) :
    less_fwd n near_bmp n_bmps true (fuel + 1) f s =
      some ((search_regions n near_bmp n_bmps f n_bmps 0 s).1, f,
        (search_regions n near_bmp n_bmps f n_bmps 0 s).2, 0) := by
  unfold less_fwd
  simp only
  by_cases h : (search_regions n near_bmp n_bmps f n_bmps 0 s).1 ≠ 0
  · rw [if_pos h]
  · rw [if_neg h, if_neg (by simp)]
    have h0 : (search_regions n near_bmp n_bmps f n_bmps 0 s).1 = 0 := by
      simpa using h
    rw [h0]

/-- The allocation near the hint (line 164): nothing found and the state
untouched, or the result of the call of `alloc_in_bmp`. -/
theorem alloc_near_cases (s : Sb) (near n : Nat) (forward : Int) (hnear : near < 4294967296) :
    ((alloc_near s near n forward).sec = 0 ∧ (alloc_near s near n forward).s = s) ∨
    ((alloc_near s near n forward).sec ≠ 0 ∧
      (alloc_near s near n forward).sec =
        (alloc_in_bmp s near n (toU32 (if decide (forward < 0) = true
          then (if forward < 0 then toI32 (-forward) else forward)
          else Int.tdiv (if forward < 0 then toI32 (-forward) else forward) 4))).1 ∧
      (alloc_near s near n forward).s =
        (alloc_in_bmp s near n (toU32 (if decide (forward < 0) = true
          then (if forward < 0 then toI32 (-forward) else forward)
          else Int.tdiv (if forward < 0 then toI32 (-forward) else forward) 4))).2) := by
  unfold alloc_near
  simp only
  split
  · generalize hA : alloc_in_bmp s near n (toU32 (if decide (forward < 0) = true
          then (if forward < 0 then toI32 (-forward) else forward)
          else Int.tdiv (if forward < 0 then toI32 (-forward) else forward) 4)) = A
    by_cases h0 : A.1 = 0
    · left
      have := alloc_in_bmp_zero s near n _ hnear (by rw [hA]; exact h0)
      rw [hA] at this
      rw [this]
      exact ⟨rfl, rfl⟩
    · right
      exact ⟨h0, rfl, rfl⟩
  · left; exact ⟨rfl, rfl⟩

/-- A base allocation of an eager request `forward = -k` for single sectors
is the result of one call `alloc_in_bmp(.., 1, k)` made on the bitmaps the
function was entered with. -/
theorem alloc_base_found (s : Sb) (near k : Nat) (b : BaseResult) (hnear : near < 4294967296)
    (hk : 1 ≤ k) (hk31 : k ≤ 2147483648)
    (hb : alloc_base fwd_fuel s near 1 (-(k : Int)) = some b) (hsec : b.sec ≠ 0) :
    b.f_p = true ∧ b.forward = toI32 k ∧
    ∃ near1, near1 < 4294967296 ∧ (alloc_in_bmp s near1 1 k).1 = b.sec ∧
      ∀ R o, region_bit b.s R o = region_bit (alloc_in_bmp s near1 1 k).2 R o := by
  obtain ⟨hfp, hfw, _, _⟩ := alloc_near_facts s near 1 (-(k : Int))
  have hneg : (-(k : Int)) < 0 := by omega
  have hfp1 : (alloc_near s near 1 (-(k : Int))).f_p = true := by
    rw [hfp]; simpa using hneg
  have hfw1 : (alloc_near s near 1 (-(k : Int))).forward = toI32 k := by
    rw [hfw, if_pos hneg, neg_neg]
  have hu : toU32 (toI32 k) = k := by
    unfold toU32 toI32
    split <;> omega
  have hcases := alloc_near_cases s near 1 (-(k : Int)) hnear
  rw [if_pos hneg, neg_neg, if_pos (by simpa using hneg), hu] at hcases
  unfold alloc_base at hb
  simp only at hb
  rcases hcases with ⟨h0, hs⟩ | ⟨hne, he1, he2⟩
  · rw [if_neg (by simpa using h0), hs, hfp1, hfw1] at hb
    have hcl : clamp_fwd true (toI32 k) s = toI32 k := by
      unfold clamp_fwd
      rw [if_neg (by simp)]
    rw [hcl, show fwd_fuel = 39 + 1 from rfl, less_fwd_eager] at hb
    simp only [Option.some.injEq] at hb
    subst hb
    simp only at hsec ⊢
    refine ⟨trivial, trivial, ?_⟩
    rcases search_regions_found 1 (alloc_near s near 1 (-(k : Int))).near_bmp
      (alloc_near s near 1 (-(k : Int))).n_bmps (toI32 k)
      (alloc_near s near 1 (-(k : Int))).n_bmps 0 s with h | ⟨near1, h1, h2, h3⟩
    · exact absurd h hsec
    · rw [hu] at h2 h3
      exact ⟨near1, h1, h2, h3⟩
  · rw [if_pos hne] at hb
    simp only [Option.some.injEq] at hb
    subst hb
    simp only
    refine ⟨hfp1, hfw1, near, hnear, he1.symm, ?_⟩
    intro R o
    rw [he2]

/-- Claims of `k` consecutive free sectors all succeed. -/
theorem claim_run_succeeds : ∀ (k : Nat) (s : Sb) (t : Nat), t + k ≤ 4294967296 →
    (∀ i, i < k → sector_bit s (t + i) = some true) →
    ∃ s1, claim_run k s t = some s1 := by
  intro k
  induction k with
  | zero => intro s t _ _; exact ⟨s, rfl⟩
  | succ k ih =>
    intro s t ht hall
    unfold claim_run
    rcases alloc_if_possible_spec s t with ⟨_, hr, hs⟩ | ⟨hb, _⟩
    · rw [if_pos hr]
      cases k with
      | zero => exact ⟨_, rfl⟩
      | succ k =>
        rw [u32_of_lt (by omega)]
        apply ih _ _ (by omega)
        intro i hi
        rw [sector_bit_other s _ t (t + 1 + i) false (by omega) hs]
        rw [show t + 1 + i = t + (i + 1) by omega]
        exact hall (i + 1) (by omega)
    · exact absurd (hall 0 (by omega)) hb

/-- The pre-allocation loop returns `sec` when the run of claims from
`sec + i + 1` on succeeds. -/
theorem prealloc_of_claim_run (sec : Nat) : ∀ (cnt i : Nat) (s s1 : Sb),
    sec + i + cnt < 4294967296 → claim_run cnt s (sec + i + 1) = some s1 →
    prealloc sec cnt i s = (sec, s1) := by
  intro cnt
  induction cnt with
  | zero =>
    intro i s s1 _ h
    simp only [claim_run, Option.some.injEq] at h
    subst h
    rfl
  | succ cnt ih =>
    intro i s s1 hlt h
    unfold claim_run at h
    unfold prealloc
    simp only
    rw [u32_of_lt (by omega)]
    split at h
    · rename_i h1
      rw [if_neg (by omega)]
      cases cnt with
      | zero =>
        simp only [claim_run, Option.some.injEq] at h
        subst h
        rfl
      | succ cnt =>
        rw [u32_of_lt (by omega)] at h
        exact ih (i + 1) _ s1 (by omega) h
    · exact absurd h (by simp)

/-- C10, as stated, fails: with `near` in the last 16384 sectors of a file
system of 2^32 - 1 sectors, `alloc_in_bmp` takes the base allocation from the
directory bitmap, the claim of the next sector goes to main region 0x3ffff,
where the sector is allocated, and the call returns 0. -/
theorem prealloc_alias_counterexample :
    ¬ (∀ (s : Sb) (near k : Nat) (b : BaseResult), near < 4294967296 → 1 ≤ k →
        alloc_base fwd_fuel s near 1 (-(k : Int)) = some b → b.sec ≠ 0 →
        ntfs_map_bitmap s (b.sec >>> 14) ≠ none →
        (ntfs_alloc_sector s near 1 (-(k : Int))).1 = b.sec) := by
  intro h
  have h1 := h fs_alias 0xffffc000 1
    { sec := 0xffffc000, f_p := true, forward := 1,
      s := (alloc_in_bmp fs_alias 0xffffc000 1 1).2, restarts := 0 }
    (by decide) (by decide) rfl (by decide) (by simp [ntfs_map_bitmap, fs_alias])
  revert h1
  decide

/-- C10, amended. Eager pre-allocation for single sectors, `forward = -k`:
when the base allocation finds a sector `sec` below 0xffffc000 (so that it
comes from a main region bitmap, not from the directory bitmap selected by the
base `~0x3fff`), each of the `k` claims of `sec + 1 .. sec + k` succeeds, the
call returns `sec`, the `k + 1` bits of `[sec, sec + k]` were free and are
allocated, and no other bit of any region has changed. -/
theorem prealloc_single_sector (s : Sb) (near k : Nat) (b : BaseResult)
    (hnear : near < 4294967296) (hk : 1 ≤ k) (hk31 : k ≤ 2147483648)
    (hb : alloc_base fwd_fuel s near 1 (-(k : Int)) = some b) (hsec : b.sec ≠ 0)
    (hmain : b.sec < 0xffffc000) :
    claim_run k b.s (b.sec + 1) = some (ntfs_alloc_sector s near 1 (-(k : Int))).2 ∧
    (ntfs_alloc_sector s near 1 (-(k : Int))).1 = b.sec ∧
    (∀ i, i ≤ k → sector_bit s (b.sec + i) = some true) ∧
    (∀ i, i ≤ k → sector_bit (ntfs_alloc_sector s near 1 (-(k : Int))).2 (b.sec + i) =
      some false) ∧
    (∀ R o, (∀ i, i ≤ k → ¬ (R = Region.main ((b.sec + i) >>> 14) ∧ o = (b.sec + i) &&& 0x3fff)) →
      region_bit (ntfs_alloc_sector s near 1 (-(k : Int))).2 R o = region_bit s R o) := by
  obtain ⟨hfp, hfw, near1, hn1, ha1, ha2⟩ := alloc_base_found s near k b hnear hk hk31 hb hsec
  have hne : (alloc_in_bmp s near1 1 k).1 ≠ 0 := by rw [ha1]; exact hsec
  obtain ⟨m1, m2, m3⟩ := alloc_in_bmp_main s near1 k hn1 (by omega) hne (by rw [ha1]; exact hmain)
  rw [ha1] at m1 m2 m3
  have hbs : ∀ R o, region_bit b.s R o =
      if R = Region.main (b.sec >>> 14) ∧ o = b.sec &&& 0x3fff then some false
      else region_bit s R o := by
    intro R o; rw [ha2, m3]
  have hk14 : k < 0x4000 := by omega
  have hfwk : b.forward.toNat = k := by
    rw [hfw]
    unfold toI32
    split <;> omega
  have hend : b.sec + k < 0xffffc000 := by
    rw [and3fff] at m2; omega
  obtain ⟨s2, hcr⟩ := claim_run_succeeds k b.s (b.sec + 1) (by omega)
    (by
      intro i hi
      rw [sector_bit_other s b.s b.sec (b.sec + 1 + i) false (by omega) hbs]
      rw [show b.sec + 1 + i = b.sec + (i + 1) by omega]
      exact m1 (i + 1) (by omega))
  have hpre := prealloc_of_claim_run b.sec k 0 b.s s2 (by omega) hcr
  have hres : ntfs_alloc_sector s near 1 (-(k : Int)) = (b.sec, s2) := by
    unfold ntfs_alloc_sector alloc_sector_fuel
    rw [hb]
    simp only [Option.map_some']
    unfold alloc_finish
    rw [if_pos ⟨hsec, hfp⟩, hfwk]
    exact hpre
  obtain ⟨_, c2, c3⟩ := claim_run_spec k b.s (b.sec + 1) s2 (by omega) hcr
  have hrun : ∀ R o, in_run (b.sec + 1) k R o ↔
      ∃ t, b.sec + 1 ≤ t ∧ t < b.sec + 1 + k ∧ R = Region.main (t >>> 14) ∧ o = t &&& 0x3fff :=
    fun R o => in_run_nowrap (b.sec + 1) k R o (by omega)
  rw [hres]
  refine ⟨hcr, rfl, m1, ?_, ?_⟩
  · intro i hi
    show region_bit s2 (Region.main ((b.sec + i) >>> 14)) ((b.sec + i) &&& 0x3fff) = some false
    cases i with
    | zero =>
      rw [c3, hbs, if_pos ⟨rfl, rfl⟩]
      rw [hrun]
      rintro ⟨t, ht1, _, ht3, ht4⟩
      rw [Region.main.injEq] at ht3
      have := sector_eq (b.sec + 0) t ht3 ht4
      omega
    | succ i =>
      apply c2
      rw [hrun]
      exact ⟨b.sec + (i + 1), by omega, by omega, rfl, rfl⟩
  · intro R o hout
    show region_bit s2 R o = region_bit s R o
    rw [c3, hbs, if_neg]
    · have := hout 0 (by omega)
      rwa [Nat.add_zero] at this
    · rw [hrun]
      rintro ⟨t, ht1, ht2, ht3, ht4⟩
      have := hout (t - b.sec) (by omega)
      rw [show b.sec + (t - b.sec) = t by omega] at this
      exact this ⟨ht3, ht4⟩

theorem prealloc_single_sector_witness :
    claim_run 3 (alloc_in_bmp fs_free 0x4000 1 3).2 (0x4000 + 1) =
      some (ntfs_alloc_sector fs_free 0x4000 1 (-((3 : Nat) : Int))).2 ∧
    (ntfs_alloc_sector fs_free 0x4000 1 (-((3 : Nat) : Int))).1 = 0x4000 ∧
    (∀ i, i ≤ 3 → sector_bit fs_free (0x4000 + i) = some true) ∧
    (∀ i, i ≤ 3 →
      sector_bit (ntfs_alloc_sector fs_free 0x4000 1 (-((3 : Nat) : Int))).2 (0x4000 + i) =
        some false) ∧
    (∀ R o, (∀ i, i ≤ 3 →
        ¬ (R = Region.main ((0x4000 + i) >>> 14) ∧ o = (0x4000 + i) &&& 0x3fff)) →
      region_bit (ntfs_alloc_sector fs_free 0x4000 1 (-((3 : Nat) : Int))).2 R o =
        region_bit fs_free R o) :=
  prealloc_single_sector fs_free 0x4000 3
    { sec := 0x4000, f_p := true, forward := 3,
      s := (alloc_in_bmp fs_free 0x4000 1 3).2, restarts := 0 }
    (by decide) (by decide) (by decide) rfl (by decide) (by decide)

/-- C11, as stated, fails: with `sb_chk = 0` the alignment test of line 345 is
not made, and `ntfs_free_dnode(0x13)` frees the sectors 0x13 to 0x16. -/
theorem free_dnode_unchecked_counterexample :
    ¬ (∀ (s : Sb) (dno : Nat), dno &&& 3 ≠ 0 →
        (ntfs_free_dnode s dno).2 = FreeResult.err_not_aligned ∧
        ∀ R o, region_bit (ntfs_free_dnode s dno).1 R o = region_bit s R o) := by
  intro h
  have h1 := (h fs_used 0x13 (by decide)).1
  revert h1
  decide

/-- C11, amended. In checked mode (`sb_chk` not 0) `ntfs_free_dnode` rejects a
sector that is not a multiple of 4 with the alignment error and returns the
state it was given: no bit of the directory bitmap or of a main region
changes. -/
theorem free_dnode_misaligned (s : Sb) (dno : Nat) (hchk : s.sb_chk ≠ 0) (hdno : dno &&& 3 ≠ 0) :
    ntfs_free_dnode s dno = (s, FreeResult.err_not_aligned) ∧
    ∀ R o, region_bit (ntfs_free_dnode s dno).1 R o = region_bit s R o := by
  have h : ntfs_free_dnode s dno = (s, FreeResult.err_not_aligned) := by
    unfold ntfs_free_dnode
    rw [if_pos ⟨hchk, hdno⟩]
  refine ⟨h, ?_⟩
  intro R o
  rw [h]

theorem free_dnode_misaligned_witness :
    ntfs_free_dnode fs_band4 0x1002 = (fs_band4, FreeResult.err_not_aligned) ∧
    ∀ R o, region_bit (ntfs_free_dnode fs_band4 0x1002).1 R o = region_bit fs_band4 R o :=
  free_dnode_misaligned fs_band4 0x1002 (by decide) (by decide)

theorem test_shift_free (bmp : Bmp) (o : Nat) :
    ((bmp (o >>> 5) >>> (o &&& 0x1f)) &&& 1 ≠ 0) ↔ bmp_free bmp o = true := by
  unfold bmp_free
  simp

/-- `chk_if_allocated` returns 0 exactly for a sector that is allocated in
its main region bitmap and, inside the directory band, in the directory
bitmap (both mapped). -/
theorem chk_if_allocated_zero (s : Sb) (sec : Nat) :
    chk_if_allocated s sec = 0 ↔ allocated_everywhere s sec := by
  unfold chk_if_allocated allocated_everywhere
  rw [sector_bit_eq]
  cases hm : ntfs_map_bitmap s (sec >>> 14) with
  | none => simp
  | some bmp =>
    simp only [Option.map_some', Option.some.injEq]
    by_cases h1 : (bmp ((sec &&& 0x3fff) >>> 5) >>> (sec &&& 0x1f)) &&& 1 ≠ 0
    · rw [if_pos h1]
      have := (test_shift_iff bmp sec).mp h1
      rw [this]
      simp
    · rw [if_neg h1]
      have hf : bmp_free bmp (sec &&& 0x3fff) = false := by
        have : ¬ bmp_free bmp (sec &&& 0x3fff) = true := fun hc => h1 ((test_shift_iff bmp sec).mpr hc)
        simpa using this
      rw [hf]
      by_cases hband : sec ≥ s.sb_dirband_start ∧
          sec < u32 (s.sb_dirband_start + s.sb_dirband_size)
      · rw [if_pos hband]
        simp only [true_and]
        have hband' : s.sb_dirband_start ≤ sec ∧
            sec < u32 (s.sb_dirband_start + s.sb_dirband_size) := hband
        unfold region_bit region_bmp
        cases hd : ntfs_map_dnode_bitmap s with
        | none =>
          simp only [Option.map_none']
          constructor
          · intro h; exact absurd h (by decide)
          · intro h; exact absurd (h hband') (by simp)
        | some dbmp =>
          simp only [Option.map_some', Option.some.injEq]
          generalize u32 (sec + (4294967296 - s.sb_dirband_start)) / 4 = ssec
          by_cases h2 : (dbmp (ssec >>> 5) >>> (ssec &&& 0x1f)) &&& 1 ≠ 0
          · rw [if_pos h2]
            have := (test_shift_free dbmp ssec).mp h2
            rw [this]
            constructor
            · intro h; exact absurd h (by decide)
            · intro h; exact absurd (h hband') (by simp)
          · rw [if_neg h2]
            have : ¬ bmp_free dbmp ssec = true := fun hc => h2 ((test_shift_free dbmp ssec).mpr hc)
            have hf2 : bmp_free dbmp ssec = false := by simpa using this
            rw [hf2]
            simp
      · rw [if_neg hband]
        simp only [true_and, true_iff]
        intro hc
        exact absurd hc hband

theorem chk_loop_zero (s : Sb) (start : Nat) : ∀ (cnt i : Nat),
    chk_loop s start cnt i = 0 ↔
      ∀ j, i ≤ j → j < i + cnt → chk_if_allocated s (u32 (start + j)) = 0 := by
  intro cnt
  induction cnt with
  | zero =>
    intro i
    simp only [chk_loop, true_iff]
    intro j h1 h2; omega
  | succ cnt ih =>
    intro i
    unfold chk_loop
    by_cases h : chk_if_allocated s (u32 (start + i)) ≠ 0
    · rw [if_pos h]
      constructor
      · intro hc; exact absurd hc (by decide)
      · intro hc; exact absurd (hc i (le_refl _) (by omega)) h
    · rw [if_neg h, ih]
      have h0 : chk_if_allocated s (u32 (start + i)) = 0 := by simpa using h
      constructor
      · intro hc j h1 h2
        by_cases hj : j = i
        · subst hj; exact h0
        · exact hc j (by omega) (by omega)
      · intro hc j h1 h2
        exact hc j (by omega) (by omega)

/-- C15. `ntfs_chk_sectors(start, len)` in 32-bit unsigned sector arithmetic:
below check level 2 it returns 0 exactly when the bounds hold (`start` not
reserved, `start + len` not wrapped below `start` and not beyond `fs_size`);
from level 2 on it returns 0 exactly when the bounds hold and every sector of
the range is allocated in its main region bitmap and, inside the directory
band, its group is allocated in the directory bitmap.  Its translation has
no state in its result: the function stores nothing. -/
theorem chk_sectors_spec (s : Sb) (start : Nat) (len : Int) :
    (s.sb_chk < 2 → (ntfs_chk_sectors s start len = 0 ↔ bounds_ok s start len)) ∧
    (2 ≤ s.sb_chk → (ntfs_chk_sectors s start len = 0 ↔
      (bounds_ok s start len ∧
        ∀ i : Nat, (i : Int) < len → allocated_everywhere s (u32 (start + i))))) := by
  unfold ntfs_chk_sectors bounds_ok
  by_cases hb : u32 (start + toU32 len) < start ∨ start < 0x12 ∨
      u32 (start + toU32 len) > s.sb_fs_size
  · rw [if_pos hb]
    have hnb : ¬ (¬ (u32 (start + toU32 len) < start) ∧ 0x12 ≤ start ∧
        u32 (start + toU32 len) ≤ s.sb_fs_size) := by
      intro hc
      rcases hb with h | h | h <;> omega
    constructor
    · intro _
      constructor
      · intro h; exact absurd h (by decide)
      · intro h; exact absurd h hnb
    · intro _
      constructor
      · intro h; exact absurd h (by decide)
      · intro h; exact absurd h.1 hnb
  · rw [if_neg hb]
    have hbo : ¬ (u32 (start + toU32 len) < start) ∧ 0x12 ≤ start ∧
        u32 (start + toU32 len) ≤ s.sb_fs_size := by
      refine ⟨fun h => hb (Or.inl h), ?_, ?_⟩
      · by_contra h; exact hb (Or.inr (Or.inl (by omega)))
      · by_contra h; exact hb (Or.inr (Or.inr (by omega)))
    constructor
    · intro hlt
      rw [if_neg (by omega)]
      exact ⟨fun _ => hbo, fun _ => rfl⟩
    · intro hge
      rw [if_pos hge, chk_loop_zero]
      constructor
      · intro h
        refine ⟨hbo, ?_⟩
        intro i hi
        rw [← chk_if_allocated_zero]
        exact h i (Nat.zero_le _) (by omega)
      · intro h j _ hj
        rw [chk_if_allocated_zero]
        exact h.2 j (by omega)

/-- The test `(bmp[idx] | ~mask) != 0xffffffff` of line 128 is passed when
the `n` bits at the aligned offset `q` are free in a buffer of 32-bit words. -/
theorem commit_check_ok (bmp : Bmp) (n q : Nat) (hwf : bmp_wf bmp) (hn : n = 1 ∨ n = 4)
    (hq : n ∣ q) (hfree : ∀ j, j < n → bmp_free bmp (q + j) = true) :
    (bmp (q >>> 5) ||| alloc_mask n q) = 0xffffffff := by
  have hq4 : q % 32 + n ≤ 32 := by
    rcases hn with rfl | rfl
    · omega
    · obtain ⟨c, rfl⟩ := hq; omega
  apply Nat.eq_of_testBit_eq
  intro i
  rw [Nat.testBit_or, testBit_alloc_mask, shr5, testBit_ones32]
  by_cases hi : i < 32
  · by_cases hin : q % 32 ≤ i ∧ i - q % 32 < n
    · have := hfree (i - q % 32) hin.2
      rw [bmp_free_eq] at this
      have e1 : (q + (i - q % 32)) / 32 = q / 32 := by omega
      have e2 : (q + (i - q % 32)) % 32 = i := by omega
      rw [e1, e2] at this
      rw [this]
      simp [hi]
    · have : (decide (q % 32 ≤ i) && decide (i - q % 32 < n)) = false := by
        simpa using hin
      rw [this]
      simp [hi]
  · have h1 : (bmp (q / 32)).testBit i = false := by
      apply Nat.testBit_lt_two_pow
      calc bmp (q / 32) < 2 ^ 32 := hwf _
        _ ≤ 2 ^ i := Nat.pow_le_pow_right (by norm_num) (by omega)
    rw [h1]
    simp [hi]

/-- The value of `nr` (line 67): the offset of `near` in its region, rounded
down to a multiple of the unit. -/
theorem nr_eq (near n : Nat) (hn : n = 1 ∨ n = 4) :
    (near &&& 0x3fff) &&& not32 (dec32 n) = near % 16384 - near % 16384 % n := by
  rw [and3fff]
  have h1 : near % 16384 < 4294967296 := by omega
  rcases hn with rfl | rfl
  · rw [show dec32 1 = 0 from rfl, not32_0]
    have := Nat.and_pow_two_sub_one_eq_mod (near % 16384) 32
    simp only [Nat.reducePow, Nat.add_one_sub_one] at this
    rw [show (0xffffffff : Nat) = 4294967296 - 1 from rfl, this, Nat.mod_one]
    omega
  · rw [show dec32 4 = 3 from rfl, not32_3, and_fffffffc _ h1]

/-- `alloc_in_bmp` when the search stages deliver `bs + q` for an aligned
offset `q` whose `n` bits are free, in a buffer of 32-bit words: the test of
line 128 is passed, the call returns `bs + q` (unless
that is sector 0) and clears the `n` bits at `q` and no other bit. -/
theorem alloc_in_bmp_at (s : Sb) (near n forward : Nat) (bmp : Bmp) (q : Nat)
    (hnear : near < 4294967296) (hn : n = 1 ∨ n = 4)
    (hb : region_bmp s (selected near) = some bmp) (hwf : s.sb_chk ≠ 0 → bmp_wf bmp)
    (hsearch : alloc_search bmp (near &&& not32 0x3fff)
      ((near &&& 0x3fff) &&& not32 (dec32 n)) n forward = u32 ((near &&& not32 0x3fff) + q))
    (hq : n ∣ q) (hq4 : q < 0x4000) (hfree : ∀ j, j < n → bmp_free bmp (q + j) = true)
    (hne : near - near % 16384 + q ≠ 0) :
    (alloc_in_bmp s near n forward).1 = near - near % 16384 + q ∧
    ∀ R o, region_bit (alloc_in_bmp s near n forward).2 R o =
      if R = selected near ∧ q ≤ o ∧ o < q + n then some false else region_bit s R o := by
  have hbs : near &&& not32 0x3fff = near - near % 16384 := bs_facts near hnear
  have hu : u32 (near - near % 16384 + q) = near - near % 16384 + q := u32_of_lt (by omega)
  rw [hbs, hu] at hsearch
  have hsel : (if near &&& not32 0x3fff ≠ not32 0x3fff then ntfs_map_bitmap s (near >>> 14)
      else ntfs_map_dnode_bitmap s) = region_bmp s (selected near) := by
    unfold selected
    split <;> rfl
  have e1 : ((near - near % 16384 + q) &&& 0x3fff) >>> 5 = q >>> 5 := by
    rw [and3fff, shr5, shr5]; omega
  have e2 : alloc_mask n (near - near % 16384 + q) = alloc_mask n q :=
    alloc_mask_congr _ _ _ (by omega)
  have e3 : (near - near % 16384 + q) >>> 14 = (near - near % 16384) >>> 14 := by
    rw [shr14, shr14]; omega
  have hres : alloc_in_bmp s near n forward =
      (near - near % 16384 + q, put_region s (selected near)
        (bmp_store bmp (q >>> 5) (bmp (q >>> 5) &&& alloc_mask n q))) := by
    unfold alloc_in_bmp
    simp only
    rw [if_neg (by omega), hsel, hb]
    simp only
    rw [hbs, hsearch, if_pos hne, e1, e2, e3]
    have hc : ¬ (s.sb_chk ≠ 0 ∧ ((near - near % 16384) >>> 14 ≠ (near - near % 16384) >>> 14 ∨
        (bmp (q >>> 5) ||| alloc_mask n q) ≠ 0xffffffff)) := by
      rintro ⟨h1, h2 | h2⟩
      · exact h2 rfl
      · exact h2 (commit_check_ok bmp n q (hwf h1) hn hq hfree)
    rw [if_neg hc]
    congr 1
    unfold selected
    rw [hbs]
    split <;> rfl
  rw [hres]
  refine ⟨rfl, ?_⟩
  intro R o
  simp only
  rw [region_bit_put]
  by_cases hR : R = selected near
  · subst hR
    rw [if_pos rfl, bmp_free_clear bmp n q o hn hq]
    have hrb : region_bit s (selected near) o = some (bmp_free bmp o) := by
      unfold region_bit; rw [hb]; rfl
    by_cases ho : q ≤ o ∧ o < q + n
    · have hc : selected near = selected near ∧ q ≤ o ∧ o < q + n := ⟨rfl, ho⟩
      rw [if_pos hc]
      simp [ho.1, ho.2]
    · have hc : ¬ (selected near = selected near ∧ q ≤ o ∧ o < q + n) := fun h => ho h.2
      rw [if_neg hc, hrb]
      have : (decide (q ≤ o) && decide (o < q + n)) = false := by simpa using ho
      rw [this]; simp
  · rw [if_neg hR, if_neg (fun h => hR h.1)]

theorem selected_map (s : Sb) (near : Nat) :
    (if near &&& not32 0x3fff ≠ not32 0x3fff then ntfs_map_bitmap s (near >>> 14)
      else ntfs_map_dnode_bitmap s) = region_bmp s (selected near) := by
  unfold selected
  split <;> rfl

/-- `alloc_in_bmp` on a region whose bitmap cannot be mapped. -/
theorem alloc_in_bmp_unmapped (s : Sb) (near n forward : Nat)
    (hb : region_bmp s (selected near) = none) : alloc_in_bmp s near n forward = (0, s) := by
  unfold alloc_in_bmp
  simp only
  rw [selected_map, hb]
  split <;> rfl

/-- `alloc_in_bmp` when the three search stages find nothing. -/
theorem alloc_in_bmp_nothing (s : Sb) (near n forward : Nat) (bmp : Bmp)
    (hb : region_bmp s (selected near) = some bmp)
    (h0 : alloc_search bmp (near &&& not32 0x3fff)
      ((near &&& 0x3fff) &&& not32 (dec32 n)) n forward = 0) :
    alloc_in_bmp s near n forward = (0, s) := by
  unfold alloc_in_bmp
  simp only
  rw [selected_map, hb]
  simp only
  rw [h0]
  split <;> rfl

/-- What the search stages deliver when `ret` is not 0, with `n + forward`
not wrapping: an aligned offset of the region whose `n` bits are free. -/
theorem alloc_search_found (bmp : Bmp) (near n forward : Nat) (hnear : near < 4294967296)
    (hn : n = 1 ∨ n = 4) (hlen : n + forward < 4294967296)
    (h : alloc_search bmp (near &&& not32 0x3fff)
      ((near &&& 0x3fff) &&& not32 (dec32 n)) n forward ≠ 0) :
    ∃ q, alloc_search bmp (near &&& not32 0x3fff)
        ((near &&& 0x3fff) &&& not32 (dec32 n)) n forward = u32 ((near &&& not32 0x3fff) + q) ∧
      u32 ((near &&& not32 0x3fff) + q) = near - near % 16384 + q ∧
      n ∣ q ∧ q < 0x4000 ∧ (∀ j, j < n → bmp_free bmp (q + j) = true) ∧
      near - near % 16384 + q ≠ 0 := by
  obtain ⟨h1, h2⟩ := nr_facts near n hn
  obtain ⟨q, e, ht, hq, hq4⟩ := alloc_search_sound bmp _ _ n forward hn h1 h2 h
  have hbs : near &&& not32 0x3fff = near - near % 16384 := bs_facts near hnear
  have hu : u32 ((near &&& not32 0x3fff) + q) = near - near % 16384 + q := by
    rw [hbs]; exact u32_of_lt (by omega)
  refine ⟨q, e, hu, hq, hq4, ?_, ?_⟩
  · intro j hj
    rw [tstbits_eq_zero, u32_of_lt hlen] at ht
    exact (ht j (by omega)).2
  · rw [← hu, ← e]; exact h

theorem region_bit_set_chk (s : Sb) (c : Nat) (R : Region) (o : Nat) :
    region_bit (set_chk s c) R o = region_bit s R o := by
  cases R <;> rfl

theorem region_bmp_set_chk (s : Sb) (c : Nat) (R : Region) :
    region_bmp (set_chk s c) R = region_bmp s R := by
  cases R <;> rfl

/-- C19. The commit-time test of `alloc_in_bmp` (line 128) never fails on a
buffer of 32-bit words: for every `near`, `n` in {1, 4} and `forward` with
`n + forward` not wrapping, a non-zero `ret` from the search stages lies in
the selected region, the `n` bits at `ret` are free, and the tested word
or-ed with the inverted mask is 0xffffffff; so `alloc_in_bmp` returns the
same sector and leaves the same bits whatever the check level `sb_chk` is. -/
theorem commit_check_never_fails (s : Sb) (near n forward : Nat)
    (hnear : near < 4294967296) (hn : n = 1 ∨ n = 4) (hlen : n + forward < 4294967296)
    (hwf : ∀ bmp, region_bmp s (selected near) = some bmp → bmp_wf bmp) :
    (∀ bmp ret, region_bmp s (selected near) = some bmp →
      ret = alloc_search bmp (near &&& not32 0x3fff)
        ((near &&& 0x3fff) &&& not32 (dec32 n)) n forward → ret ≠ 0 →
      ret >>> 14 = (near &&& not32 0x3fff) >>> 14 ∧
      (∀ j, j < n → bmp_free bmp ((ret &&& 0x3fff) + j) = true) ∧
      (bmp ((ret &&& 0x3fff) >>> 5) ||| alloc_mask n ret) = 0xffffffff) ∧
    (∀ c, (alloc_in_bmp (set_chk s c) near n forward).1 = (alloc_in_bmp s near n forward).1 ∧
      ∀ R o, region_bit (alloc_in_bmp (set_chk s c) near n forward).2 R o =
        region_bit (alloc_in_bmp s near n forward).2 R o) := by
  constructor
  · intro bmp ret hb hret hne
    subst hret
    obtain ⟨q, e, hu, hq, hq4, hfree, -⟩ := alloc_search_found bmp near n forward hnear hn hlen hne
    rw [e, hu, bs_facts near hnear]
    have e0 : (near - near % 16384 + q) &&& 0x3fff = q := by rw [and3fff]; omega
    refine ⟨by rw [shr14, shr14]; omega, ?_, ?_⟩
    · rw [e0]; exact hfree
    · rw [e0, alloc_mask_congr n (near - near % 16384 + q) q (by omega)]
      exact commit_check_ok bmp n q (hwf bmp hb) hn hq hfree
  · intro c
    cases hb : region_bmp s (selected near) with
    | none =>
      rw [alloc_in_bmp_unmapped s near n forward hb,
        alloc_in_bmp_unmapped (set_chk s c) near n forward (by rw [region_bmp_set_chk]; exact hb)]
      exact ⟨rfl, fun R o => region_bit_set_chk s c R o⟩
    | some bmp =>
      have hb' : region_bmp (set_chk s c) (selected near) = some bmp := by
        rw [region_bmp_set_chk]; exact hb
      by_cases h0 : alloc_search bmp (near &&& not32 0x3fff)
          ((near &&& 0x3fff) &&& not32 (dec32 n)) n forward = 0
      · rw [alloc_in_bmp_nothing s near n forward bmp hb h0,
          alloc_in_bmp_nothing (set_chk s c) near n forward bmp hb' h0]
        exact ⟨rfl, fun R o => region_bit_set_chk s c R o⟩
      · obtain ⟨q, e, -, hq, hq4, hfree, hne⟩ :=
          alloc_search_found bmp near n forward hnear hn hlen h0
        have h1 := alloc_in_bmp_at s near n forward bmp q hnear hn hb
          (fun _ => hwf bmp hb) e hq hq4 hfree hne
        have h2 := alloc_in_bmp_at (set_chk s c) near n forward bmp q hnear hn hb'
          (fun _ => hwf bmp hb) e hq hq4 hfree hne
        refine ⟨by rw [h1.1, h2.1], ?_⟩
        intro R o
        rw [h1.2, h2.2, region_bit_set_chk]

theorem bmp_wf_all_free : bmp_wf all_free := by
  intro j
  show (0xffffffff : Nat) < 4294967296
  norm_num

/-- C19 at a concrete input: region 1 of the free file system, unit 4. -/
theorem commit_check_never_fails_witness :
    (∀ bmp ret, region_bmp fs_free (selected 0x4001) = some bmp →
      ret = alloc_search bmp (0x4001 &&& not32 0x3fff)
        ((0x4001 &&& 0x3fff) &&& not32 (dec32 4)) 4 2 → ret ≠ 0 →
      ret >>> 14 = (0x4001 &&& not32 0x3fff) >>> 14 ∧
      (∀ j, j < 4 → bmp_free bmp ((ret &&& 0x3fff) + j) = true) ∧
      (bmp ((ret &&& 0x3fff) >>> 5) ||| alloc_mask 4 ret) = 0xffffffff) ∧
    (∀ c, (alloc_in_bmp (set_chk fs_free c) 0x4001 4 2).1 = (alloc_in_bmp fs_free 0x4001 4 2).1 ∧
      ∀ R o, region_bit (alloc_in_bmp (set_chk fs_free c) 0x4001 4 2).2 R o =
        region_bit (alloc_in_bmp fs_free 0x4001 4 2).2 R o) :=
  commit_check_never_fails fs_free 0x4001 4 2 (by decide) (by decide) (by decide)
    (fun bmp hb => by
      have h : region_bmp fs_free (selected 0x4001) = some all_free := rfl
      rw [h] at hb
      cases hb
      exact bmp_wf_all_free)

/-- The first search stage (lines 81-84): when the run at `nr` is free, `ret`
is `bs + nr`. -/
theorem alloc_search_direct (bmp : Bmp) (bs nr n forward : Nat)
    (hfree : run_free bmp nr (n + forward)) :
    alloc_search bmp bs nr n forward = u32 (bs + nr) := by
  have ht : tstbits bmp nr (u32 (n + forward)) = 0 := by
    rw [tstbits_eq_zero]
    intro j hj
    exact hfree j (lt_of_lt_of_le hj (Nat.mod_le _ _))
  unfold alloc_search
  simp only
  rw [if_pos ht]

set_option maxRecDepth 1000000 in
/-- C16, as stated, fails for main region 0: in the spec's scenario (all-free
region, unit 1, forward 0, near 0) the run at offset 0 is free, yet `ret` is
sector 0, the failure value, so the test `if (ret)` of line 127 skips the
store and bit 0 stays free. -/
theorem direct_hit_region_0_counterexample :
    ¬ (∀ (s : Sb) (near n forward : Nat) (bmp : Bmp), near < 4294967296 → (n = 1 ∨ n = 4) →
        region_bmp s (selected near) = some bmp → bmp_wf bmp →
        run_free bmp (near % 16384 - near % 16384 % n) (n + forward) →
        (alloc_in_bmp s near n forward).1 =
          near - near % 16384 + (near % 16384 - near % 16384 % n) ∧
        ∀ o, near % 16384 - near % 16384 % n ≤ o →
          o < near % 16384 - near % 16384 % n + n →
          region_bit (alloc_in_bmp s near n forward).2 (selected near) o = some false) := by
  intro h
  have hfree : run_free all_free (0 % 16384 - 0 % 16384 % 1) (1 + 0) := by
    intro j hj
    have : j = 0 := by omega
    subst this
    decide
  have h1 := (h fs_free 0 1 0 all_free (by decide) (by decide) rfl bmp_wf_all_free hfree).2 0
    (by decide) (by decide)
  revert h1
  decide

/-- C16, amended. Direct hit: for every region, `near`, `n` in {1, 4} and
`forward`, with `nr` the offset of `near` in its region rounded down to a
multiple of `n`: if the `n + forward` bits from `nr` on are free (and lie in
the region) and `region_base + nr` is not sector 0, `alloc_in_bmp` returns
`region_base + nr`, clears the `n` bits `nr .. nr+n-1` of the selected region
and leaves every other bit of every region as it was. -/
theorem direct_hit (s : Sb) (near n forward : Nat) (bmp : Bmp)
    (hnear : near < 4294967296) (hn : n = 1 ∨ n = 4)
    (hb : region_bmp s (selected near) = some bmp) (hwf : s.sb_chk ≠ 0 → bmp_wf bmp)
    (hfree : run_free bmp (near % 16384 - near % 16384 % n) (n + forward))
    (hne : near - near % 16384 + (near % 16384 - near % 16384 % n) ≠ 0) :
    (near &&& 0x3fff) &&& not32 (dec32 n) = near % 16384 - near % 16384 % n ∧
    (alloc_in_bmp s near n forward).1 =
      near - near % 16384 + (near % 16384 - near % 16384 % n) ∧
    ∀ R o, region_bit (alloc_in_bmp s near n forward).2 R o =
      if R = selected near ∧ near % 16384 - near % 16384 % n ≤ o ∧
          o < near % 16384 - near % 16384 % n + n then some false
      else region_bit s R o := by
  have hnr := nr_eq near n hn
  have hd : n ∣ near % 16384 - near % 16384 % n := by
    rw [← hnr]; exact (nr_facts near n hn).1
  have hs := alloc_search_direct bmp (near &&& not32 0x3fff)
    ((near &&& 0x3fff) &&& not32 (dec32 n)) n forward (by rw [hnr]; exact hfree)
  rw [hnr] at hs
  have hfree' : ∀ j, j < n → bmp_free bmp (near % 16384 - near % 16384 % n + j) = true :=
    fun j hj => (hfree j (by omega)).2
  have hs' : alloc_search bmp (near &&& not32 0x3fff)
      ((near &&& 0x3fff) &&& not32 (dec32 n)) n forward =
      u32 ((near &&& not32 0x3fff) + (near % 16384 - near % 16384 % n)) := by
    rw [hnr]; exact hs
  exact ⟨hnr, alloc_in_bmp_at s near n forward bmp _ hnear hn hb hwf hs' hd (by omega)
    hfree' hne⟩

set_option maxRecDepth 1000000 in
/-- C16, amended, at a concrete input: the spec's scenario moved to region 1
(all-free region, unit 1, forward 0, `near` the first sector of the region):
the call returns the region base and clears bit 0 only. -/
theorem direct_hit_witness :
    (0x4000 &&& 0x3fff) &&& not32 (dec32 1) = 0x4000 % 16384 - 0x4000 % 16384 % 1 ∧
    (alloc_in_bmp fs_free 0x4000 1 0).1 =
      0x4000 - 0x4000 % 16384 + (0x4000 % 16384 - 0x4000 % 16384 % 1) ∧
    ∀ R o, region_bit (alloc_in_bmp fs_free 0x4000 1 0).2 R o =
      if R = selected 0x4000 ∧ 0x4000 % 16384 - 0x4000 % 16384 % 1 ≤ o ∧
          o < 0x4000 % 16384 - 0x4000 % 16384 % 1 + 1 then some false
      else region_bit fs_free R o :=
  direct_hit fs_free 0x4000 1 0 all_free (by decide) (by decide) rfl
    (fun _ => bmp_wf_all_free)
    (by
      intro j hj
      have : j = 0 := by omega
      subst this
      decide)
    (by decide)

/-- The loop of lines 86-95 before it wraps: started at an aligned `p` with
`nr < p ≤ q0`, where `q0` is the least aligned offset after `nr` with a free
run and lies in the word of `nr`, it ends at `q0` with `a = 0`; the skip by
`a` never passes `q0`. -/
theorem scan_near_finds (bmp : Bmp) (nr n len q0 : Nat) (hn : n = 1 ∨ n = 4)
    (hq0 : n ∣ q0) (hword : q0 / 32 = nr / 32) (hfree : run_free bmp q0 len)
    (hmin : ∀ q, n ∣ q → nr < q → q < q0 → ¬ run_free bmp q len) :
    ∀ (fuel p : Nat), n ∣ p → nr < p → p ≤ q0 → q0 - p < fuel →
      scan_near bmp nr n len fuel p false = some (q0, 0) := by
  intro fuel
  induction fuel with
  | zero => intro p _ _ _ h; omega
  | succ fuel ih =>
    intro p hp hgt hle hfuel
    unfold scan_near
    simp only
    by_cases ha : tstbits bmp p len = 0
    · rw [if_pos ha, ha]
      have hrun : run_free bmp p len := (tstbits_eq_zero bmp p len).1 ha
      have : p = q0 := by
        by_contra hne
        exact hmin p hp hgt (by omega) hrun
      rw [this]
    · rw [if_neg ha]
      obtain ⟨h1, h2, -, h4⟩ := tstbits_pos bmp p len ha
      have hlen0 : 0 < len := by omega
      have hq04 : q0 + (len - 1) < 0x4000 := (hfree (len - 1) (by omega)).1
      have hz : p + tstbits bmp p len ≤ q0 := by
        by_contra hc
        apply h4
        have hj := hfree (p + (tstbits bmp p len - 1) - q0) (by omega)
        have e : q0 + (p + (tstbits bmp p len - 1) - q0) = p + (tstbits bmp p len - 1) := by
          omega
        rw [e] at hj
        exact hj
      obtain ⟨s1, s2, s3⟩ := skip_spec p (tstbits bmp p len) n hn (by omega) h1
        (tstbits_le bmp p len)
      generalize (if n ≠ 1 then align_up (u32 (p + tstbits bmp p len)) n
        else u32 (p + tstbits bmp p len)) = q2 at s1 s2 s3
      have hq2 : q2 ≤ q0 := by
        rcases hn with rfl | rfl
        · omega
        · obtain ⟨c, rfl⟩ := hq0
          obtain ⟨d, rfl⟩ := s1
          omega
      have hw : ¬ (q2 >>> 5 ≠ nr >>> 5) := by
        rw [shr5, shr5]; omega
      rw [if_pos trivial, if_neg hw]
      exact ih q2 s1 (by omega) hq2 (by omega)

/-- The second search stage (lines 85-99): when the run at `nr` is not free
and `q0` is the least aligned offset after `nr` with a free run, in the word
of `nr`, `ret` is `bs + q0`. -/
theorem alloc_search_near (bmp : Bmp) (bs nr n forward q0 : Nat) (hn : n = 1 ∨ n = 4)
    (hnr : n ∣ nr) (hnot : ¬ run_free bmp nr (n + forward))
    (hq0 : n ∣ q0) (hgt : nr < q0) (hword : q0 / 32 = nr / 32)
    (hfree : run_free bmp q0 (n + forward))
    (hmin : ∀ q, n ∣ q → nr < q → q < q0 → ¬ run_free bmp q (n + forward)) :
    alloc_search bmp bs nr n forward = u32 (bs + q0) := by
  have hlen0 : 0 < n + forward := by rcases hn with rfl | rfl <;> omega
  have hq04 : q0 + (n + forward - 1) < 0x4000 := (hfree (n + forward - 1) (by omega)).1
  have hlen : u32 (n + forward) = n + forward := u32_of_lt (by omega)
  have ht : tstbits bmp nr (n + forward) ≠ 0 := by
    rw [Ne, tstbits_eq_zero]; exact hnot
  have hp : nr + n ≤ q0 := by
    rcases hn with rfl | rfl
    · omega
    · obtain ⟨c, rfl⟩ := hq0
      obtain ⟨d, rfl⟩ := hnr
      omega
  have hs := scan_near_finds bmp nr n (n + forward) q0 hn hq0 hword hfree hmin scan_fuel
    (nr + n) (Dvd.dvd.add hnr (dvd_refl n)) (by omega) hp
    (by unfold scan_fuel; omega)
  unfold alloc_search
  simp only
  rw [hlen, if_neg ht, hs]

/-- C17. First match after the hint: for every region, `near`, `n` in {1, 4}
and `forward`, with `nr` the aligned offset of `near`: if the run of
`n + forward` bits at `nr` is not free and `q0` is the least `n`-aligned
offset after `nr` whose `n + forward` bits are free, and `q0` lies in the
32-bit word of `nr`, then `alloc_in_bmp` returns `region_base + q0`, clears
the `n` bits at `q0` and leaves every other bit of every region as it was. -/
theorem first_match_after_hint (s : Sb) (near n forward : Nat) (bmp : Bmp) (q0 : Nat)
    (hnear : near < 4294967296) (hn : n = 1 ∨ n = 4)
    (hb : region_bmp s (selected near) = some bmp) (hwf : s.sb_chk ≠ 0 → bmp_wf bmp)
    (hnot : ¬ run_free bmp (near % 16384 - near % 16384 % n) (n + forward))
    (hq0 : n ∣ q0) (hgt : near % 16384 - near % 16384 % n < q0)
    (hword : q0 / 32 = (near % 16384 - near % 16384 % n) / 32)
    (hfree : run_free bmp q0 (n + forward))
    (hmin : ∀ q, n ∣ q → near % 16384 - near % 16384 % n < q → q < q0 →
      ¬ run_free bmp q (n + forward)) :
    (alloc_in_bmp s near n forward).1 = near - near % 16384 + q0 ∧
    ∀ R o, region_bit (alloc_in_bmp s near n forward).2 R o =
      if R = selected near ∧ q0 ≤ o ∧ o < q0 + n then some false else region_bit s R o := by
  have hnr := nr_eq near n hn
  have hd : n ∣ near % 16384 - near % 16384 % n := by
    rw [← hnr]; exact (nr_facts near n hn).1
  have hs := alloc_search_near bmp (near &&& not32 0x3fff) _ n forward q0 hn hd hnot hq0 hgt
    hword hfree hmin
  have hs' : alloc_search bmp (near &&& not32 0x3fff)
      ((near &&& 0x3fff) &&& not32 (dec32 n)) n forward =
      u32 ((near &&& not32 0x3fff) + q0) := by
    rw [hnr]; exact hs
  have hlen0 : 0 < n + forward := by rcases hn with rfl | rfl <;> omega
  have hq04 : q0 + (n + forward - 1) < 0x4000 := (hfree (n + forward - 1) (by omega)).1
  exact alloc_in_bmp_at s near n forward bmp q0 hnear hn hb hwf hs' hq0 (by omega)
    (fun j hj => (hfree j (by omega)).2) (by omega)

theorem bmp_wf_low4 : bmp_wf bmp_low4 := by
  intro j
  unfold bmp_low4
  split <;> norm_num

set_option maxRecDepth 1000000 in
/-- C17 at the spec's scenario: bits 0..3 of region 0 allocated, the rest
free, unit 4, `near = 0`: the call returns sector 4 and clears bits 4..7. -/
theorem first_match_after_hint_witness :
    (alloc_in_bmp fs_low4 0 4 0).1 = 0 - 0 % 16384 + 4 ∧
    ∀ R o, region_bit (alloc_in_bmp fs_low4 0 4 0).2 R o =
      if R = selected 0 ∧ 4 ≤ o ∧ o < 4 + 4 then some false else region_bit fs_low4 R o :=
  first_match_after_hint fs_low4 0 4 0 bmp_low4 4 (by decide) (by decide) rfl
    (fun _ => bmp_wf_low4)
    (by
      intro h
      have h0 := (h 0 (by decide)).2
      revert h0
      decide)
    (by decide) (by decide) (by decide)
    (by
      intro j hj
      have hj4 : j < 4 := hj
      interval_cases j <;> decide)
    (by
      intro q hd h1 h2
      omega)

/-- The retry loop for a check-only request (`f_p = 0`): after `k` restarts
`forward` has been halved `k` times, and the ceiling is 3/4 of the value
`forward` had before its last halving; without a restart it is untouched. -/
theorem less_fwd_shrinks (n : Nat) (near_bmp : Int) (n_bmps : Nat) :
    ∀ (fuel : Nat) (f : Int) (s : Sb) (sec : Nat) (fw : Int) (s1 : Sb) (k : Nat),
      less_fwd n near_bmp n_bmps false fuel f s = some (sec, fw, s1, k) →
      fw = halve^[k] f ∧
      (k = 0 → s1.sb_max_fwd_alloc = s.sb_max_fwd_alloc) ∧
      (1 ≤ k → s1.sb_max_fwd_alloc = Int.tdiv (toI32 (halve^[k - 1] f * 3)) 4) := by
  intro fuel
  induction fuel with
  | zero => intro f s sec fw s1 k h; simp [less_fwd] at h
  | succ fuel ih =>
    intro f s sec fw s1 k h
    unfold less_fwd at h
    simp only at h
    have hmax := search_regions_max n near_bmp n_bmps f n_bmps 0 s
    split at h
    · simp only [Option.some.injEq, Prod.mk.injEq] at h
      obtain ⟨-, h2, h3, h4⟩ := h
      subst h2 h3 h4
      exact ⟨rfl, fun _ => hmax, fun h => absurd h (by omega)⟩
    · split at h
      · split at h
        · rename_i sec' fw' s1' k' heq
          simp only [Option.some.injEq, Prod.mk.injEq] at h
          obtain ⟨-, h2, h3, h4⟩ := h
          subst h2 h3 h4
          obtain ⟨i1, i2, i3⟩ := ih _ _ _ _ _ _ heq
          refine ⟨?_, fun h => absurd h (by omega), fun _ => ?_⟩
          · rw [i1, Function.iterate_succ_apply]; rfl
          · rw [Nat.add_sub_cancel]
            by_cases hk : k' = 0
            · subst hk
              rw [i2 rfl]
              rfl
            · rw [i3 (by omega)]
              obtain ⟨j, rfl⟩ : ∃ j, k' = j + 1 := ⟨k' - 1, by omega⟩
              rw [Nat.add_sub_cancel, Function.iterate_succ_apply]
              rfl
        · exact absurd h (by simp)
      · simp only [Option.some.injEq, Prod.mk.injEq] at h
        obtain ⟨-, h2, h3, h4⟩ := h
        subst h2 h3 h4
        exact ⟨rfl, fun _ => hmax, fun h => absurd h (by omega)⟩

set_option maxRecDepth 1000000 in
/-- C18, as stated, fails: on a full file system with ceiling 100, a request
with `forward = 1` is restarted once, and the ceiling after the shrink is
`1 * 3 / 4 = 0`, not 3/4 of the prior ceiling (75). -/
theorem adaptive_shrink_counterexample :
    ¬ (∀ (s : Sb) (near n : Nat) (f0 : Int) (b : BaseResult), 0 < f0 →
        alloc_base fwd_fuel s near n f0 = some b → b.restarts = 1 →
        b.s.sb_max_fwd_alloc = Int.tdiv (s.sb_max_fwd_alloc * 3) 4) := by
  intro h
  have h1 := h fs_used 0 1 1
    { sec := 0, f_p := false, forward := 0,
      s := { fs_used with sb_max_fwd_alloc := 0 }, restarts := 1 }
    (by decide) rfl rfl
  revert h1
  decide

/-- The sector returned by `alloc_in_bmp` is 0 or the value of `ret` at label
`rt`. -/
theorem alloc_in_bmp_ret (s : Sb) (near n forward : Nat) :
    (alloc_in_bmp s near n forward).1 = 0 ∨
    ∃ bmp, region_bmp s (selected near) = some bmp ∧
      (alloc_in_bmp s near n forward).1 = alloc_search bmp (near &&& not32 0x3fff)
        ((near &&& 0x3fff) &&& not32 (dec32 n)) n forward := by
  cases hb : region_bmp s (selected near) with
  | none => left; rw [alloc_in_bmp_unmapped s near n forward hb]
  | some bmp =>
    unfold alloc_in_bmp
    simp only
    rw [selected_map, hb]
    simp only
    split
    · left; rfl
    · split
      · split
        · left; rfl
        · right; exact ⟨bmp, rfl, rfl⟩
      · left; rfl

/-- The sector returned by `alloc_in_bmp` depends on the state only through
the bitmaps and the check level. -/
theorem alloc_in_bmp_congr (s t : Sb) (near n forward : Nat) (h : maps_eq s t) :
    (alloc_in_bmp t near n forward).1 = (alloc_in_bmp s near n forward).1 := by
  obtain ⟨h1, h2, h3⟩ := h
  unfold alloc_in_bmp ntfs_map_bitmap ntfs_map_dnode_bitmap
  simp only
  rw [h1, h2, h3]
  split
  · rfl
  · generalize (if near &&& not32 0x3fff ≠ not32 0x3fff then s.bitmaps (near >>> 14)
      else s.dmap) = ob
    cases ob with
    | none => rfl
    | some bmp =>
      simp only
      split
      · split
        · rfl
        · rfl
      · rfl

theorem maps_eq_refl (s : Sb) : maps_eq s s := ⟨rfl, rfl, rfl⟩

theorem maps_eq_trans (s t u : Sb) (h1 : maps_eq s t) (h2 : maps_eq t u) : maps_eq s u := by
  unfold maps_eq at h1 h2 ⊢
  exact ⟨h2.1.trans h1.1, h2.2.1.trans h1.2.1, h2.2.2.trans h1.2.2⟩

theorem guard_fail (t : Sb) (c : Prop) [Decidable c] (near n f : Nat)
    (e : (if c then alloc_in_bmp t near n f else (0, t)) = (0, t)) (hc : c) :
    (alloc_in_bmp t near n f).1 = 0 := by
  rw [if_pos hc] at e
  rw [e]

/-- A pass of the `for` loop that finds nothing (lines 177-196) leaves the
state as it was, and each call it made on the way up (`near_bmp + i`) and,
with `forward = 0`, on the way down (`near_bmp - i - 1`) has failed. -/
theorem search_regions_fail (n : Nat) (near_bmp : Int) (n_bmps : Nat) (forward : Int) :
    ∀ (cnt : Nat) (i : Int) (s : Sb),
      (search_regions n near_bmp n_bmps forward cnt i s).1 = 0 →
      search_regions n near_bmp n_bmps forward cnt i s = (0, s) ∧
      ∀ j : Nat, j < cnt →
        (toU32 (near_bmp + (i + j)) < n_bmps →
          (alloc_in_bmp s (shl14 (near_bmp + (i + j))) n (toU32 forward)).1 = 0) ∧
        (forward = 0 → near_bmp - (i + j) - 1 ≥ 0 →
          (alloc_in_bmp s (shl14 (near_bmp - (i + j) - 1)) n (toU32 forward)).1 = 0) := by
  have hlt : ∀ x : Int, toU32 x < 4294967296 := by
    intro x; unfold toU32; omega
  intro cnt
  induction cnt with
  | zero => intro i s _; exact ⟨rfl, fun j hj => absurd hj (by omega)⟩
  | succ cnt ih =>
    intro i s h
    unfold search_regions at h ⊢
    simp only at h ⊢
    have fin : ∀ (e1 : (if toU32 (near_bmp + i) < n_bmps
          then alloc_in_bmp s (shl14 (near_bmp + i)) n (toU32 forward) else (0, s)) = (0, s))
        (e2 : forward = 0 → (if near_bmp - i - 1 ≥ 0
          then alloc_in_bmp s (shl14 (near_bmp - i - 1)) n (toU32 forward) else (0, s)) = (0, s))
        (h' : (search_regions n near_bmp n_bmps forward cnt (i + 1) s).1 = 0),
        search_regions n near_bmp n_bmps forward cnt (i + 1) s = (0, s) ∧
        ∀ j : Nat, j < cnt + 1 →
          (toU32 (near_bmp + (i + j)) < n_bmps →
            (alloc_in_bmp s (shl14 (near_bmp + (i + j))) n (toU32 forward)).1 = 0) ∧
          (forward = 0 → near_bmp - (i + j) - 1 ≥ 0 →
            (alloc_in_bmp s (shl14 (near_bmp - (i + j) - 1)) n (toU32 forward)).1 = 0) := by
      intro e1 e2 h'
      obtain ⟨ih1, ih2⟩ := ih (i + 1) s h'
      refine ⟨ih1, ?_⟩
      intro j hj
      cases j with
      | zero =>
        simp only [Nat.cast_zero, add_zero]
        exact ⟨fun hc => guard_fail s _ _ n _ e1 hc,
          fun hf hc => guard_fail s _ _ n _ (e2 hf) hc⟩
      | succ j =>
        have e : i + ((j + 1 : Nat) : Int) = i + 1 + (j : Int) := by push_cast; ring
        rw [e]
        exact ih2 j (by omega)
    rcases guarded_call s (toU32 (near_bmp + i) < n_bmps) (shl14 (near_bmp + i)) n
      (toU32 forward) (hlt _) with e1 | ⟨hne, heq⟩
    · rw [e1] at h ⊢
      simp only [ne_eq, not_true_eq_false, if_false] at h ⊢
      by_cases hf : forward = 0
      · simp only [if_pos hf] at h ⊢
        rcases guarded_call s (near_bmp - i - 1 ≥ 0) (shl14 (near_bmp - i - 1)) n
          (toU32 forward) (hlt _) with e2 | ⟨hne2, heq2⟩
        · rw [e2] at h ⊢
          simp only [ne_eq, not_true_eq_false, if_false] at h ⊢
          rcases guarded_call s (i = 1 ∧ s.sb_c_bitmap ≠ -1) (shl14 s.sb_c_bitmap) n
            (toU32 forward) (hlt _) with e3 | ⟨hne3, heq3⟩
          · rw [e3] at h ⊢
            simp only [ne_eq, not_true_eq_false, if_false] at h ⊢
            exact fin e1 (fun _ => e2) h
          · rw [if_pos hne3] at h
            exact absurd h hne3
        · rw [if_pos hne2] at h
          exact absurd h hne2
      · rw [if_neg hf] at h ⊢
        dsimp only at h ⊢
        rcases guarded_call s (toU32 (near_bmp + i) ≥ n_bmps)
          (u32 (toU32 (near_bmp + i - n_bmps) <<< 14)) n (toU32 forward) (u32_lt _) with
          e2 | ⟨hne2, heq2⟩
        · rw [e2] at h ⊢
          simp only [ne_eq, not_true_eq_false, if_false] at h ⊢
          rcases guarded_call s (i = 1 ∧ s.sb_c_bitmap ≠ -1) (shl14 s.sb_c_bitmap) n
            (toU32 forward) (hlt _) with e3 | ⟨hne3, heq3⟩
          · rw [e3] at h ⊢
            simp only [ne_eq, not_true_eq_false, if_false] at h ⊢
            exact fin e1 (fun hf' => absurd hf' hf) h
          · rw [if_pos hne3] at h
            exact absurd h hne3
        · rw [if_pos hne2] at h
          exact absurd h hne2
    · rw [if_pos hne] at h
      exact absurd h hne

theorem shl14_mod (x : Int) : shl14 x < 4294967296 ∧ shl14 x % 16384 = 0 := by
  unfold shl14 toU32
  omega

theorem shl_mod (y : Nat) : u32 (y <<< 14) < 4294967296 ∧ u32 (y <<< 14) % 16384 = 0 := by
  unfold u32
  rw [Nat.shiftLeft_eq]
  omega

/-- Whatever holds of 0 and of the result of every call of `alloc_in_bmp` at
the first sector of a region holds of the result of a pass of the `for` loop
(lines 177-196). -/
theorem search_regions_lift (n : Nat) (near_bmp : Int) (n_bmps : Nat) (forward : Int)
    (s : Sb) (P : Nat → Prop) (h0 : P 0)
    (hc : ∀ near, near < 4294967296 → near % 16384 = 0 →
      P (alloc_in_bmp s near n (toU32 forward)).1) :
    ∀ (cnt : Nat) (i : Int), P (search_regions n near_bmp n_bmps forward cnt i s).1 := by
  intro cnt
  induction cnt with
  | zero => intro i; exact h0
  | succ cnt ih =>
    intro i
    unfold search_regions
    simp only
    rcases guarded_call s (toU32 (near_bmp + i) < n_bmps) (shl14 (near_bmp + i)) n
      (toU32 forward) (shl14_mod _).1 with e1 | ⟨hne, heq⟩
    · rw [e1]
      simp only [ne_eq, not_true_eq_false, if_false]
      by_cases hf : forward = 0
      · simp only [if_pos hf]
        rcases guarded_call s (near_bmp - i - 1 ≥ 0) (shl14 (near_bmp - i - 1)) n
          (toU32 forward) (shl14_mod _).1 with e2 | ⟨hne2, heq2⟩
        · rw [e2]
          simp only [ne_eq, not_true_eq_false, if_false]
          rcases guarded_call s (i = 1 ∧ s.sb_c_bitmap ≠ -1) (shl14 s.sb_c_bitmap) n
            (toU32 forward) (shl14_mod _).1 with e3 | ⟨hne3, heq3⟩
          · rw [e3]
            simp only [ne_eq, not_true_eq_false, if_false]
            exact ih (i + 1)
          · rw [if_pos hne3, heq3]
            exact hc _ (shl14_mod _).1 (shl14_mod _).2
        · rw [if_pos hne2, heq2]
          exact hc _ (shl14_mod _).1 (shl14_mod _).2
      · rw [if_neg hf]
        dsimp only
        rcases guarded_call s (toU32 (near_bmp + i) ≥ n_bmps)
          (u32 (toU32 (near_bmp + i - n_bmps) <<< 14)) n (toU32 forward) (u32_lt _) with
          e2 | ⟨hne2, heq2⟩
        · rw [e2]
          simp only [ne_eq, not_true_eq_false, if_false]
          rcases guarded_call s (i = 1 ∧ s.sb_c_bitmap ≠ -1) (shl14 s.sb_c_bitmap) n
            (toU32 forward) (shl14_mod _).1 with e3 | ⟨hne3, heq3⟩
          · rw [e3]
            simp only [ne_eq, not_true_eq_false, if_false]
            exact ih (i + 1)
          · rw [if_pos hne3, heq3]
            exact hc _ (shl14_mod _).1 (shl14_mod _).2
        · have hP := hc (u32 (toU32 (near_bmp + i - n_bmps) <<< 14)) (shl_mod _).1 (shl_mod _).2
          rw [if_pos hne2, heq2]
          exact hP
    · rw [if_pos hne, heq]
      exact hc _ (shl14_mod _).1 (shl14_mod _).2

/-- Whatever holds of 0 and of the result of every call of `alloc_in_bmp` at
the first sector of a region, on the bitmaps of `s0`, holds of the sector the
retry loop delivers. -/
theorem less_fwd_lift (n : Nat) (near_bmp : Int) (n_bmps : Nat) (f_p : Bool) (s0 : Sb)
    (P : Nat → Prop) (h0 : P 0)
    (hc : ∀ t, maps_eq s0 t → ∀ F near, near < 4294967296 → near % 16384 = 0 →
      P (alloc_in_bmp t near n F).1) :
    ∀ (fuel : Nat) (f : Int) (s : Sb) (r : Nat × Int × Sb × Nat), maps_eq s0 s →
      less_fwd n near_bmp n_bmps f_p fuel f s = some r → P r.1 := by
  intro fuel
  induction fuel with
  | zero => intro f s r _ h; simp [less_fwd] at h
  | succ fuel ih =>
    intro f s r hs h
    unfold less_fwd at h
    simp only at h
    have hl := search_regions_lift n near_bmp n_bmps f s P h0
      (fun near h1 h2 => hc s hs _ near h1 h2) n_bmps 0
    split at h
    · simp only [Option.some.injEq] at h
      subst h
      exact hl
    · rename_i hz
      have hz' : (search_regions n near_bmp n_bmps f n_bmps 0 s).1 = 0 := by simpa using hz
      have hfail := (search_regions_fail n near_bmp n_bmps f n_bmps 0 s hz').1
      rw [hfail] at h
      split at h
      · split at h
        · rename_i sec fw s1 k heq
          simp only [Option.some.injEq] at h
          subst h
          refine ih _ _ (sec, fw, s1, k) ?_ heq
          exact maps_eq_trans s0 s _ hs ⟨rfl, rfl, rfl⟩
        · exact absurd h (by simp)
      · simp only [Option.some.injEq] at h
        subst h
        exact h0

theorem prealloc_result (sec : Nat) : ∀ (cnt i : Nat) (s : Sb),
    (prealloc sec cnt i s).1 = 0 ∨ (prealloc sec cnt i s).1 = sec := by
  intro cnt
  induction cnt with
  | zero => intro i s; right; rfl
  | succ cnt ih =>
    intro i s
    unfold prealloc
    simp only
    split
    · left; rfl
    · exact ih _ _

theorem sector_bit_maps_eq (s t : Sb) (h : maps_eq s t) (x : Nat) :
    sector_bit t x = sector_bit s x := by
  unfold sector_bit region_bit region_bmp ntfs_map_bitmap
  rw [h.2.1]

/-- The first search stage with a run length that has wrapped to 0. -/
theorem alloc_search_len0 (bmp : Bmp) (bs nr n forward : Nat) (h : u32 (n + forward) = 0) :
    alloc_search bmp bs nr n forward = u32 (bs + nr) := by
  unfold alloc_search
  simp only
  rw [h]
  have : tstbits bmp nr 0 = 0 := rfl
  rw [if_pos this]

/-- When no bit of a sector below 0x12 is free, `alloc_in_bmp` returns 0 or a
sector from 0x12 on, provided the run length `n + forward` has not wrapped to
0 or `near` is the first sector of a region. -/
theorem alloc_in_bmp_reserved (s : Sb) (near n forward : Nat)
    (hres : ∀ t, t < 0x12 → sector_bit s t ≠ some true) (hnear : near < 4294967296)
    (hcond : (n = 1 ∨ n = 4) → (u32 (n + forward) ≠ 0 ∨ near % 16384 = 0)) :
    (alloc_in_bmp s near n forward).1 = 0 ∨ 0x12 ≤ (alloc_in_bmp s near n forward).1 := by
  rcases alloc_in_bmp_cases s near n forward hnear with h | ⟨bmp, q, hn, hb, ht, hq, hq4, hne, heq⟩
  · left; rw [h]
  · by_cases hlen : u32 (n + forward) = 0
    · have hoff : near % 16384 = 0 := by
        rcases hcond hn with h1 | h1
        · exact absurd hlen h1
        · exact h1
      rcases alloc_in_bmp_ret s near n forward with h | ⟨bmp', _, e⟩
      · left; exact h
      · rw [e, alloc_search_len0 _ _ _ _ _ hlen, bs_facts near hnear]
        have hnr : (near &&& 0x3fff) &&& not32 (dec32 n) = 0 := by
          have h1 : (near &&& 0x3fff) &&& not32 (dec32 n) ≤ near &&& 0x3fff := Nat.and_le_left
          have h2 : near &&& 0x3fff = near % 16384 := and3fff near
          omega
        rw [hnr]
        have : u32 (near - near % 16384 + 0) = near := by
          rw [hoff]; exact u32_of_lt hnear
        rw [this]
        omega
    · right
      rw [heq]
      show 0x12 ≤ near - near % 16384 + q
      by_contra hc
      have hbase : near - near % 16384 = 0 := by omega
      have hq12 : q < 0x12 := by omega
      have hsel : selected near = Region.main 0 := by
        unfold selected
        rw [bs_facts near hnear, hbase, not32_3fff, if_pos (by decide), shr14]
        congr 1
        omega
      have hfree : bmp_free bmp q = true :=
        ((tstbits_eq_zero bmp q _).1 ht 0 (by omega)).2
      apply hres q hq12
      unfold sector_bit region_bit
      have e1 : q >>> 14 = 0 := by rw [shr14]; omega
      have e2 : q &&& 0x3fff = q := by rw [and3fff]; omega
      rw [e1, e2, ← hsel, hb]
      simp [hfree]

/-- The run length of the call of line 164 is not 0 for a unit of 1 or 4. -/
theorem near_len_ne_zero (n : Nat) (f0 : Int) (hn : n = 1 ∨ n = 4)
    (hlo : -2147483648 ≤ f0) (hhi : f0 < 2147483648) :
    u32 (n + toU32 (if decide (f0 < 0) = true
      then (if f0 < 0 then toI32 (-f0) else f0)
      else Int.tdiv (if f0 < 0 then toI32 (-f0) else f0) 4)) ≠ 0 := by
  by_cases hneg : f0 < 0
  · rw [if_pos (by simpa using hneg), if_pos hneg]
    unfold toU32 toI32 u32
    rcases hn with rfl | rfl <;> split <;> omega
  · rw [if_neg (by simpa using hneg), if_neg hneg, Int.tdiv_eq_ediv (by omega) (by norm_num)]
    unfold toU32 u32
    rcases hn with rfl | rfl <;> omega

theorem alloc_near_reserved (s : Sb) (near n : Nat) (f0 : Int)
    (hres : ∀ t, t < 0x12 → sector_bit s t ≠ some true) (hnear : near < 4294967296)
    (hlo : -2147483648 ≤ f0) (hhi : f0 < 2147483648) :
    (alloc_near s near n f0).sec = 0 ∨ 0x12 ≤ (alloc_near s near n f0).sec := by
  rcases alloc_near_cases s near n f0 hnear with ⟨h, _⟩ | ⟨_, h, _⟩
  · left; exact h
  · rw [h]
    exact alloc_in_bmp_reserved s near n _ hres hnear
      (fun hn => Or.inl (near_len_ne_zero n f0 hn hlo hhi))

theorem alloc_base_reserved (fuel : Nat) (s : Sb) (near n : Nat) (f0 : Int) (b : BaseResult)
    (hres : ∀ t, t < 0x12 → sector_bit s t ≠ some true) (hnear : near < 4294967296)
    (hlo : -2147483648 ≤ f0) (hhi : f0 < 2147483648)
    (hb : alloc_base fuel s near n f0 = some b) : b.sec = 0 ∨ 0x12 ≤ b.sec := by
  have hN := alloc_near_reserved s near n f0 hres hnear hlo hhi
  have hS : (alloc_near s near n f0).sec = 0 → (alloc_near s near n f0).s = s := by
    intro h0
    rcases alloc_near_cases s near n f0 hnear with ⟨_, h⟩ | ⟨h, _⟩
    · exact h
    · exact absurd h0 h
  unfold alloc_base at hb
  simp only at hb
  generalize alloc_near s near n f0 = r at hb hN hS
  split at hb
  · simp only [Option.some.injEq] at hb
    subst hb
    exact hN
  · rename_i hz
    have hz' : r.sec = 0 := by simpa using hz
    rw [hS hz'] at hb
    split at hb
    · rename_i sec2 fw2 s2 k heq
      simp only [Option.some.injEq] at hb
      subst hb
      refine less_fwd_lift n r.near_bmp r.n_bmps r.f_p s (fun x => x = 0 ∨ 0x12 ≤ x)
        (Or.inl rfl) ?_ fuel _ s (sec2, fw2, s2, k) (maps_eq_refl s) heq
      intro t ht F near1 h1 h2
      exact alloc_in_bmp_reserved t near1 n F
        (fun x hx => by rw [sector_bit_maps_eq s t ht]; exact hres x hx) h1
        (fun _ => Or.inr h2)
    · exact absurd hb (by simp)

set_option maxRecDepth 1000000 in
/-- C12, as stated, fails: the allocating operations have no guard for the
reserved range; with the bit of sector 5 free, `ntfs_alloc_if_possible(5)`
returns 1, and `alloc_in_bmp` and `ntfs_alloc_sector` with `near = 5` return
sector 5. -/
theorem reserved_not_guarded_counterexample :
    ¬ (∀ (s : Sb) (t : Nat), t < 0x12 → (ntfs_alloc_if_possible s t).1 = 0) ∧
    ¬ (∀ (s : Sb) (near : Nat), (alloc_in_bmp s near 1 0).1 = 0 ∨
        0x12 ≤ (alloc_in_bmp s near 1 0).1) ∧
    ¬ (∀ (s : Sb) (near : Nat), (ntfs_alloc_sector s near 1 0).1 = 0 ∨
        0x12 ≤ (ntfs_alloc_sector s near 1 0).1) := by
  refine ⟨fun h => ?_, fun h => ?_, fun h => ?_⟩
  · have h1 := h fs_free 5 (by decide)
    revert h1
    decide
  · have h1 := h fs_free 5
    revert h1
    decide
  · have h1 := h fs_free 5
    revert h1
    decide

/-- C12, amended. In a state in which no bit of a sector below 0x12 is free
(the reserved sectors are marked allocated in the bitmap), no allocating
operation hands out a sector below 0x12: `alloc_in_bmp` (with a run length
`n + forward` that has not wrapped to 0) and `ntfs_alloc_sector` return 0 or a
sector from 0x12 on, and `ntfs_alloc_if_possible(sec)` returns 0 and leaves
the state as it was for every `sec < 0x12`. -/
theorem reserved_never_allocated (s : Sb)
    (hres : ∀ t, t < 0x12 → sector_bit s t ≠ some true) :
    (∀ near n forward, near < 4294967296 → u32 (n + forward) ≠ 0 →
      ((alloc_in_bmp s near n forward).1 = 0 ∨ 0x12 ≤ (alloc_in_bmp s near n forward).1)) ∧
    (∀ near n (forward : Int), near < 4294967296 → -2147483648 ≤ forward →
      forward < 2147483648 →
      ((ntfs_alloc_sector s near n forward).1 = 0 ∨
        0x12 ≤ (ntfs_alloc_sector s near n forward).1)) ∧
    (∀ sec, sec < 0x12 → ntfs_alloc_if_possible s sec = (0, s)) := by
  refine ⟨?_, ?_, ?_⟩
  · intro near n forward hnear hlen
    exact alloc_in_bmp_reserved s near n forward hres hnear (fun _ => Or.inl hlen)
  · intro near n forward hnear hlo hhi
    unfold ntfs_alloc_sector alloc_sector_fuel
    cases hb : alloc_base fwd_fuel s near n forward with
    | none => left; rfl
    | some b =>
      have hsec := alloc_base_reserved fwd_fuel s near n forward b hres hnear hlo hhi hb
      simp only [Option.map_some']
      unfold alloc_finish
      split
      · rcases prealloc_result b.sec b.forward.toNat 0 b.s with h | h
        · left; exact h
        · rw [h]; exact hsec
      · exact hsec
  · intro sec hsec
    rcases alloc_if_possible_spec s sec with ⟨h, _⟩ | ⟨_, h⟩
    · exact absurd h (hres sec hsec)
    · exact h

set_option maxRecDepth 1000000 in
/-- C12, amended, at a concrete state: only sector 0x13 is free. -/
theorem reserved_never_allocated_witness :
    (∀ near n forward, near < 4294967296 → u32 (n + forward) ≠ 0 →
      ((alloc_in_bmp fs_0x13 near n forward).1 = 0 ∨
        0x12 ≤ (alloc_in_bmp fs_0x13 near n forward).1)) ∧
    (∀ near n (forward : Int), near < 4294967296 → -2147483648 ≤ forward →
      forward < 2147483648 →
      ((ntfs_alloc_sector fs_0x13 near n forward).1 = 0 ∨
        0x12 ≤ (ntfs_alloc_sector fs_0x13 near n forward).1)) ∧
    (∀ sec, sec < 0x12 → ntfs_alloc_if_possible fs_0x13 sec = (0, fs_0x13)) :=
  reserved_never_allocated fs_0x13 (by
    intro t ht
    have ht' : t < 18 := ht
    interval_cases t <;> decide)

/-- A check-only request that ends with sector 0 has made its last pass over
the regions with `forward = 0`, on the bitmaps it was entered with, and that
pass found nothing. -/
theorem less_fwd_last (n : Nat) (near_bmp : Int) (n_bmps : Nat) :
    ∀ (fuel : Nat) (f : Int) (s : Sb) (fw : Int) (s1 : Sb) (k : Nat),
      less_fwd n near_bmp n_bmps false fuel f s = some (0, fw, s1, k) →
      ∃ s0, maps_eq s s0 ∧ (search_regions n near_bmp n_bmps 0 n_bmps 0 s0).1 = 0 := by
  intro fuel
  induction fuel with
  | zero => intro f s fw s1 k h; simp [less_fwd] at h
  | succ fuel ih =>
    intro f s fw s1 k h
    unfold less_fwd at h
    simp only at h
    split at h
    · rename_i hnz
      simp only [Option.some.injEq, Prod.mk.injEq] at h
      exact absurd h.1 hnz
    · rename_i hz
      have hz' : (search_regions n near_bmp n_bmps f n_bmps 0 s).1 = 0 := by simpa using hz
      have hfail := (search_regions_fail n near_bmp n_bmps f n_bmps 0 s hz').1
      rw [hfail] at h
      split at h
      · split at h
        · rename_i sec' fw' s1' k' heq
          simp only [Option.some.injEq, Prod.mk.injEq] at h
          obtain ⟨h1, -, -, -⟩ := h
          subst h1
          obtain ⟨s0, hm, hs0⟩ := ih _ _ _ _ _ heq
          exact ⟨s0, maps_eq_trans s _ s0 ⟨rfl, rfl, rfl⟩ hm, hs0⟩
        · exact absurd h (by simp)
      · rename_i hc
        have hf : f = 0 := by
          by_contra hne
          exact hc ⟨trivial, hne⟩
        subst hf
        exact ⟨s, maps_eq_refl s, hz'⟩

theorem alloc_near_bmp (s : Sb) (near n : Nat) (f0 : Int) :
    (alloc_near s near n f0).near_bmp =
      if near ≠ 0 ∧ near < s.sb_fs_size then toI32 (near >>> 14 : Nat)
      else toI32 ((u32 (s.sb_fs_size + 0x4000 - 1) >>> 14) / 2 : Nat) := by
  unfold alloc_near
  simp only
  by_cases h : near ≠ 0 ∧ near < s.sb_fs_size
  · rw [if_pos h, if_pos h]
  · rw [if_neg h, if_neg h]

/-- The shape of `ntfs_alloc_sector` for a check-only request (`forward ≥ 0`):
the sector found near the hint, or the sector the retry loop delivers, which
ends within its fuel. -/
theorem alloc_sector_checkonly (s : Sb) (near n : Nat) (f0 : Int) (hnear : near < 4294967296)
    (h0 : 0 ≤ f0) (h31 : f0 < 2147483648) (hmax : -2147483648 ≤ s.sb_max_fwd_alloc) :
    ((alloc_near s near n f0).sec ≠ 0 ∧
      (ntfs_alloc_sector s near n f0).1 = (alloc_near s near n f0).sec) ∨
    ((alloc_near s near n f0).sec = 0 ∧ ∃ sec fw s2 k,
      less_fwd n (alloc_near s near n f0).near_bmp (alloc_near s near n f0).n_bmps false
        fwd_fuel (clamp_fwd false f0 s) s = some (sec, fw, s2, k) ∧
      ntfs_alloc_sector s near n f0 = (sec, s2)) := by
  obtain ⟨hfp, hfw, _, hsb⟩ := alloc_near_facts s near n f0
  have hfp' : (alloc_near s near n f0).f_p = false := by
    rw [hfp]; simpa using h0
  have hfw' : (alloc_near s near n f0).forward = f0 := by
    rw [hfw, if_neg (by omega)]
  have hrange : (clamp_fwd false f0 s).natAbs < 2 ^ 32 := by
    unfold clamp_fwd
    split <;> omega
  by_cases hsec : (alloc_near s near n f0).sec ≠ 0
  · left
    refine ⟨hsec, ?_⟩
    unfold ntfs_alloc_sector alloc_sector_fuel alloc_base
    simp only [if_pos hsec, Option.map_some']
    unfold alloc_finish
    simp only
    rw [if_neg (by rw [hfp']; simp)]
  · right
    have hsec' : (alloc_near s near n f0).sec = 0 := by simpa using hsec
    have hS : (alloc_near s near n f0).s = s := by
      rcases alloc_near_cases s near n f0 hnear with ⟨_, h⟩ | ⟨h, _⟩
      · exact h
      · exact absurd hsec' h
    refine ⟨hsec', ?_⟩
    obtain ⟨sec, fw, s2, k, hk1, _, _⟩ :=
      less_fwd_terminates n (alloc_near s near n f0).near_bmp (alloc_near s near n f0).n_bmps
        false 32 (clamp_fwd false f0 s) s hrange
    have hk := less_fwd_mono_le n _ _ false 33 fwd_fuel _ s _ (by decide) hk1
    refine ⟨sec, fw, s2, k, hk, ?_⟩
    unfold ntfs_alloc_sector alloc_sector_fuel alloc_base
    simp only [if_neg hsec]
    rw [hfp', hfw', hS, hk]
    simp only [Option.map_some']
    unfold alloc_finish
    simp only
    rw [if_neg (by simp)]

theorem shl14_cast (r : Nat) (hr : r < 262144) : shl14 (r : Int) = r <<< 14 := by
  unfold shl14 toU32
  rw [Nat.shiftLeft_eq]
  omega

theorem toU32_cast (r : Nat) (hr : r < 4294967296) : toU32 (r : Int) = r := by
  unfold toU32
  omega

/-- The pivot region of `ntfs_alloc_sector` is one of the `n_bmps` regions
when the region count has not wrapped. -/
theorem near_bmp_range (s : Sb) (near n : Nat) (f0 : Int)
    (hfs : s.sb_fs_size + 0x3fff < 4294967296)
    (hpos : 0 < (s.sb_fs_size + 0x3fff) / 16384) :
    ∃ m : Nat, (alloc_near s near n f0).near_bmp = (m : Int) ∧
      m < (s.sb_fs_size + 0x3fff) / 16384 := by
  rw [alloc_near_bmp]
  have hu : u32 (s.sb_fs_size + 0x4000 - 1) = s.sb_fs_size + 0x3fff := u32_of_lt (by omega)
  rw [hu, shr14, shr14]
  split
  · rename_i h
    refine ⟨near / 16384, ?_, by omega⟩
    unfold toI32
    split <;> omega
  · refine ⟨(s.sb_fs_size + 0x3fff) / 16384 / 2, ?_, by omega⟩
    unfold toI32
    split <;> omega

/-- C13, as stated, fails: for a file system of 2^32 - 1 sectors the region
count `(fs_size + 0x4000 - 1) >> 14` wraps to 0, the loop over the regions
is not entered and `ntfs_alloc_sector` returns 0, although every sector is
free and `alloc_in_bmp` with `forward = 0` succeeds on region 1. -/
theorem exhaustion_wrap_counterexample :
    ¬ (∀ (s : Sb) (near n : Nat) (forward : Int) (r : Nat), near < 4294967296 →
        (n = 1 ∨ n = 4) → 0 ≤ forward → forward < 2147483648 →
        (ntfs_alloc_sector s near n forward).1 = 0 →
        r < (s.sb_fs_size + 16383) / 16384 →
        (alloc_in_bmp s (r <<< 14) n 0).1 = 0) := by
  intro h
  have h1 := h fs_wrap 0 1 0 1 (by decide) (by decide) (by decide) (by decide) (by decide)
    (by decide)
  revert h1
  decide

/-- C13, amended. Exhaustion is reported only when the whole file system has
been searched, provided the region count does not wrap
(`fs_size + 0x3fff < 2^32`): for every `near`, every unit `n`, every
non-negative `forward` and every hint state, if `ntfs_alloc_sector` returns 0
then `alloc_in_bmp` with `forward = 0` fails on every region index
`r < n_bmps`, `n_bmps = ceil(fs_size / 16384)`. -/
theorem exhaustion_complete (s : Sb) (near n : Nat) (forward : Int)
    (hfs : s.sb_fs_size + 0x3fff < 4294967296) (hnear : near < 4294967296)
    (h0 : 0 ≤ forward) (h31 : forward < 2147483648)
    (hmax : -2147483648 ≤ s.sb_max_fwd_alloc)
    (hret : (ntfs_alloc_sector s near n forward).1 = 0) :
    ∀ r, r < (s.sb_fs_size + 0x3fff) / 16384 → (alloc_in_bmp s (r <<< 14) n 0).1 = 0 := by
  intro r hr
  rcases alloc_sector_checkonly s near n forward hnear h0 h31 hmax with
    ⟨hne, he⟩ | ⟨_, sec, fw, s2, k, hk, he⟩
  · rw [he] at hret
    exact absurd hret hne
  · rw [he] at hret
    have hsec : sec = 0 := hret
    subst hsec
    obtain ⟨s0, hm, hs0⟩ := less_fwd_last _ _ _ _ _ _ _ _ _ hk
    obtain ⟨-, hall⟩ := search_regions_fail _ _ _ _ _ _ _ hs0
    have hN : (alloc_near s near n forward).n_bmps = (s.sb_fs_size + 0x3fff) / 16384 := by
      rw [(alloc_near_facts s near n forward).2.2.1, shr14]
      have hu : u32 (s.sb_fs_size + 0x4000 - 1) = s.sb_fs_size + 0x3fff :=
        u32_of_lt (by omega)
      rw [hu]
    obtain ⟨m, hm1, hm2⟩ := near_bmp_range s near n forward hfs (by omega)
    rw [hN, hm1] at hall
    rw [← alloc_in_bmp_congr s s0 _ n 0 hm]
    have hr18 : r < 262144 := by omega
    by_cases hge : m ≤ r
    · have e : (m : Int) + (0 + ((r - m : Nat) : Int)) = (r : Int) := by omega
      have h1 := (hall (r - m) (by omega)).1
      rw [e, toU32_cast r (by omega), shl14_cast r hr18] at h1
      exact h1 hr
    · have e : (m : Int) - (0 + ((m - r - 1 : Nat) : Int)) - 1 = (r : Int) := by omega
      have h1 := (hall (m - r - 1) (by omega)).2 rfl
      rw [e, shl14_cast r hr18] at h1
      exact h1 (by omega)

set_option maxRecDepth 1000000 in
/-- C13, amended, at a concrete input: the full file system of four regions. -/
theorem exhaustion_complete_witness :
    (ntfs_alloc_sector fs_used 0 1 7).1 = 0 ∧
    ∀ r, r < (fs_used.sb_fs_size + 0x3fff) / 16384 →
      (alloc_in_bmp fs_used (r <<< 14) 1 0).1 = 0 :=
  ⟨by decide, exhaustion_complete fs_used 0 1 7 (by decide) (by decide) (by decide)
    (by decide) (by decide) (by decide)⟩

/-- The base allocation of an eager request `forward = -k`, for any unit: it
ends, with the sign flag set and `forward = k`, and a sector found is the
result of one call `alloc_in_bmp(.., n, k)` made on the bitmaps the function
was entered with. -/
theorem alloc_base_eager (s : Sb) (near n k : Nat) (hnear : near < 4294967296)
    (hk : 1 ≤ k) (hk31 : k < 2147483648) :
    ∃ b, alloc_base fwd_fuel s near n (-(k : Int)) = some b ∧
      b.f_p = true ∧ b.forward = (k : Int) ∧
      (b.sec ≠ 0 → ∃ near1, near1 < 4294967296 ∧ (alloc_in_bmp s near1 n k).1 = b.sec ∧
        ∀ R o, region_bit b.s R o = region_bit (alloc_in_bmp s near1 n k).2 R o) := by
  obtain ⟨hfp, hfw, _, _⟩ := alloc_near_facts s near n (-(k : Int))
  have hneg : (-(k : Int)) < 0 := by omega
  have hi : toI32 (k : Int) = (k : Int) := by
    unfold toI32
    split <;> omega
  have hfp1 : (alloc_near s near n (-(k : Int))).f_p = true := by
    rw [hfp]; simpa using hneg
  have hfw1 : (alloc_near s near n (-(k : Int))).forward = (k : Int) := by
    rw [hfw, if_pos hneg, neg_neg, hi]
  have hu : toU32 (k : Int) = k := toU32_cast k (by omega)
  have hcases := alloc_near_cases s near n (-(k : Int)) hnear
  rw [if_pos hneg, neg_neg, if_pos (by simpa using hneg), hi, hu] at hcases
  unfold alloc_base
  simp only
  rcases hcases with ⟨h0, hs⟩ | ⟨hne, he1, he2⟩
  · rw [if_neg (by simpa using h0), hs, hfp1, hfw1]
    have hcl : clamp_fwd true (k : Int) s = (k : Int) := by
      unfold clamp_fwd
      rw [if_neg (by simp)]
    rw [hcl, show fwd_fuel = 39 + 1 from rfl, less_fwd_eager]
    refine ⟨_, rfl, rfl, rfl, ?_⟩
    intro hsec
    rcases search_regions_found n (alloc_near s near n (-(k : Int))).near_bmp
      (alloc_near s near n (-(k : Int))).n_bmps (k : Int)
      (alloc_near s near n (-(k : Int))).n_bmps 0 s with h | ⟨near1, h1, h2, h3⟩
    · exact absurd h hsec
    · rw [hu] at h2 h3
      exact ⟨near1, h1, h2, h3⟩
  · rw [if_pos hne]
    refine ⟨_, rfl, hfp1, hfw1, ?_⟩
    intro _
    refine ⟨near, hnear, he1.symm, ?_⟩
    intro R o
    show region_bit (alloc_near s near n (-(k : Int))).s R o = _
    rw [he2]

/-- A unit of four sectors allocated by `alloc_in_bmp` in a main region: the
four sectors were free, and their bits are allocated afterwards. -/
theorem alloc_in_bmp_unit4 (s : Sb) (near k : Nat) (hnear : near < 4294967296)
    (hk : 4 + k < 4294967296) (hne : (alloc_in_bmp s near 4 k).1 ≠ 0)
    (hmain : (alloc_in_bmp s near 4 k).1 < 0xffffc000) :
    ∀ j, j < 4 → sector_bit s ((alloc_in_bmp s near 4 k).1 + j) = some true ∧
      sector_bit (alloc_in_bmp s near 4 k).2 ((alloc_in_bmp s near 4 k).1 + j) = some false := by
  rcases alloc_in_bmp_cases s near 4 k hnear with h | ⟨bmp, q, hn, hb, ht, hq, hq4, hne', heq⟩
  · rw [h] at hne; exact absurd rfl hne
  · rw [heq] at hmain ⊢
    simp only at hmain ⊢
    have hsel : selected near = Region.main (near / 16384) := by
      unfold selected
      rw [bs_facts near hnear, not32_3fff, if_pos (by omega), shr14]
    rw [hsel] at hb ⊢
    obtain ⟨c, rfl⟩ := hq
    rw [tstbits_eq_zero, u32_of_lt hk] at ht
    intro j hj
    have e1 : (near - near % 16384 + 4 * c + j) >>> 14 = near / 16384 := by
      rw [shr14]; omega
    have e2 : (near - near % 16384 + 4 * c + j) &&& 0x3fff = 4 * c + j := by
      rw [and3fff]; omega
    unfold sector_bit
    rw [e1, e2, region_bit_put, if_pos rfl, bmp_free_clear bmp 4 (4 * c) _ (Or.inr rfl) ⟨c, rfl⟩]
    constructor
    · unfold region_bit
      rw [hb]
      simp [(ht j (by omega)).2]
    · simp
      omega

set_option maxRecDepth 1000000 in
/-- C20, as stated, fails: on a file system of 2^32 - 1 sectors with every
bit free, `near = 0xffffc000` makes `alloc_in_bmp` take the unit of 4 from the
directory bitmap (selected by the base `~0x3fff`), the claim of the next
sector goes to main region 0x3ffff, where the sector is free, and the eager
request `forward = -1` returns sector 0xffffc000, not 0. -/
theorem eager_unit4_alias_counterexample :
    ¬ (∀ (s : Sb) (near k : Nat), near < 4294967296 → 1 ≤ k →
        (ntfs_alloc_sector s near 4 (-(k : Int))).1 = 0) := by
  intro h
  have h1 := h fs_wrap 0xffffc000 1 (by decide) (by decide)
  revert h1
  decide

/-- C20, amended. Eager pre-allocation for units of 4 sectors, `forward = -k`
with `k ≥ 1`: the base allocation ends, and when its sector `sec` is below
0xffffc000 (0, or a sector of a main region, not of the directory bitmap
selected by the base `~0x3fff`) the call returns 0; when the base allocation
has succeeded at such a `sec`, the first claim, of sector `sec + 1`, fails and
leaves the state as it was, and the 4 bits `sec .. sec+3`, free before the
call, are allocated in the state the call leaves (no rollback). -/
theorem eager_unit4_fails (s : Sb) (near k : Nat) (hnear : near < 4294967296)
    (hk : 1 ≤ k) (hk31 : k < 2147483648) :
    ∃ b, alloc_base fwd_fuel s near 4 (-(k : Int)) = some b ∧
      (b.sec < 0xffffc000 →
        ntfs_alloc_sector s near 4 (-(k : Int)) = (0, b.s) ∧
        (b.sec ≠ 0 →
          ntfs_alloc_if_possible b.s (u32 (b.sec + 1)) = (0, b.s) ∧
          ∀ j, j < 4 → sector_bit s (b.sec + j) = some true ∧
            sector_bit b.s (b.sec + j) = some false)) := by
  obtain ⟨b, hb, hfp, hfw, hfound⟩ := alloc_base_eager s near 4 k hnear hk hk31
  refine ⟨b, hb, ?_⟩
  intro hmain
  have hfin : ntfs_alloc_sector s near 4 (-(k : Int)) = alloc_finish b := by
    unfold ntfs_alloc_sector alloc_sector_fuel
    rw [hb]
    rfl
  by_cases hsec : b.sec = 0
  · refine ⟨?_, fun h => absurd hsec h⟩
    rw [hfin]
    unfold alloc_finish
    rw [if_neg (fun h => h.1 hsec), hsec]
  · obtain ⟨near1, h1, h2, h3⟩ := hfound hsec
    have bits := alloc_in_bmp_unit4 s near1 k h1 (by omega) (by rw [h2]; exact hsec)
      (by rw [h2]; exact hmain)
    rw [h2] at bits
    have hbits : ∀ j, j < 4 → sector_bit s (b.sec + j) = some true ∧
        sector_bit b.s (b.sec + j) = some false := by
      intro j hj
      refine ⟨(bits j hj).1, ?_⟩
      have := (bits j hj).2
      unfold sector_bit at this ⊢
      rw [h3]
      exact this
    have hclaim : ntfs_alloc_if_possible b.s (u32 (b.sec + 1)) = (0, b.s) := by
      rw [u32_of_lt (by omega)]
      rcases alloc_if_possible_spec b.s (b.sec + 1) with ⟨h, _⟩ | ⟨_, h⟩
      · rw [(hbits 1 (by omega)).2] at h
        exact absurd h (by simp)
      · exact h
    refine ⟨?_, fun _ => ⟨hclaim, hbits⟩⟩
    rw [hfin]
    unfold alloc_finish
    have hc : b.sec ≠ 0 ∧ b.f_p = true := ⟨hsec, hfp⟩
    rw [if_pos hc, hfw, Int.toNat_ofNat]
    obtain ⟨k', rfl⟩ : ∃ k', k = k' + 1 := ⟨k - 1, by omega⟩
    unfold prealloc
    simp only
    rw [Nat.add_zero, hclaim]
    rfl

set_option maxRecDepth 1000000 in
/-- C20, amended, at a concrete input: free file system, `near = 0x20`,
`forward = -1`. -/
theorem eager_unit4_fails_witness :
    ∃ b, alloc_base fwd_fuel fs_free 0x20 4 (-((1 : Nat) : Int)) = some b ∧
      (b.sec < 0xffffc000 →
        ntfs_alloc_sector fs_free 0x20 4 (-((1 : Nat) : Int)) = (0, b.s) ∧
        (b.sec ≠ 0 →
          ntfs_alloc_if_possible b.s (u32 (b.sec + 1)) = (0, b.s) ∧
          ∀ j, j < 4 → sector_bit fs_free (b.sec + j) = some true ∧
            sector_bit b.s (b.sec + j) = some false)) :=
  eager_unit4_fails fs_free 0x20 1 (by decide) (by decide) (by decide)

theorem bit31_iff (k : Nat) : k &&& 0x80000000 ≠ 0 ↔ k.testBit 31 = true := by
  have h := Nat.and_two_pow k 31
  rw [show (2 : Nat) ^ 31 = 0x80000000 by norm_num] at h
  rw [h]
  cases k.testBit 31 <;> simp

/-- The loop of lines 109-111 backs up over at least as many bits as are set
at the top of `k`. -/
theorem back_up_reach : ∀ (bits k q m : Nat), m ≤ bits → bits ≤ 32 → bits ≤ q →
    q < 4294967296 → (∀ j, j < m → k.testBit (31 - j) = true) →
    back_up bits k q + m ≤ q := by
  intro bits
  induction bits with
  | zero =>
    intro k q m hm _ _ _ _
    have : m = 0 := by omega
    subst this
    simp [back_up]
  | succ bits ih =>
    intro k q m hm h32 hq hq2 hbits
    cases m with
    | zero => exact (back_up_le (bits + 1) k q hq hq2).1
    | succ m =>
      unfold back_up
      have h31 : k &&& 0x80000000 ≠ 0 := (bit31_iff k).2 (hbits 0 (by omega))
      rw [if_pos h31]
      have h3 : dec32 q = q - 1 := by unfold dec32 u32; omega
      rw [h3]
      have := ih (u32 (k <<< 1)) (q - 1) m (by omega) (by omega) (by omega) (by omega)
        (by
          intro j hj
          rw [testBit_u32, Nat.testBit_shiftLeft]
          have hb := hbits (j + 1) (by omega)
          have e : 31 - j - 1 = 31 - (j + 1) := by omega
          rw [e, hb]
          simp
          omega)
      omega

/-- The scan of word `w` starts at or before an aligned offset `q0` that lies
in the word or after it, or in the previous word with free bits up to the
word. -/
theorem word_start_le (bmp : Bmp) (n w q0 : Nat) (hn : n = 1 ∨ n = 4) (hw : w < 512)
    (hq0 : n ∣ q0) (hq04 : q0 < 0x4000)
    (h : 32 * w ≤ q0 ∨ (1 ≤ w ∧ 32 * (w - 1) ≤ q0 ∧
      ∀ o, q0 ≤ o → o < 32 * w → bmp_free bmp o = true)) :
    word_start bmp n w ≤ q0 := by
  unfold word_start
  simp only
  have hs : u32 (w <<< 5) = 32 * w := by
    unfold u32
    rw [Nat.shiftLeft_eq]
    omega
  rw [hs]
  have hq1 : (if w > 0 then back_up 32 (u32 (bmp (w - 1))) (32 * w) else 32 * w) ≤ q0 := by
    by_cases hw0 : w > 0
    · rw [if_pos hw0]
      rcases h with h | ⟨_, h2, h3⟩
      · have := (back_up_le 32 (u32 (bmp (w - 1))) (32 * w) (by omega) (by omega)).1
        omega
      · by_cases hlt : q0 < 32 * w
        · have := back_up_reach 32 (u32 (bmp (w - 1))) (32 * w) (32 * w - q0) (by omega)
            (by omega) (by omega) (by omega)
            (by
              intro j hj
              rw [testBit_u32]
              have hb := h3 (32 * w - 1 - j) (by omega) (by omega)
              rw [bmp_free_eq] at hb
              have e1 : (32 * w - 1 - j) / 32 = w - 1 := by omega
              have e2 : (32 * w - 1 - j) % 32 = 31 - j := by omega
              rw [e1, e2] at hb
              rw [hb]
              simp
              omega)
          omega
        · have := (back_up_le 32 (u32 (bmp (w - 1))) (32 * w) (by omega) (by omega)).1
          omega
    · rw [if_neg hw0]
      rcases h with h | ⟨h1, _, _⟩
      · exact h
      · omega
  generalize (if w > 0 then back_up 32 (u32 (bmp (w - 1))) (32 * w) else 32 * w) = q1 at hq1
  rcases hn with rfl | rfl
  · rw [if_neg (by simp)]
    exact hq1
  · rw [if_pos (by decide)]
    rcases Nat.eq_zero_or_pos q1 with h0 | h0
    · subst h0
      rw [align_up_four_zero]
      omega
    · have hq14 : q1 < 4294967292 := by omega
      rw [align_up_four q1 hq14 h0]
      obtain ⟨c, rfl⟩ := hq0
      omega

/-- The loop of lines 114-118, started at an aligned `p ≤ q0` where a free
run begins at the aligned `q0` in word `i` or before it: the skip by `a` never
passes `q0`, so the loop ends with a run found (`a = 0`). -/
theorem scan_word_finds (bmp : Bmp) (n len i q0 : Nat) (hn : n = 1 ∨ n = 4)
    (hq0 : n ∣ q0) (hword : q0 / 32 ≤ i) (hlen : 0 < len) (hfree : run_free bmp q0 len) :
    ∀ (fuel p : Nat), n ∣ p → p ≤ q0 → q0 - p < fuel →
      ∃ q, scan_word bmp n len i fuel p = some (q, 0) := by
  have hq04 : q0 + (len - 1) < 0x4000 := (hfree (len - 1) (by omega)).1
  intro fuel
  induction fuel with
  | zero => intro p _ _ h; omega
  | succ fuel ih =>
    intro p hp hle hfuel
    unfold scan_word
    simp only
    by_cases ha : tstbits bmp p len = 0
    · rw [if_pos ha, ha]
      exact ⟨p, rfl⟩
    · rw [if_neg ha]
      obtain ⟨h1, h2, -, h4⟩ := tstbits_pos bmp p len ha
      have hz : p + tstbits bmp p len ≤ q0 := by
        by_contra hc
        apply h4
        have hj := hfree (p + (tstbits bmp p len - 1) - q0) (by omega)
        have e : q0 + (p + (tstbits bmp p len - 1) - q0) = p + (tstbits bmp p len - 1) := by
          omega
        rw [e] at hj
        exact hj
      obtain ⟨s1, s2, s3⟩ := skip_spec p (tstbits bmp p len) n hn (by omega) h1
        (tstbits_le bmp p len)
      generalize (if n ≠ 1 then align_up (u32 (p + tstbits bmp p len)) n
        else u32 (p + tstbits bmp p len)) = q2 at s1 s2 s3
      have hq2 : q2 ≤ q0 := by
        rcases hn with rfl | rfl
        · omega
        · obtain ⟨c, rfl⟩ := hq0
          obtain ⟨d, rfl⟩ := s1
          omega
      have hw : ¬ (q2 >>> 5 > i) := by
        rw [shr5]; omega
      rw [if_neg hw]
      exact ih q2 s1 hq2 (by omega)

/-- The body of the `do ... while` (lines 104-123) finds a run in a word that
passes the two filters and whose scan starts at or before a free run. -/
theorem try_word_finds (bmp : Bmp) (n len w q0 : Nat) (hn : n = 1 ∨ n = 4)
    (hq0 : n ∣ q0) (hword : q0 / 32 ≤ w) (hlen : 0 < len) (hfree : run_free bmp q0 len)
    (h1 : bmp w ≠ 0) (h2 : len ≥ 0x3f → bmp w = 0xffffffff)
    (h3 : n ∣ word_start bmp n w) (h4 : word_start bmp n w ≤ q0) :
    ∃ q, try_word bmp n len w = some q := by
  have hq04 : q0 + (len - 1) < 0x4000 := (hfree (len - 1) (by omega)).1
  obtain ⟨q, hq⟩ := scan_word_finds bmp n len w q0 hn hq0 hword hlen hfree scan_fuel
    (word_start bmp n w) h3 h4 (by unfold scan_fuel; omega)
  unfold try_word
  rw [if_neg h1, if_neg (fun h => h.2 (h2 h.1)), hq]
  exact ⟨q, rfl⟩

/-- The `do ... while` over the 512 words of the region (lines 102-125) finds
a run when the body does for some word. -/
theorem scan_region_finds (bmp : Bmp) (n len nr w : Nat) (hnr : nr < 512) (hw : w < 512)
    (hfound : ∃ q, try_word bmp n len w = some q) :
    ∃ q, scan_region bmp n len nr 512 nr = some q := by
  have key : ∀ (cnt t : Nat), t ≤ (w + 512 - nr) % 512 → (w + 512 - nr) % 512 - t < cnt →
      ∃ q, scan_region bmp n len nr cnt ((nr + t) % 512) = some q := by
    intro cnt
    induction cnt with
    | zero => intro t _ h; omega
    | succ cnt ih =>
      intro t ht hc
      unfold scan_region
      cases htw : try_word bmp n len ((nr + t) % 512) with
      | some q => exact ⟨q, rfl⟩
      | none =>
        simp only
        have hne : t ≠ (w + 512 - nr) % 512 := by
          intro heq
          have : (nr + t) % 512 = w := by omega
          rw [this] at htw
          obtain ⟨q, hq⟩ := hfound
          rw [hq] at htw
          exact absurd htw (by simp)
        rw [and1ff]
        have hi1 : ((nr + t) % 512 + 1) % 512 = (nr + (t + 1)) % 512 := by omega
        rw [hi1, if_pos (by omega)]
        exact ih (t + 1) (by omega) (by omega)
  have := key 512 0 (by omega) (by omega)
  rwa [Nat.add_zero, Nat.mod_eq_of_lt hnr] at this

/-- A word whose 32 bits are free, in a buffer of 32-bit words, is
0xffffffff. -/
theorem word_all_free (bmp : Bmp) (w : Nat) (hwf : bmp_wf bmp)
    (h : ∀ i, i < 32 → bmp_free bmp (32 * w + i) = true) : bmp w = 0xffffffff := by
  apply Nat.eq_of_testBit_eq
  intro i
  rw [testBit_ones32]
  by_cases hi : i < 32
  · have := h i hi
    rw [bmp_free_eq] at this
    have e1 : (32 * w + i) / 32 = w := by omega
    have e2 : (32 * w + i) % 32 = i := by omega
    rw [e1, e2] at this
    rw [this]
    simp [hi]
  · have h1 : (bmp w).testBit i = false := by
      apply Nat.testBit_lt_two_pow
      calc bmp w < 2 ^ 32 := hwf _
        _ ≤ 2 ^ i := Nat.pow_le_pow_right (by norm_num) (by omega)
    rw [h1]
    simp [hi]

/-- A word with a free bit is not 0. -/
theorem word_ne_zero (bmp : Bmp) (o : Nat) (h : bmp_free bmp o = true) : bmp (o / 32) ≠ 0 := by
  intro h0
  rw [bmp_free_eq, h0, Nat.zero_testBit] at h
  exact absurd h (by simp)

/-- The third search stage is complete: when some aligned offset `q0` has its
`len` bits free, the body of the `do ... while` finds a run in some word. -/
theorem some_word_finds (bmp : Bmp) (n len q0 : Nat) (hn : n = 1 ∨ n = 4) (hwf : bmp_wf bmp)
    (hq0 : n ∣ q0) (hlen : 0 < len) (hfree : run_free bmp q0 len) :
    ∃ w, w < 512 ∧ ∃ q, try_word bmp n len w = some q := by
  have hq04 : q0 + (len - 1) < 0x4000 := (hfree (len - 1) (by omega)).1
  by_cases hbig : len ≥ 0x3f
  · have hw : (q0 + 31) / 32 < 512 := by omega
    refine ⟨(q0 + 31) / 32, hw, ?_⟩
    have hall : bmp ((q0 + 31) / 32) = 0xffffffff := by
      apply word_all_free bmp _ hwf
      intro i hi
      have := (hfree (32 * ((q0 + 31) / 32) + i - q0) (by omega)).2
      rwa [show q0 + (32 * ((q0 + 31) / 32) + i - q0) = 32 * ((q0 + 31) / 32) + i by omega]
        at this
    apply try_word_finds bmp n len _ q0 hn hq0 (by omega) hlen hfree
      (by rw [hall]; norm_num) (fun _ => hall) (word_start_spec bmp n _ hn hw).1
    apply word_start_le bmp n _ q0 hn hw hq0 (by omega)
    by_cases h0 : q0 % 32 = 0
    · left; omega
    · right
      refine ⟨by omega, by omega, ?_⟩
      intro o ho1 ho2
      have := (hfree (o - q0) (by omega)).2
      rwa [show q0 + (o - q0) = o by omega] at this
  · have hw : q0 / 32 < 512 := by omega
    refine ⟨q0 / 32, hw, ?_⟩
    have hbit : bmp_free bmp q0 = true := by
      have := (hfree 0 hlen).2
      rwa [Nat.add_zero] at this
    apply try_word_finds bmp n len _ q0 hn hq0 (le_refl _) hlen hfree
      (word_ne_zero bmp q0 hbit) (fun h => absurd h hbig) (word_start_spec bmp n _ hn hw).1
    exact word_start_le bmp n _ q0 hn hw hq0 (by omega) (Or.inl (by omega))

/-- The three search stages are complete in a region with a non-zero base:
when some aligned offset has its `n + forward` bits free, `ret` is not 0. -/
theorem alloc_search_complete (bmp : Bmp) (bs nr n forward q0 : Nat) (hn : n = 1 ∨ n = 4)
    (hwf : bmp_wf bmp) (hnr : n ∣ nr) (hnr2 : nr < 0x4000)
    (hbs : 0x4000 ≤ bs) (hbs2 : bs + 0x4000 ≤ 4294967296)
    (hq0 : n ∣ q0) (hfree : run_free bmp q0 (n + forward)) :
    alloc_search bmp bs nr n forward ≠ 0 := by
  have hlen0 : 0 < n + forward := by rcases hn with rfl | rfl <;> omega
  have hq04 : q0 + (n + forward - 1) < 0x4000 := (hfree (n + forward - 1) (by omega)).1
  have hlen : u32 (n + forward) = n + forward := u32_of_lt (by omega)
  have hne : ∀ q, tstbits bmp q (n + forward) = 0 → u32 (bs + q) ≠ 0 := by
    intro q hq
    have := ((tstbits_eq_zero bmp q _).1 hq 0 hlen0).1
    rw [u32_of_lt (by omega)]
    omega
  obtain ⟨w, hw, hfound⟩ := some_word_finds bmp n (n + forward) q0 hn hwf hq0 hlen0 hfree
  obtain ⟨q3, hq3⟩ := scan_region_finds bmp n (n + forward) (nr >>> 5) w
    (by rw [shr5]; omega) hw hfound
  unfold alloc_search
  simp only
  rw [hlen]
  split
  · rename_i h1
    exact hne nr h1
  · split
    · rename_i q heq
      have := scan_near_sound bmp nr n _ hn hnr hnr2 _ _ _ _
        (Dvd.dvd.add hnr (dvd_refl n)) (by rcases hn with rfl | rfl <;> omega) heq
      exact hne q this.1
    · rw [hq3]
      simp only
      have := scan_region_sound bmp n _ (nr >>> 5) hn 512 (nr >>> 5) q3
        (by rw [shr5]; omega) hq3
      exact hne q3 this.1

/-- C14. Within one region, `alloc_in_bmp` fails only when nothing matches:
for every region with a non-zero base (a main region of index ≥ 1 or the
directory bitmap), whose buffer holds 32-bit words, every `near`, `n` in
{1, 4} and `forward`: if some `n`-aligned offset `q0` has the `n + forward`
bits `q0 .. q0+n+forward-1` inside the region and free, then `alloc_in_bmp`
returns a non-zero sector, and that sector lies in the region.  The search
stage that skips all-zero words, skips words that are not entirely free when
`n + forward ≥ 63`, and backs up over the free bits that end the previous
word loses no matching run. -/
theorem region_search_complete (s : Sb) (near n forward : Nat) (bmp : Bmp) (q0 : Nat)
    (hnear : near < 4294967296) (hn : n = 1 ∨ n = 4)
    (hb : region_bmp s (selected near) = some bmp) (hwf : bmp_wf bmp)
    (hbase : near - near % 16384 ≠ 0) (hq0 : n ∣ q0)
    (hfree : run_free bmp q0 (n + forward)) :
    (alloc_in_bmp s near n forward).1 ≠ 0 ∧
    near - near % 16384 ≤ (alloc_in_bmp s near n forward).1 ∧
    (alloc_in_bmp s near n forward).1 < near - near % 16384 + 0x4000 := by
  have hlen0 : 0 < n + forward := by rcases hn with rfl | rfl <;> omega
  have hq04 : q0 + (n + forward - 1) < 0x4000 := (hfree (n + forward - 1) (by omega)).1
  obtain ⟨h1, h2⟩ := nr_facts near n hn
  have hbs := bs_facts near hnear
  have hs := alloc_search_complete bmp (near &&& not32 0x3fff) _ n forward q0 hn hwf h1 h2
    (by rw [hbs]; omega) (by rw [hbs]; omega) hq0 hfree
  obtain ⟨q, e, -, hq, hq4, hfree', hne⟩ :=
    alloc_search_found bmp near n forward hnear hn (by omega) hs
  obtain ⟨r1, -⟩ := alloc_in_bmp_at s near n forward bmp q hnear hn hb (fun _ => hwf) e hq hq4
    hfree' hne
  rw [r1]
  exact ⟨hne, by omega, by omega⟩

theorem bmp_wf_far : bmp_wf bmp_far := by
  intro j
  unfold bmp_far
  split <;> norm_num

set_option maxRecDepth 1000000 in
/-- C14 at a concrete input: region 1 has its only free bits in words 100 to
102; a unit of 4 with `forward = 60` (a run of 64 bits) asked for at the start
of the region is found. -/
theorem region_search_complete_witness :
    (alloc_in_bmp fs_far 0x4000 4 60).1 ≠ 0 ∧
    0x4000 - 0x4000 % 16384 ≤ (alloc_in_bmp fs_far 0x4000 4 60).1 ∧
    (alloc_in_bmp fs_far 0x4000 4 60).1 < 0x4000 - 0x4000 % 16384 + 0x4000 :=
  region_search_complete fs_far 0x4000 4 60 bmp_far 3200 (by decide) (by decide) rfl
    bmp_wf_far (by decide) (by decide)
    (by
      intro j hj
      have hj64 : j < 64 := hj
      interval_cases j <;> decide)

theorem pass_state_shift (s : Sb) (f : Int) (j : Nat) :
    pass_state { s with sb_max_fwd_alloc := Int.tdiv (toI32 (f * 3)) 4 } (halve f) j =
      pass_state s f (j + 1) := by
  cases j <;> rfl

/-- The retry loop for a check-only request (`f_p = 0`), pass by pass: when
it ends after `k` restarts, each of the passes `j < k` ran with `forward`
halved `j` times, not 0, in the state `pass_state s f j`, and found nothing;
pass `k` delivered the result; and a result of 0 is delivered only with
`forward = 0`, so every pass that finds nothing with `forward ≠ 0` is followed
by a restart. -/
theorem less_fwd_trace (n : Nat) (near_bmp : Int) (n_bmps : Nat) :
    ∀ (fuel : Nat) (f : Int) (s : Sb) (sec : Nat) (fw : Int) (s1 : Sb) (k : Nat),
      less_fwd n near_bmp n_bmps false fuel f s = some (sec, fw, s1, k) →
      fw = halve^[k] f ∧
      (sec, s1) = search_regions n near_bmp n_bmps (halve^[k] f) n_bmps 0 (pass_state s f k) ∧
      (∀ j, j < k → halve^[j] f ≠ 0 ∧
        (search_regions n near_bmp n_bmps (halve^[j] f) n_bmps 0 (pass_state s f j)).1 = 0) ∧
      (sec = 0 → halve^[k] f = 0) := by
  intro fuel
  induction fuel with
  | zero => intro f s sec fw s1 k h; simp [less_fwd] at h
  | succ fuel ih =>
    intro f s sec fw s1 k h
    unfold less_fwd at h
    simp only at h
    split at h
    · rename_i hnz
      simp only [Option.some.injEq, Prod.mk.injEq] at h
      obtain ⟨h1, h2, h3, h4⟩ := h
      subst h1 h2 h3 h4
      exact ⟨rfl, rfl, fun j hj => absurd hj (by omega), fun h => absurd h hnz⟩
    · rename_i hz
      have hz' : (search_regions n near_bmp n_bmps f n_bmps 0 s).1 = 0 := by simpa using hz
      have hfail := (search_regions_fail n near_bmp n_bmps f n_bmps 0 s hz').1
      split at h
      · rename_i hc
        split at h
        · rename_i sec' fw' s1' k' heq
          simp only [Option.some.injEq, Prod.mk.injEq] at h
          obtain ⟨h1, h2, h3, h4⟩ := h
          subst h1 h2 h3 h4
          rw [hfail] at heq
          obtain ⟨i1, i2, i3, i4⟩ := ih (halve f)
            { s with sb_max_fwd_alloc := Int.tdiv (toI32 (f * 3)) 4 } _ _ _ _ heq
          rw [pass_state_shift] at i2
          refine ⟨i1, i2, ?_, i4⟩
          intro j hj
          cases j with
          | zero => exact ⟨hc.2, hz'⟩
          | succ j =>
            have := i3 j (by omega)
            rw [pass_state_shift] at this
            exact this
        · exact absurd h (by simp)
      · rename_i hc
        have hf : f = 0 := by
          by_contra hne
          exact hc ⟨trivial, hne⟩
        simp only [Option.some.injEq, Prod.mk.injEq] at h
        obtain ⟨h1, h2, h3, h4⟩ := h
        subst h1 h2 h3 h4
        refine ⟨rfl, ?_, fun j hj => absurd hj (by omega), fun _ => hf⟩
        show (0, (search_regions n near_bmp n_bmps f n_bmps 0 s).2) =
          search_regions n near_bmp n_bmps f n_bmps 0 s
        rw [hfail]

/-- The base allocation of a check-only request (`forward ≥ 0`) ends within
the fuel: with the sector found near the hint and no restart, or with what
the retry loop delivers from the clamped `forward`. -/
theorem alloc_base_shape (s : Sb) (near n : Nat) (f0 : Int) (h0 : 0 ≤ f0)
    (h31 : f0 < 2147483648) (hmax : -2147483648 ≤ s.sb_max_fwd_alloc) :
    ∃ b, alloc_base fwd_fuel s near n f0 = some b ∧
      (∀ fuel, fwd_fuel ≤ fuel → alloc_base fuel s near n f0 = some b) ∧
      ntfs_alloc_sector s near n f0 = alloc_finish b ∧
      ((alloc_near s near n f0).sec ≠ 0 →
        b.restarts = 0 ∧ b.sec = (alloc_near s near n f0).sec ∧
        b.s = (alloc_near s near n f0).s) ∧
      ((alloc_near s near n f0).sec = 0 →
        less_fwd n (alloc_near s near n f0).near_bmp (alloc_near s near n f0).n_bmps false
          fwd_fuel (clamp_fwd false f0 s) (alloc_near s near n f0).s =
          some (b.sec, b.forward, b.s, b.restarts)) := by
  obtain ⟨hfp, hfw, _, hsb⟩ := alloc_near_facts s near n f0
  have hfp' : (alloc_near s near n f0).f_p = false := by
    rw [hfp]; simpa using h0
  have hfw' : (alloc_near s near n f0).forward = f0 := by
    rw [hfw, if_neg (by omega)]
  have hclamp : clamp_fwd (alloc_near s near n f0).f_p (alloc_near s near n f0).forward
      (alloc_near s near n f0).s = clamp_fwd false f0 s := by
    rw [hfp', hfw']
    unfold clamp_fwd
    rw [hsb.2.2.2.2.2]
  have hfin : ∀ b, alloc_base fwd_fuel s near n f0 = some b →
      ntfs_alloc_sector s near n f0 = alloc_finish b := by
    intro b hb
    unfold ntfs_alloc_sector alloc_sector_fuel
    rw [hb]
    rfl
  have hrange : (clamp_fwd false f0 s).natAbs < 2 ^ 32 := by
    unfold clamp_fwd
    split <;> omega
  unfold alloc_base at hfin ⊢
  simp only at hfin ⊢
  by_cases hsec : (alloc_near s near n f0).sec ≠ 0
  · simp only [if_pos hsec] at hfin ⊢
    exact ⟨_, rfl, fun _ _ => rfl, hfin _ rfl, fun _ => ⟨rfl, rfl, rfl⟩,
      fun h => absurd h hsec⟩
  · simp only [if_neg hsec] at hfin ⊢
    rw [hclamp, hfp'] at hfin ⊢
    generalize (alloc_near s near n f0).s = s1 at hfin ⊢
    generalize (alloc_near s near n f0).near_bmp = near_bmp at hfin ⊢
    generalize (alloc_near s near n f0).n_bmps = n_bmps at hfin ⊢
    generalize clamp_fwd false f0 s = f at hfin hrange ⊢
    obtain ⟨sec, fw, s2, k, hk1, _, _⟩ :=
      less_fwd_terminates n near_bmp n_bmps false 32 f s1 hrange
    have hfuel : ∀ fuel, fwd_fuel ≤ fuel →
        less_fwd n near_bmp n_bmps false fuel f s1 = some (sec, fw, s2, k) := by
      intro fuel hfu
      exact less_fwd_mono_le n near_bmp n_bmps false 33 fuel f s1 _
        (le_trans (by decide) hfu) hk1
    refine ⟨{ sec := sec, f_p := false, forward := fw, s := s2, restarts := k },
      ?_, ?_, ?_, ?_, ?_⟩
    · rw [hfuel fwd_fuel (le_refl _)]
    · intro fuel hfu
      rw [hfuel fuel hfu]
    · apply hfin
      rw [hfuel fwd_fuel (le_refl _)]
    · intro h
      exact absurd h hsec
    · intro _
      exact hfuel fwd_fuel (le_refl _)

/-- C7. For a non-negative (check-only) `forward`, `ntfs_alloc_sector`
terminates: the retry loop produces its result within the fuel and with every
larger fuel.  When the allocation near the hint found nothing, the search
over the regions starts with the clamped `forward`, `f`, and runs pass by
pass: each pass `j` before the last ran with `forward = f` halved `j` times,
not 0, and found nothing; every pass that finds nothing with `forward ≠ 0` is
followed by a restart with `forward` halved; the last pass delivers the
result, and the result is 0 only when `forward` has reached 0.  With
`f >= 1`, `goto less_fwd` is taken at most `ceil(log2 f) + 1` times. -/
theorem alloc_sector_restarts (s : Sb) (near n : Nat) (forward : Int) (h0 : 0 ≤ forward)
    (h31 : forward < 2147483648) (hmax : -2147483648 ≤ s.sb_max_fwd_alloc) :
    ∃ b, alloc_base fwd_fuel s near n forward = some b ∧
      (∀ fuel, fwd_fuel ≤ fuel → alloc_base fuel s near n forward = some b) ∧
      ntfs_alloc_sector s near n forward = alloc_finish b ∧
      (1 ≤ clamp_fwd false forward s →
        b.restarts ≤ Nat.clog 2 (clamp_fwd false forward s).toNat + 1) ∧
      ((alloc_near s near n forward).sec = 0 → 0 ≤ clamp_fwd false forward s →
        b.forward = (((clamp_fwd false forward s).toNat / 2 ^ b.restarts : Nat) : Int)) ∧
      ((alloc_near s near n forward).sec ≠ 0 →
        b.restarts = 0 ∧ b.sec = (alloc_near s near n forward).sec) ∧
      ((alloc_near s near n forward).sec = 0 →
        b.forward = halve^[b.restarts] (clamp_fwd false forward s) ∧
        (∀ j, j < b.restarts →
          halve^[j] (clamp_fwd false forward s) ≠ 0 ∧
          (search_regions n (alloc_near s near n forward).near_bmp
            (alloc_near s near n forward).n_bmps (halve^[j] (clamp_fwd false forward s))
            (alloc_near s near n forward).n_bmps 0
            (pass_state (alloc_near s near n forward).s (clamp_fwd false forward s) j)).1 = 0) ∧
        (∀ j, j ≤ b.restarts → halve^[j] (clamp_fwd false forward s) ≠ 0 →
          (search_regions n (alloc_near s near n forward).near_bmp
            (alloc_near s near n forward).n_bmps (halve^[j] (clamp_fwd false forward s))
            (alloc_near s near n forward).n_bmps 0
            (pass_state (alloc_near s near n forward).s (clamp_fwd false forward s) j)).1 = 0 →
          j < b.restarts) ∧
        (b.sec, b.s) =
          search_regions n (alloc_near s near n forward).near_bmp
            (alloc_near s near n forward).n_bmps (halve^[b.restarts] (clamp_fwd false forward s))
            (alloc_near s near n forward).n_bmps 0
            (pass_state (alloc_near s near n forward).s (clamp_fwd false forward s)
              b.restarts) ∧
        (b.sec = 0 → b.forward = 0)) := by
  obtain ⟨b, hb1, hb2, hb3, hb4, hb5⟩ := alloc_base_shape s near n forward h0 h31 hmax
  have hrange : (clamp_fwd false forward s).natAbs < 2 ^ 32 := by
    unfold clamp_fwd
    split <;> omega
  refine ⟨b, hb1, hb2, hb3, ?_, ?_, fun h => ⟨(hb4 h).1, (hb4 h).2.1⟩, ?_⟩
  · intro h1
    by_cases hsec : (alloc_near s near n forward).sec = 0
    · have hk := hb5 hsec
      generalize hf0 : clamp_fwd false forward s = f0 at hk hrange h1 ⊢
      have hpos : f0.toNat ≠ 0 := by omega
      have hlog : Nat.log 2 f0.toNat < 32 :=
        Nat.log_lt_of_lt_pow hpos (by omega)
      obtain ⟨sec', fw', s2', k', hk1', hk2', _⟩ :=
        less_fwd_terminates n (alloc_near s near n forward).near_bmp
          (alloc_near s near n forward).n_bmps false (Nat.log 2 f0.toNat + 1) f0
          (alloc_near s near n forward).s
          (by
            have := Nat.lt_pow_succ_log_self (b := 2) (by norm_num) f0.toNat
            have e : f0.natAbs = f0.toNat := by omega
            rw [e]; exact this)
      have := less_fwd_mono_le n _ _ false _ fwd_fuel f0 _ _
        (by unfold fwd_fuel; omega) hk1'
      rw [hk] at this
      simp only [Option.some.injEq, Prod.mk.injEq] at this
      obtain ⟨_, _, _, hkk⟩ := this
      have := Nat.log_le_clog 2 f0.toNat
      omega
    · rw [(hb4 hsec).1]
      exact Nat.zero_le _
  · intro hsec hc
    have hk := hb5 hsec
    obtain ⟨sec', fw', s2', k', hk1', _, hk3'⟩ :=
      less_fwd_terminates n (alloc_near s near n forward).near_bmp
        (alloc_near s near n forward).n_bmps false 32 (clamp_fwd false forward s)
        (alloc_near s near n forward).s hrange
    have := less_fwd_mono_le n _ _ false _ fwd_fuel _ _ _ (by decide) hk1'
    rw [hk] at this
    simp only [Option.some.injEq, Prod.mk.injEq] at this
    obtain ⟨_, hfw, _, hkk⟩ := this
    rw [hfw, hkk]
    exact hk3' hc
  · intro hsec
    obtain ⟨t1, t2, t3, t4⟩ := less_fwd_trace n _ _ _ _ _ _ _ _ _ (hb5 hsec)
    refine ⟨t1, t3, ?_, t2, fun h => by rw [t1]; exact t4 h⟩
    intro j hj hne hfail
    by_contra hlt
    have hjk : j = b.restarts := by omega
    subst hjk
    rw [← t2] at hfail
    exact hne (t4 hfail)

set_option maxRecDepth 1000000 in
/-- C7 at a concrete input: full file system, ceiling 100, request
`forward = 7`. -/
theorem alloc_sector_restarts_witness :
    ∃ b, alloc_base fwd_fuel fs_used 0 1 7 = some b ∧
      (∀ fuel, fwd_fuel ≤ fuel → alloc_base fuel fs_used 0 1 7 = some b) ∧
      ntfs_alloc_sector fs_used 0 1 7 = alloc_finish b ∧
      (1 ≤ clamp_fwd false 7 fs_used →
        b.restarts ≤ Nat.clog 2 (clamp_fwd false 7 fs_used).toNat + 1) ∧
      ((alloc_near fs_used 0 1 7).sec = 0 → 0 ≤ clamp_fwd false 7 fs_used →
        b.forward = (((clamp_fwd false 7 fs_used).toNat / 2 ^ b.restarts : Nat) : Int)) ∧
      ((alloc_near fs_used 0 1 7).sec ≠ 0 →
        b.restarts = 0 ∧ b.sec = (alloc_near fs_used 0 1 7).sec) ∧
      ((alloc_near fs_used 0 1 7).sec = 0 →
        b.forward = halve^[b.restarts] (clamp_fwd false 7 fs_used) ∧
        (∀ j, j < b.restarts →
          halve^[j] (clamp_fwd false 7 fs_used) ≠ 0 ∧
          (search_regions 1 (alloc_near fs_used 0 1 7).near_bmp
            (alloc_near fs_used 0 1 7).n_bmps (halve^[j] (clamp_fwd false 7 fs_used))
            (alloc_near fs_used 0 1 7).n_bmps 0
            (pass_state (alloc_near fs_used 0 1 7).s (clamp_fwd false 7 fs_used) j)).1 = 0) ∧
        (∀ j, j ≤ b.restarts → halve^[j] (clamp_fwd false 7 fs_used) ≠ 0 →
          (search_regions 1 (alloc_near fs_used 0 1 7).near_bmp
            (alloc_near fs_used 0 1 7).n_bmps (halve^[j] (clamp_fwd false 7 fs_used))
            (alloc_near fs_used 0 1 7).n_bmps 0
            (pass_state (alloc_near fs_used 0 1 7).s (clamp_fwd false 7 fs_used) j)).1 = 0 →
          j < b.restarts) ∧
        (b.sec, b.s) =
          search_regions 1 (alloc_near fs_used 0 1 7).near_bmp
            (alloc_near fs_used 0 1 7).n_bmps (halve^[b.restarts] (clamp_fwd false 7 fs_used))
            (alloc_near fs_used 0 1 7).n_bmps 0
            (pass_state (alloc_near fs_used 0 1 7).s (clamp_fwd false 7 fs_used)
              b.restarts) ∧
        (b.sec = 0 → b.forward = 0)) :=
  alloc_sector_restarts fs_used 0 1 7 (by decide) (by decide) (by decide)

/-- C18, amended. Adaptive shrink: for every positive check-only `forward`
request the base allocation of `ntfs_alloc_sector` ends.  When the allocation
near the hint found nothing, the search over the regions starts with the
clamped request `f` and runs pass by pass: every pass that finds nothing with
`forward ≠ 0` is followed by a restart, before which the ceiling
`max_fwd_alloc` is set to `forward * 3 / 4` for the value `forward` has in
that pass (`f` halved once per earlier restart) and `forward` is halved; the
last pass runs in the state with the ceiling so set and delivers the result.
So after `k ≥ 1` restarts `forward` is `f` halved `k` times and the ceiling is
3/4 of `f` halved `k - 1` times, not 3/4 of the prior ceiling; without a
restart the ceiling is unchanged. -/
theorem adaptive_shrink (s : Sb) (near n : Nat) (f0 : Int) (hpos : 0 < f0)
    (h31 : f0 < 2147483648) (hmax : -2147483648 ≤ s.sb_max_fwd_alloc) :
    ∃ b, alloc_base fwd_fuel s near n f0 = some b ∧
      (b.restarts = 0 → b.s.sb_max_fwd_alloc = s.sb_max_fwd_alloc) ∧
      (1 ≤ b.restarts →
        b.forward = halve^[b.restarts] (clamp_fwd false f0 s) ∧
        b.s.sb_max_fwd_alloc =
          Int.tdiv (toI32 (halve^[b.restarts - 1] (clamp_fwd false f0 s) * 3)) 4) ∧
      ((alloc_near s near n f0).sec ≠ 0 → b.restarts = 0) ∧
      ((alloc_near s near n f0).sec = 0 →
        (∀ j, j < b.restarts →
          halve^[j] (clamp_fwd false f0 s) ≠ 0 ∧
          (search_regions n (alloc_near s near n f0).near_bmp (alloc_near s near n f0).n_bmps
            (halve^[j] (clamp_fwd false f0 s)) (alloc_near s near n f0).n_bmps 0
            (pass_state (alloc_near s near n f0).s (clamp_fwd false f0 s) j)).1 = 0 ∧
          (pass_state (alloc_near s near n f0).s (clamp_fwd false f0 s)
              (j + 1)).sb_max_fwd_alloc =
            Int.tdiv (toI32 (halve^[j] (clamp_fwd false f0 s) * 3)) 4) ∧
        (∀ j, j ≤ b.restarts → halve^[j] (clamp_fwd false f0 s) ≠ 0 →
          (search_regions n (alloc_near s near n f0).near_bmp (alloc_near s near n f0).n_bmps
            (halve^[j] (clamp_fwd false f0 s)) (alloc_near s near n f0).n_bmps 0
            (pass_state (alloc_near s near n f0).s (clamp_fwd false f0 s) j)).1 = 0 →
          j < b.restarts) ∧
        (b.sec, b.s) =
          search_regions n (alloc_near s near n f0).near_bmp (alloc_near s near n f0).n_bmps
            (halve^[b.restarts] (clamp_fwd false f0 s)) (alloc_near s near n f0).n_bmps 0
            (pass_state (alloc_near s near n f0).s (clamp_fwd false f0 s) b.restarts)) := by
  obtain ⟨b, hb1, -, -, hb4, hb5⟩ := alloc_base_shape s near n f0 hpos.le h31 hmax
  have hsmax : (alloc_near s near n f0).s.sb_max_fwd_alloc = s.sb_max_fwd_alloc :=
    (alloc_near_facts s near n f0).2.2.2.2.2.2.2.2
  refine ⟨b, hb1, ?_, ?_, fun h => (hb4 h).1, ?_⟩
  · intro hk0
    by_cases hsec : (alloc_near s near n f0).sec = 0
    · obtain ⟨-, i2, -⟩ := less_fwd_shrinks n _ _ _ _ _ _ _ _ _ (hb5 hsec)
      rw [← hsmax]
      exact i2 hk0
    · rw [(hb4 hsec).2.2]
      exact hsmax
  · intro hk1
    by_cases hsec : (alloc_near s near n f0).sec = 0
    · obtain ⟨i1, -, i3⟩ := less_fwd_shrinks n _ _ _ _ _ _ _ _ _ (hb5 hsec)
      exact ⟨i1, i3 hk1⟩
    · have := (hb4 hsec).1
      omega
  · intro hsec
    obtain ⟨-, t2, t3, t4⟩ := less_fwd_trace n _ _ _ _ _ _ _ _ _ (hb5 hsec)
    refine ⟨fun j hj => ⟨(t3 j hj).1, (t3 j hj).2, rfl⟩, ?_, t2⟩
    intro j hj hne hfail
    by_contra hlt
    have hjk : j = b.restarts := by omega
    subst hjk
    rw [← t2] at hfail
    exact hne (t4 hfail)

set_option maxRecDepth 1000000 in
/-- C18, amended, at a concrete input: full file system, ceiling 100, request
`forward = 7`. -/
theorem adaptive_shrink_witness :
    ∃ b, alloc_base fwd_fuel fs_used 0 1 7 = some b ∧
      (b.restarts = 0 → b.s.sb_max_fwd_alloc = fs_used.sb_max_fwd_alloc) ∧
      (1 ≤ b.restarts →
        b.forward = halve^[b.restarts] (clamp_fwd false 7 fs_used) ∧
        b.s.sb_max_fwd_alloc =
          Int.tdiv (toI32 (halve^[b.restarts - 1] (clamp_fwd false 7 fs_used) * 3)) 4) ∧
      ((alloc_near fs_used 0 1 7).sec ≠ 0 → b.restarts = 0) ∧
      ((alloc_near fs_used 0 1 7).sec = 0 →
        (∀ j, j < b.restarts →
          halve^[j] (clamp_fwd false 7 fs_used) ≠ 0 ∧
          (search_regions 1 (alloc_near fs_used 0 1 7).near_bmp (alloc_near fs_used 0 1 7).n_bmps
            (halve^[j] (clamp_fwd false 7 fs_used)) (alloc_near fs_used 0 1 7).n_bmps 0
            (pass_state (alloc_near fs_used 0 1 7).s (clamp_fwd false 7 fs_used) j)).1 = 0 ∧
          (pass_state (alloc_near fs_used 0 1 7).s (clamp_fwd false 7 fs_used)
              (j + 1)).sb_max_fwd_alloc =
            Int.tdiv (toI32 (halve^[j] (clamp_fwd false 7 fs_used) * 3)) 4) ∧
        (∀ j, j ≤ b.restarts → halve^[j] (clamp_fwd false 7 fs_used) ≠ 0 →
          (search_regions 1 (alloc_near fs_used 0 1 7).near_bmp (alloc_near fs_used 0 1 7).n_bmps
            (halve^[j] (clamp_fwd false 7 fs_used)) (alloc_near fs_used 0 1 7).n_bmps 0
            (pass_state (alloc_near fs_used 0 1 7).s (clamp_fwd false 7 fs_used) j)).1 = 0 →
          j < b.restarts) ∧
        (b.sec, b.s) =
          search_regions 1 (alloc_near fs_used 0 1 7).near_bmp (alloc_near fs_used 0 1 7).n_bmps
            (halve^[b.restarts] (clamp_fwd false 7 fs_used)) (alloc_near fs_used 0 1 7).n_bmps 0
            (pass_state (alloc_near fs_used 0 1 7).s (clamp_fwd false 7 fs_used) b.restarts)) :=
  adaptive_shrink fs_used 0 1 7 (by decide) (by decide) (by decide)

end NtfsAlloc
